import Mathlib

/-!
Verification development for the python-typedstream library.

The Python sources are shallowly embedded:
* bytes are `List Nat` (each entry a value 0..255; signedness is applied
  explicitly where the source reinterprets bytes as signed),
* fallible code returns `Option`/`Except`,
* generators are functions returning the produced list together with the
  unconsumed remainder of the input,
* unbounded recursion (the reader and the unarchiver recurse through
  arbitrarily nested values) is expressed with an explicit fuel parameter,
  decremented on every recursive call, so that all definitions are
  structurally recursive and executable.
-/

set_option autoImplicit false

namespace TypedStream

/-! ## Byte helpers -/

/-- The code points of an ASCII string, used to write byte-string literals. -/
def bytesOfString (s : String) : List Nat :=
  s.toList.map Char.toNat

/-- Reinterpret a byte (0..255) as a signed 8-bit integer,
as `int.from_bytes(b, signed=True)` does for a single byte. -/
def toSigned8 (b : Nat) : Int :=
  if b % 256 < 128 then ((b % 256 : Nat) : Int) else ((b % 256 : Nat) : Int) - 256

/-- Byte order of a typedstream, selected by the signature string. -/
inductive ByteOrder where
  | little
  | big
deriving DecidableEq, Repr

/-- The unsigned value of a byte string in the given byte order
(`int.from_bytes(data, byte_order, signed=False)`). -/
def bytesToNat (order : ByteOrder) (l : List Nat) : Nat :=
  match order with
  | .little => l.foldr (fun b acc => acc * 256 + b % 256) 0
  | .big => l.foldl (fun acc b => acc * 256 + b % 256) 0

/-- `int.from_bytes(data, byte_order, signed=signed)`. -/
def intFromBytes (order : ByteOrder) (signed : Bool) (l : List Nat) : Int :=
  let u := bytesToNat order l
  if signed ∧ 2 * u ≥ 256 ^ l.length then (u : Int) - (256 ^ l.length : Nat) else (u : Int)

/-- Python list indexing (`l[i]`): negative indices count from the end,
out-of-range indices (in either direction) raise `IndexError` (here `none`). -/
def pyGet {α : Type} (l : List α) (i : Int) : Option α :=
  if 0 ≤ i then l.get? i.toNat
  else if 0 ≤ i + l.length then l.get? (i + l.length).toNat
  else none

/-! ## `typedstream/encodings.py`

Type-encoding grammar operations.  The byte values used below:
`(` 40, `)` 41, `[` 91, `]` 93, `{` 123, `}` 125, `=` 61, `?` 63,
digits 48..57.
-/

/-- The scanning loop of `_end_of_encoding`, expressed structurally over the
suffix of the encoding that starts at the current index.  Returns the number
of bytes belonging to the single encoding starting here (`none` models the
two `ValueError` raises for incomplete encodings). -/
def end_loop : List Nat → Nat → Option Nat
  | [], _ => none
  | c :: rest, depth =>
    if c = 40 ∨ c = 91 ∨ c = 123 then
      (end_loop rest (depth + 1)).map (· + 1)
    else if 0 < depth then
      let depth' := if c = 41 ∨ c = 93 ∨ c = 125 then depth - 1 else depth
      if depth' = 0 then some 1 else (end_loop rest depth').map (· + 1)
    else
      some 1

/-- `_end_of_encoding(encoding, start)`: the end index of the single type
encoding starting at index `start`. -/
def _end_of_encoding (encoding : List Nat) (start : Nat) : Option Nat :=
  if start < encoding.length then
    (end_loop (encoding.drop start) 0).map (· + start)
  else
    none

/-- The loop of `split_encodings`, with fuel (each iteration consumes at least
one byte, so `l.length` fuel always suffices; see `split_encodings`). -/
def split_loop : Nat → List Nat → Option (List (List Nat))
  | _, [] => some []
  | 0, _ :: _ => none
  | fuel + 1, l => do
    let e ← end_loop l 0
    let parts ← split_loop fuel (l.drop e)
    pure (l.take e :: parts)

/-- `split_encodings(encodings)`: split a type-encoding string into its
single-type encodings (fully materialized; the Python generator is drained
everywhere it is used in the code under study). -/
def split_encodings (encodings : List Nat) : Option (List (List Nat)) :=
  split_loop encodings.length encodings

/-- `join_encodings(encodings)` (`b"".join(encodings)`). -/
def join_encodings (encodings : List (List Nat)) : List Nat :=
  encodings.foldr List.append []

/-- `parse_array_encoding(array_encoding)`: length and element type of an
array type encoding `[N T]`. -/
def parse_array_encoding (array_encoding : List Nat) : Option (Nat × List Nat) :=
  if array_encoding.head? = some 91 ∧ array_encoding.getLast? = some 93 then
    let inner := (array_encoding.drop 1).take (array_encoding.length - 2)
    let length_string := inner.takeWhile (fun c => 48 ≤ c && c ≤ 57)
    let element := inner.drop length_string.length
    if length_string = [] ∨ element = [] then none
    else some (length_string.foldl (fun acc c => acc * 10 + (c - 48)) 0, element)
  else none

/-- `parse_struct_encoding(struct_encoding)`: name (if any) and field type
encodings of a struct type encoding `{Name=F1F2...}`.  The name search mirrors
`struct_encoding.index(b"=", 1, end)` where `end` is the position of the first
`{` after index 0 (or `-1`, i.e. the last index, if there is none). -/
def parse_struct_encoding (struct_encoding : List Nat) :
    Option (Option (List Nat) × List (List Nat)) :=
  if struct_encoding.head? = some 123 ∧ struct_encoding.getLast? = some 125 then
    let inner := (struct_encoding.drop 1).take (struct_encoding.length - 2)
    let stop := match (struct_encoding.drop 1).findIdx? (fun c => c = 123) with
      | some k => k + 1
      | none => struct_encoding.length - 1
    match ((struct_encoding.drop 1).take (stop - 1)).findIdx? (fun c => c = 61) with
    | none => (split_encodings inner).map (fun fs => (none, fs))
    | some p =>
      let name := (struct_encoding.drop 1).take p
      let fields_str := (struct_encoding.drop (p + 2)).take (struct_encoding.length - 1 - (p + 2))
      (split_encodings fields_str).map (fun fs => (some name, fs))
  else none

/-- `build_struct_encoding(name, field_type_encodings)`. -/
def build_struct_encoding (name : Option (List Nat)) (field_type_encodings : List (List Nat)) :
    List Nat :=
  match name with
  | none => 123 :: (join_encodings field_type_encodings ++ [125])
  | some nm => 123 :: (nm ++ 61 :: (join_encodings field_type_encodings ++ [125]))

mutual

/-- The recursion of `encoding_matches_expected`, with fuel (`none` models
both fuel exhaustion and a `ValueError` escaping from the parse helpers;
`encoding_matches_expected` supplies fuel that is always sufficient for the
non-raising cases). -/
def matchesF : Nat → List Nat → List Nat → Option Bool
  | 0, _, _ => none
  | fuel + 1, actual, expected =>
    if actual.head? = some 123 ∧ expected.head? = some 123 then
      match parse_struct_encoding actual, parse_struct_encoding expected with
      | some (an, afs), some (en, efs) =>
        if an = none ∨ an = some [63] ∨ an = en then allMatchF fuel afs efs
        else some false
      | _, _ => none
    else if actual.head? = some 91 ∧ expected.head? = some 91 then
      match parse_array_encoding actual, parse_array_encoding expected with
      | some (alen, ael), some (elen, eel) =>
        if alen = elen then matchesF fuel ael eel else some false
      | _, _ => none
    else
      some (decide (actual = expected))

/-- The recursion of `all_encodings_match_expected`, with fuel. -/
def allMatchF : Nat → List (List Nat) → List (List Nat) → Option Bool
  | _, [], [] => some true
  | 0, _, _ => none
  | _ + 1, [], _ :: _ => some false
  | _ + 1, _ :: _, [] => some false
  | fuel + 1, a :: as', e :: es => do
    let b ← matchesF fuel a e
    if b then allMatchF fuel as' es else pure false

end

/-- `encoding_matches_expected(actual_encoding, expected_encoding)`. -/
def encoding_matches_expected (actual expected : List Nat) : Bool :=
  (matchesF (actual.length + 2 * expected.length + 1) actual expected).getD false

/-- `all_encodings_match_expected(actual_encodings, expected_encodings)`. -/
def all_encodings_match_expected (actuals expecteds : List (List Nat)) : Bool :=
  (allMatchF ((actuals.map List.length).sum + 2 * (expecteds.map List.length).sum
    + actuals.length + expecteds.length + 1) actuals expecteds).getD false

/-! ## `typedstream/stream.py`: constants and event model -/

def STREAMER_VERSION_OLD_NEXTSTEP : Nat := 3
def STREAMER_VERSION_CURRENT : Nat := 4
def _SIGNATURE_BIG_ENDIAN : List Nat := bytesOfString "typedstream"
def _SIGNATURE_LITTLE_ENDIAN : List Nat := bytesOfString "streamtyped"

def _TAG_INTEGER_2 : Int := -127
def _TAG_INTEGER_4 : Int := -126
def _TAG_FLOATING_POINT : Int := -125
def _TAG_NEW : Int := -124
def _TAG_NIL : Int := -123
def _TAG_END_OF_OBJECT : Int := -122
def _FIRST_TAG : Int := -128
def _LAST_TAG : Int := -111
def _FIRST_REFERENCE_NUMBER : Int := _LAST_TAG + 1

/-- `_decode_reference_number(encoded)`. -/
def _decode_reference_number (encoded : Int) : Int :=
  encoded - _FIRST_REFERENCE_NUMBER

/-- The error kinds the reader can raise.
`invalid` is `InvalidTypedStreamError`; `indexError` is the plain `IndexError`
escaping from `shared_string_table[decoded]`; `valueError` is a `ValueError`
escaping from the `encodings` module's parse helpers; `eof` is the internal
`EOFError` used by `_read_typed_values`/`_read_all_values`; `fuel` is an
artifact of the fuel-based embedding (unbounded recursion in Python). -/
inductive ReadError where
  | invalid
  | indexError
  | valueError
  | eof
  | fuel
deriving DecidableEq, Repr

/-- A Python float value as the reader produces it: either a widened integer
(`float(self._read_integer(...))`) or raw IEEE 754 bytes, left uninterpreted
by this embedding. -/
inductive PyFloat where
  | ofInt (i : Int)
  | raw (order : ByteOrder) (data : List Nat)
deriving DecidableEq, Repr

/-- `ObjectReference.Type`. -/
inductive RefKind where
  | C_STRING
  | CLASS
  | OBJECT
deriving DecidableEq, Repr

/-- The reader's events (`ReadEvent`).  `nil` is the Python `None` event. -/
inductive Event where
  | beginTypedValues (encodings : List (List Nat))
  | endTypedValues
  | intValue (i : Int)
  | boolValue (b : Bool)
  | floatValue (f : PyFloat)
  | reference (kind : RefKind) (number : Int)
  | atom (contents : Option (List Nat))
  | selector (name : Option (List Nat))
  | cString (contents : List Nat)
  | bytesValue (data : List Nat)
  | singleClass (name : List Nat) (version : Int)
  | beginObject
  | endObject
  | byteArray (element_encoding : List Nat) (data : List Nat)
  | beginArray (element_encoding : List Nat) (length : Nat)
  | endArray
  | beginStruct (name : Option (List Nat)) (field_encodings : List (List Nat))
  | endStruct
  | nil
deriving DecidableEq, Repr

/-- The reader's shared string table. -/
abbrev SST := List (List Nat)

/-- Python's bytes-substring test `needle in haystack`. -/
def bytes_contains (haystack needle : List Nat) : Bool :=
  (List.range (haystack.length + 1)).any (fun i => (haystack.drop i).take needle.length == needle)

/-! ## `TypedStreamReader`: non-recursive readers -/

/-- `_read_exact(byte_count)`: returns the bytes read and the remainder. -/
def _read_exact (byte_count : Nat) (l : List Nat) :
    Except ReadError (List Nat × List Nat) :=
  if byte_count ≤ l.length then .ok (l.take byte_count, l.drop byte_count)
  else .error .invalid

/-- `_read_head_byte(head)`: one signed byte of lookahead.  If `head` is
given it is returned without reading. -/
def _read_head_byte (head : Option Int) (l : List Nat) :
    Except ReadError (Int × List Nat) :=
  match head with
  | some h => .ok (h, l)
  | none => do
    let (bs, l) ← _read_exact 1 l
    .ok (toSigned8 (bs.headD 0), l)

/-- `_read_integer(head, signed=signed)`. -/
def _read_integer (order : ByteOrder) (head : Option Int) (signed : Bool) (l : List Nat) :
    Except ReadError (Int × List Nat) := do
  let (h, l) ← _read_head_byte head l
  if h < _FIRST_TAG ∨ _LAST_TAG < h then
    if signed then .ok (h, l) else .ok (h.emod 256, l)
  else if h = _TAG_INTEGER_2 then do
    let (bs, l) ← _read_exact 2 l
    .ok (intFromBytes order signed bs, l)
  else if h = _TAG_INTEGER_4 then do
    let (bs, l) ← _read_exact 4 l
    .ok (intFromBytes order signed bs, l)
  else
    .error .invalid

/-- `_read_float(head)`. -/
def _read_float (order : ByteOrder) (head : Option Int) (l : List Nat) :
    Except ReadError (PyFloat × List Nat) := do
  let (h, l) ← _read_head_byte head l
  if h = _TAG_FLOATING_POINT then do
    let (bs, l) ← _read_exact 4 l
    .ok (.raw order bs, l)
  else do
    let (v, l) ← _read_integer order (some h) true l
    .ok (.ofInt v, l)

/-- `_read_double(head)`. -/
def _read_double (order : ByteOrder) (head : Option Int) (l : List Nat) :
    Except ReadError (PyFloat × List Nat) := do
  let (h, l) ← _read_head_byte head l
  if h = _TAG_FLOATING_POINT then do
    let (bs, l) ← _read_exact 8 l
    .ok (.raw order bs, l)
  else do
    let (v, l) ← _read_integer order (some h) true l
    .ok (.ofInt v, l)

/-- `_read_unshared_string(head)`. -/
def _read_unshared_string (order : ByteOrder) (head : Option Int) (l : List Nat) :
    Except ReadError (Option (List Nat) × List Nat) := do
  let (h, l) ← _read_head_byte head l
  if h = _TAG_NIL then .ok (none, l)
  else do
    let (len, l) ← _read_integer order (some h) false l
    let (s, l) ← _read_exact len.toNat l
    .ok (some s, l)

/-- `_read_shared_string(head)`: literal shared strings are appended to the
shared string table; references are looked up with Python list indexing. -/
def _read_shared_string (order : ByteOrder) (head : Option Int) (l : List Nat) (table : SST) :
    Except ReadError (Option (List Nat) × List Nat × SST) := do
  let (h, l) ← _read_head_byte head l
  if h = _TAG_NIL then .ok (none, l, table)
  else if h = _TAG_NEW then do
    let (s?, l) ← _read_unshared_string order none l
    match s? with
    | none => .error .invalid
    | some s => .ok (some s, l, table ++ [s])
  else do
    let (rn, l) ← _read_integer order (some h) true l
    match pyGet table (_decode_reference_number rn) with
    | none => .error .indexError
    | some s => .ok (some s, l, table)

/-- `_read_object_reference(referenced_type, head)`. -/
def _read_object_reference (order : ByteOrder) (kind : RefKind) (head : Option Int)
    (l : List Nat) : Except ReadError (Event × List Nat) := do
  let (rn, l) ← _read_integer order head true l
  .ok (.reference kind (_decode_reference_number rn), l)

/-- `_read_c_string(head)`. -/
def _read_c_string (order : ByteOrder) (head : Option Int) (l : List Nat) (table : SST) :
    Except ReadError (Event × List Nat × SST) := do
  let (h, l) ← _read_head_byte head l
  if h = _TAG_NIL then .ok (.nil, l, table)
  else if h = _TAG_NEW then do
    let (s?, l, table) ← _read_shared_string order none l table
    match s? with
    | none => .error .invalid
    | some s =>
      if 0 ∈ s then .error .invalid
      else .ok (.cString s, l, table)
  else do
    let (ev, l) ← _read_object_reference order .C_STRING (some h) l
    .ok (ev, l, table)

/-! ## `TypedStreamReader`: recursive readers

All functions below take a fuel parameter that is decremented on every call
into the mutual block, making them structurally recursive (Python's recursion
is unbounded; any terminating Python run corresponds to a sufficiently large
fuel value). -/

mutual

/-- `_read_class(head)`: the superclass-chain loop, terminator included. -/
def _read_class : Nat → ByteOrder → Option Int → List Nat → SST →
    Except ReadError (List Event × List Nat × SST)
  | 0, _, _, _, _ => .error .fuel
  | fuel + 1, order, head, l, table => do
    let (h, l) ← _read_head_byte head l
    if h = _TAG_NEW then do
      let (name?, l, table) ← _read_shared_string order none l table
      match name? with
      | none => .error .invalid
      | some name => do
        let (version, l) ← _read_integer order none true l
        let (evs, l, table) ← _read_class fuel order none l table
        .ok (.singleClass name version :: evs, l, table)
    else if h = _TAG_NIL then
      .ok ([.nil], l, table)
    else do
      let (ev, l) ← _read_object_reference order .CLASS (some h) l
      .ok ([ev], l, table)

/-- `_read_object(head)`. -/
def _read_object : Nat → ByteOrder → Option Int → List Nat → SST →
    Except ReadError (List Event × List Nat × SST)
  | 0, _, _, _, _ => .error .fuel
  | fuel + 1, order, head, l, table => do
    let (h, l) ← _read_head_byte head l
    if h = _TAG_NIL then .ok ([.nil], l, table)
    else if h = _TAG_NEW then do
      let (cevs, l, table) ← _read_class fuel order none l table
      let (bevs, l, table) ← _read_object_body fuel order l table
      .ok (.beginObject :: (cevs ++ bevs ++ [.endObject]), l, table)
    else do
      let (ev, l) ← _read_object_reference order .OBJECT (some h) l
      .ok ([ev], l, table)

/-- The `while next_head != _TAG_END_OF_OBJECT` loop of `_read_object`. -/
def _read_object_body : Nat → ByteOrder → List Nat → SST →
    Except ReadError (List Event × List Nat × SST)
  | 0, _, _, _ => .error .fuel
  | fuel + 1, order, l, table => do
    let (h, l) ← _read_head_byte none l
    if h = _TAG_END_OF_OBJECT then .ok ([], l, table)
    else do
      let (evs, l, table) ← _read_typed_values fuel order (some h) false l table
      let (evs', l, table) ← _read_object_body fuel order l table
      .ok (evs ++ evs', l, table)

/-- `_read_value_with_encoding(type_encoding, head)`.  The membership tests
`type_encoding in b"SILQ"` etc. are Python bytes-substring tests, modelled
with `List.isInfixOf`. -/
def _read_value_with_encoding : Nat → ByteOrder → List Nat → Option Int → List Nat → SST →
    Except ReadError (List Event × List Nat × SST)
  | 0, _, _, _, _, _ => .error .fuel
  | fuel + 1, order, type_encoding, head, l, table =>
    if type_encoding = [66] then do  -- b"B"
      let (bs, l) ← _read_exact 1 l
      let val := bs.headD 0 % 256
      if val = 0 then .ok ([.boolValue false], l, table)
      else if val = 1 then .ok ([.boolValue true], l, table)
      else .error .invalid
    else if type_encoding = [67] then do  -- b"C"
      let (bs, l) ← _read_exact 1 l
      .ok ([.intValue (intFromBytes order false bs)], l, table)
    else if type_encoding = [99] then do  -- b"c"
      let (bs, l) ← _read_exact 1 l
      .ok ([.intValue (intFromBytes order true bs)], l, table)
    else if bytes_contains (bytesOfString "SILQ") type_encoding then do
      let (v, l) ← _read_integer order head false l
      .ok ([.intValue v], l, table)
    else if bytes_contains (bytesOfString "silq") type_encoding then do
      let (v, l) ← _read_integer order head true l
      .ok ([.intValue v], l, table)
    else if type_encoding = [102] then do  -- b"f"
      let (v, l) ← _read_float order head l
      .ok ([.floatValue v], l, table)
    else if type_encoding = [100] then do  -- b"d"
      let (v, l) ← _read_double order head l
      .ok ([.floatValue v], l, table)
    else if type_encoding = [42] then do  -- b"*"
      let (ev, l, table) ← _read_c_string order head l table
      .ok ([ev], l, table)
    else if type_encoding = [37] then do  -- b"%"
      let (s?, l, table) ← _read_shared_string order head l table
      .ok ([.atom s?], l, table)
    else if type_encoding = [58] then do  -- b":"
      let (s?, l, table) ← _read_shared_string order head l table
      .ok ([.selector s?], l, table)
    else if type_encoding = [43] then do  -- b"+"
      let (s?, l) ← _read_unshared_string order head l
      match s? with
      | none => .ok ([.nil], l, table)
      | some s => .ok ([.bytesValue s], l, table)
    else if type_encoding = [35] then  -- b"#"
      _read_class fuel order head l table
    else if type_encoding = [64] then  -- b"@"
      _read_object fuel order head l table
    else if type_encoding = [33] then  -- b"!"
      .ok ([.nil], l, table)
    else if type_encoding.head? = some 91 then  -- b"["
      match parse_array_encoding type_encoding with
      | none => .error .valueError
      | some (length, element_type_encoding) =>
        if bytes_contains [67, 99] element_type_encoding then do  -- b"Cc"
          let (bs, l) ← _read_exact length l
          .ok ([.byteArray element_type_encoding bs], l, table)
        else do
          let (evs, l, table) ← _read_array_elems fuel order length element_type_encoding l table
          .ok (.beginArray element_type_encoding length :: (evs ++ [.endArray]), l, table)
    else if type_encoding.head? = some 123 then  -- b"{"
      match parse_struct_encoding type_encoding with
      | none => .error .valueError
      | some (name, field_type_encodings) => do
        let (evs, l, table) ← _read_struct_fields fuel order field_type_encodings l table
        .ok (.beginStruct name field_type_encodings :: (evs ++ [.endStruct]), l, table)
    else
      .error .invalid

/-- The `for _ in range(length)` element loop of the array branch. -/
def _read_array_elems : Nat → ByteOrder → Nat → List Nat → List Nat → SST →
    Except ReadError (List Event × List Nat × SST)
  | 0, _, _, _, _, _ => .error .fuel
  | _ + 1, _, 0, _, l, table => .ok ([], l, table)
  | fuel + 1, order, n + 1, enc, l, table => do
    let (evs, l, table) ← _read_value_with_encoding fuel order enc none l table
    let (evs', l, table) ← _read_array_elems fuel order n enc l table
    .ok (evs ++ evs', l, table)

/-- The field loop of the struct branch. -/
def _read_struct_fields : Nat → ByteOrder → List (List Nat) → List Nat → SST →
    Except ReadError (List Event × List Nat × SST)
  | 0, _, _, _, _ => .error .fuel
  | _ + 1, _, [], l, table => .ok ([], l, table)
  | fuel + 1, order, enc :: encs, l, table => do
    let (evs, l, table) ← _read_value_with_encoding fuel order enc none l table
    let (evs', l, table) ← _read_struct_fields fuel order encs l table
    .ok (evs ++ evs', l, table)

/-- `_read_typed_values(head, end_of_stream_ok=...)`: one group of typed
values.  The `try`/`except` around the first head-byte read converts an
`InvalidTypedStreamError` (only raisable there as a short read) into the
internal `EOFError` when `end_of_stream_ok` is set. -/
def _read_typed_values : Nat → ByteOrder → Option Int → Bool → List Nat → SST →
    Except ReadError (List Event × List Nat × SST)
  | 0, _, _, _, _, _ => .error .fuel
  | fuel + 1, order, head, end_of_stream_ok, l, table =>
    match _read_head_byte head l with
    | .error e => if end_of_stream_ok ∧ e = .invalid then .error .eof else .error e
    | .ok (h, l) => do
      let (enc?, l, table) ← _read_shared_string order (some h) l table
      match enc? with
      | none => .error .invalid
      | some enc =>
        if enc = [] then .error .invalid
        else
          match split_encodings enc with
          | none => .error .valueError
          | some type_encodings => do
            let (evs, l, table) ← _read_group_values fuel order type_encodings l table
            .ok (.beginTypedValues type_encodings :: (evs ++ [.endTypedValues]), l, table)

/-- The per-encoding value loop of `_read_typed_values`. -/
def _read_group_values : Nat → ByteOrder → List (List Nat) → List Nat → SST →
    Except ReadError (List Event × List Nat × SST)
  | 0, _, _, _, _ => .error .fuel
  | _ + 1, _, [], l, table => .ok ([], l, table)
  | fuel + 1, order, enc :: encs, l, table => do
    let (evs, l, table) ← _read_value_with_encoding fuel order enc none l table
    let (evs', l, table) ← _read_group_values fuel order encs l table
    .ok (evs ++ evs', l, table)

end

/-- `_read_all_values()`: read typed-value groups until the internal
`EOFError` signals a clean end of stream. -/
def _read_all_values : Nat → ByteOrder → List Nat → SST →
    Except ReadError (List Event × List Nat × SST)
  | 0, _, _, _ => .error .fuel
  | fuel + 1, order, l, table =>
    match _read_typed_values fuel order none true l table with
    | .error .eof => .ok ([], l, table)
    | .error e => .error e
    | .ok (evs, l', table') => do
      let (evs', l'', table'') ← _read_all_values fuel order l' table'
      .ok (evs ++ evs', l'', table'')

/-- `_read_header()`: streamer version, signature (byte order), system
version. -/
def _read_header (l : List Nat) :
    Except ReadError ((Nat × ByteOrder × Int) × List Nat) := do
  let (hdr, l) ← _read_exact 2 l
  match hdr with
  | [streamer_version, signature_length] =>
    if streamer_version < STREAMER_VERSION_OLD_NEXTSTEP ∨
        STREAMER_VERSION_CURRENT < streamer_version then .error .invalid
    else if streamer_version = STREAMER_VERSION_OLD_NEXTSTEP then .error .invalid
    else if signature_length ≠ _SIGNATURE_BIG_ENDIAN.length then .error .invalid
    else do
      let (signature, l) ← _read_exact signature_length l
      let order? : Option ByteOrder :=
        if signature = _SIGNATURE_BIG_ENDIAN then some .big
        else if signature = _SIGNATURE_LITTLE_ENDIAN then some .little
        else none
      match order? with
      | none => .error .invalid
      | some order => do
        let (system_version, l) ← _read_integer order none false l
        .ok ((streamer_version, order, system_version), l)
  | _ => .error .invalid

/-- A whole `TypedStreamReader` run on raw data: parse the header, then
iterate all events.  Returns the events together with the unconsumed bytes
and the final shared string table. -/
def typedstream_events (fuel : Nat) (data : List Nat) :
    Except ReadError (List Event × List Nat × SST) := do
  let ((_, order, _), l) ← _read_header data
  _read_all_values fuel order l []

/-! ## `typedstream/archiving.py`: data model -/

/-- `Class`: name, version and superclass chain as reconstructed by the
unarchiver. -/
inductive ClassDesc where
  | mk (name : List Nat) (version : Int) (superclass : Option ClassDesc)

def ClassDesc.name : ClassDesc → List Nat
  | .mk n _ _ => n

def ClassDesc.version : ClassDesc → Int
  | .mk _ v _ => v

def ClassDesc.superclass : ClassDesc → Option ClassDesc
  | .mk _ _ s => s

/-- Structural equality on `ClassDesc`.  `instantiate_archived_class`
compares the looked-up class with the archived class; in Python this is an
identity comparison, and structural equality agrees with it there because the
looked-up descriptor is a node of the archived descriptor's own superclass
chain (a strict subterm is never structurally equal to the whole term). -/
def classDescBEq : ClassDesc → ClassDesc → Bool
  | .mk n v s, .mk n' v' s' =>
    n = n' && v = v' &&
      match s, s' with
      | none, none => true
      | some c, some c' => classDescBEq c c'
      | _, _ => false

/-- The error kinds of the unarchiver.  `valueError`, `typeError`,
`lookupError`, `indexError`, `stopIteration`, `unicodeError` and
`attributeError` are the corresponding Python exception types; `fuel` is the
embedding's fuel-exhaustion artifact. -/
inductive UErr where
  | valueError
  | typeError
  | indexError
  | stopIteration
  | unicodeError
  | attributeError
  | fuel
deriving DecidableEq, Repr

/-- The Python classes registered with `@archiving.archived_class` that this
development models (the subset of the built-in catalog exercised by the
claims; classes outside this subset behave like unregistered classes and
decode to generic objects). -/
inductive PyClass where
  | NSObject
  | NSString
  | NSMutableString
deriving DecidableEq, Repr

/-- `archived_name` of each modelled Python class. -/
def archived_name : PyClass → List Nat
  | .NSObject => bytesOfString "NSObject"
  | .NSString => bytesOfString "NSString"
  | .NSMutableString => bytesOfString "NSMutableString"

/-- `archived_classes_by_name`, restricted to the modelled catalog subset. -/
def archived_classes_by_name (name : List Nat) : Option PyClass :=
  if name = bytesOfString "NSObject" then some .NSObject
  else if name = bytesOfString "NSString" then some .NSString
  else if name = bytesOfString "NSMutableString" then some .NSMutableString
  else none

/-- An instance of a known archived class.  `NSString`'s `value` is the list
of Unicode code points of the decoded string; `none` models an instance whose
`value` attribute has not been assigned yet (a freshly constructed, not yet
initialized Python object). -/
inductive KnownObj where
  | NSObject
  | NSString (value : Option (List Nat))
  | NSMutableString (value : Option (List Nat))
deriving DecidableEq, Repr

/-- `python_class()`: a freshly constructed, uninitialized instance. -/
def uninitialized_instance : PyClass → KnownObj
  | .NSObject => .NSObject
  | .NSString => .NSString none
  | .NSMutableString => .NSMutableString none

/-- The Python struct classes registered with `@archiving.struct_class` that
this development models. -/
inductive StructClass where
  | NSPoint
  | NSSize
  | NSRect
deriving DecidableEq, Repr

def NSPoint_encoding : List Nat :=
  build_struct_encoding (some (bytesOfString "_NSPoint")) [[102], [102]]

def NSSize_encoding : List Nat :=
  build_struct_encoding (some (bytesOfString "_NSSize")) [[102], [102]]

def NSRect_encoding : List Nat :=
  build_struct_encoding (some (bytesOfString "_NSRect")) [NSPoint_encoding, NSSize_encoding]

/-- `struct_classes_by_encoding`, restricted to the modelled subset. -/
def struct_classes_by_encoding (enc : List Nat) : Option StructClass :=
  if enc = NSPoint_encoding then some .NSPoint
  else if enc = NSSize_encoding then some .NSSize
  else if enc = NSRect_encoding then some .NSRect
  else none

/-- `field_encodings` of each modelled struct class. -/
def struct_field_encodings : StructClass → List (List Nat)
  | .NSPoint => [[102], [102]]
  | .NSSize => [[102], [102]]
  | .NSRect => [NSPoint_encoding, NSSize_encoding]

mutual

/-- A decoded value (the `typing.Any` results of
`Unarchiver.decode_any_untyped_value`). -/
inductive UValue where
  | nil
  | boolValue (b : Bool)
  | intValue (i : Int)
  | floatValue (f : PyFloat)
  | bytesValue (data : List Nat)
  | clazz (c : ClassDesc)
  | knownObject (k : KnownObj)
  | genericObject (clazz : ClassDesc) (super_object : Option KnownObj) (contents : List UTypedGroup)
  | array (elements : List UValue)
  | byteArrayValue (data : List Nat)
  | genericStruct (name : Option (List Nat)) (fields : List UValue)
  | nsPoint (x y : UValue)
  | nsSize (width height : UValue)
  | nsRect (origin size : UValue)

/-- `TypedGroup` / `TypedValue`: a decoded group of typed values.  The group
is a `TypedValue` exactly when it was built from a single type encoding. -/
inductive UTypedGroup where
  | mk (encodings : List (List Nat)) (values : List UValue)

end

/-- `python_struct_class(*fields)` for the modelled struct classes
(`TypeError` on an arity mismatch, as in Python). -/
def mk_known_struct : StructClass → List UValue → Except UErr UValue
  | .NSPoint, [x, y] => .ok (.nsPoint x y)
  | .NSSize, [w, h] => .ok (.nsSize w h)
  | .NSRect, [o, s] => .ok (.nsRect o s)
  | _, _ => .error .typeError

/-- The unarchiver's `shared_object_table`. -/
abbrev SOT := List (RefKind × UValue)

/-- `lookup_archived_class(archived_class)`: walk the superclass chain until
a registered name is found. -/
def lookup_archived_class : ClassDesc → Option (PyClass × ClassDesc)
  | .mk n v s =>
    match archived_classes_by_name n with
    | some pc => some (pc, .mk n v s)
    | none =>
      match s with
      | some sup => lookup_archived_class sup
      | none => none

/-- The three possible outcomes of `instantiate_archived_class`: an exactly
known class, a generic object wrapping a known superclass instance, or a
fully generic object. -/
inductive Instantiated where
  | known (pc : PyClass)
  | genericKnown (clazz : ClassDesc) (pc : PyClass)
  | genericUnknown (clazz : ClassDesc)

/-- `instantiate_archived_class(archived_class)`. -/
def instantiate_archived_class (archived_class : ClassDesc) :
    Instantiated × Option ClassDesc :=
  match lookup_archived_class archived_class with
  | none => (.genericUnknown archived_class, none)
  | some (pc, found) =>
    if classDescBEq found archived_class then (.known pc, some found)
    else (.genericKnown archived_class pc, some found)

/-- `Unarchiver._lookup_reference(ref)`: Python list indexing into the shared
object table, then the kind check. -/
def _lookup_reference (table : SOT) (kind : RefKind) (number : Int) : Except UErr UValue :=
  match pyGet table number with
  | none => .error .indexError
  | some (ref_type, obj) =>
    if kind ≠ ref_type then .error .valueError else .ok obj

/-- Python `bytes.decode("utf-8")` (strict): the code points, or `none` for
invalid UTF-8 (overlong forms, surrogates and values above U+10FFFF are
rejected, as CPython does). -/
def utf8_decode : List Nat → Option (List Nat)
  | [] => some []
  | b :: rest =>
    if b < 128 then (utf8_decode rest).map (b :: ·)
    else if 194 ≤ b ∧ b ≤ 223 then
      match rest with
      | c :: rest' =>
        if 128 ≤ c ∧ c ≤ 191 then
          (utf8_decode rest').map (((b - 192) * 64 + (c - 128)) :: ·)
        else none
      | [] => none
    else if 224 ≤ b ∧ b ≤ 239 then
      match rest with
      | c :: d :: rest' =>
        let lo2 := if b = 224 then 160 else 128
        let hi2 := if b = 237 then 159 else 191
        if lo2 ≤ c ∧ c ≤ hi2 ∧ 128 ≤ d ∧ d ≤ 191 then
          (utf8_decode rest').map (((b - 224) * 4096 + (c - 128) * 64 + (d - 128)) :: ·)
        else none
      | _ => none
    else if 240 ≤ b ∧ b ≤ 244 then
      match rest with
      | c :: d :: e :: rest' =>
        let lo2 := if b = 240 then 144 else 128
        let hi2 := if b = 244 then 143 else 191
        if lo2 ≤ c ∧ c ≤ hi2 ∧ 128 ≤ d ∧ d ≤ 191 ∧ 128 ≤ e ∧ e ≤ 191 then
          (utf8_decode rest').map
            (((b - 240) * 262144 + (c - 128) * 4096 + (d - 128) * 64 + (e - 128)) :: ·)
        else none
      | _ => none
    else none

/-- Build the `Class` objects for a literally stored superclass chain, in
storage order (child first); each class's superclass is the next one in the
list, the last one taking the chain's terminator. -/
def build_chain : List (List Nat × Int) → Option ClassDesc → List ClassDesc
  | [], _ => []
  | (n, v) :: rest, term =>
    let tail := build_chain rest term
    let sup := match tail.head? with
      | some c => some c
      | none => term
    .mk n v sup :: tail

/-! ## `Unarchiver`: the decoding recursion

As for the reader, every function takes fuel decremented on each call. -/

mutual

/-- `Unarchiver.decode_any_untyped_value(expected_encoding)`. -/
def decode_any_untyped_value : Nat → List Nat → List Event → SOT →
    Except UErr (UValue × List Event × SOT)
  | 0, _, _, _ => .error .fuel
  | fuel + 1, expected_encoding, evs, table =>
    match evs with
    | [] => .error .stopIteration
    | first :: evs =>
      match first with
      | .nil => .ok (.nil, evs, table)
      | .intValue i => .ok (.intValue i, evs, table)
      | .boolValue b => .ok (.boolValue b, evs, table)
      | .floatValue f => .ok (.floatValue f, evs, table)
      | .bytesValue d => .ok (.bytesValue d, evs, table)
      | .reference kind number => do
        let obj ← _lookup_reference table kind number
        .ok (obj, evs, table)
      | .cString c =>
        .ok (.bytesValue c, evs, table ++ [(.C_STRING, .bytesValue c)])
      | .atom s? =>
        match s? with
        | none => .ok (.nil, evs, table)
        | some s => .ok (.bytesValue s, evs, table)
      | .selector s? =>
        match s? with
        | none => .ok (.nil, evs, table)
        | some s => .ok (.bytesValue s, evs, table)
      | .singleClass name version => do
        let (chain, evs, table) ← decode_class_chain fuel [(name, version)] evs table
        match chain with
        | (singles, term) =>
          let new_classes := build_chain singles term
          let table := table ++ new_classes.map (fun c => (RefKind.CLASS, UValue.clazz c))
          match new_classes.head? with
          | some c => .ok (.clazz c, evs, table)
          | none => .error .typeError  -- unreachable: singles is non-empty
      | .beginObject =>
        -- Reserve a placeholder slot before reading any class information.
        let placeholder_index := table.length
        let table := table ++ [(RefKind.OBJECT, UValue.nil)]
        match decode_any_untyped_value fuel [35] evs table with
        | .error e => .error e
        | .ok (cls_v, evs, table) =>
          match cls_v with
          | .clazz archived_class =>
            (match instantiate_archived_class archived_class with
            | (.known pc, superclass?) =>
              -- Python stores the freshly constructed instance in the slot here;
              -- the later `set` models the in-place mutation of that same
              -- instance by its initializer.
              let table := table.set placeholder_index
                (RefKind.OBJECT, .knownObject (uninitialized_instance pc))
              match superclass? with
              | none => .error .valueError  -- `assert superclass is not None`
              | some sup => do
                let (k', evs, table) ← init_from_unarchiver fuel pc sup evs table
                let table := table.set placeholder_index (RefKind.OBJECT, .knownObject k')
                -- the exact class is fully known: the object must end here
                match evs with
                | [] => .error .stopIteration
                | e :: evs =>
                  if e = .endObject then .ok (.knownObject k', evs, table)
                  else .error .valueError
            | (.genericKnown clazz pc, superclass?) =>
              let table := table.set placeholder_index
                (RefKind.OBJECT, .genericObject clazz (some (uninitialized_instance pc)) [])
              match superclass? with
              | none => .error .valueError
              | some sup => do
                let (k', evs, table) ← init_from_unarchiver fuel pc sup evs table
                let (contents, evs, table) ← decode_extra_contents fuel evs table
                let objF := UValue.genericObject clazz (some k') contents
                let table := table.set placeholder_index (RefKind.OBJECT, objF)
                .ok (objF, evs, table)
            | (.genericUnknown clazz, _) => do
              let table := table.set placeholder_index
                (RefKind.OBJECT, .genericObject clazz none [])
              let (contents, evs, table) ← decode_extra_contents fuel evs table
              let objF := UValue.genericObject clazz none contents
              let table := table.set placeholder_index (RefKind.OBJECT, objF)
              .ok (objF, evs, table))
          | _ => .error .valueError  -- "Object class must be a Class"
      | .byteArray _ data => .ok (.byteArrayValue data, evs, table)
      | .beginArray _ length =>
        (match parse_array_encoding expected_encoding with
        | none => .error .valueError
        | some (_, expected_element) => do
          let (elems, evs, table) ← decode_array_elems fuel length expected_element evs table
          match evs with
          | [] => .error .stopIteration
          | e :: evs =>
            if e = .endArray then .ok (.array elems, evs, table)
            else .error .valueError)
      | .beginStruct name _ =>
        (match struct_classes_by_encoding expected_encoding with
        | some sc => do
          let (fields, evs, table) ←
            decode_group_values fuel (struct_field_encodings sc) evs table
          match evs with
          | [] => .error .stopIteration
          | e :: evs =>
            if e = .endStruct then do
              let v ← mk_known_struct sc fields
              .ok (v, evs, table)
            else .error .valueError
        | none =>
          match parse_struct_encoding expected_encoding with
          | none => .error .valueError
          | some (_, expected_fields) => do
            let (fields, evs, table) ← decode_group_values fuel expected_fields evs table
            match evs with
            | [] => .error .stopIteration
            | e :: evs =>
              if e = .endStruct then .ok (.genericStruct name fields, evs, table)
              else .error .valueError)
      | .beginTypedValues _ => .error .valueError
      | .endTypedValues => .error .valueError
      | .endObject => .error .valueError
      | .endArray => .error .valueError
      | .endStruct => .error .valueError

/-- The `while` loop of the `SingleClass` branch: collect the literally
stored classes of the chain and resolve the terminating `Nil` or
reference. -/
def decode_class_chain : Nat → List (List Nat × Int) → List Event → SOT →
    Except UErr ((List (List Nat × Int) × Option ClassDesc) × List Event × SOT)
  | 0, _, _, _ => .error .fuel
  | fuel + 1, acc, evs, table =>
    match evs with
    | [] => .error .stopIteration
    | e :: evs =>
      match e with
      | .nil => .ok ((acc, none), evs, table)
      | .reference kind number => do
        let v ← _lookup_reference table kind number
        match v with
        | .clazz c => .ok ((acc, some c), evs, table)
        | _ => .error .typeError  -- unreachable: CLASS slots always hold Class values
      | .singleClass n ver => decode_class_chain fuel (acc ++ [(n, ver)]) evs table
      | _ => .error .valueError  -- "Expected SingleClass, ObjectReference, or None"

/-- The trailing-data loop for objects that allow extra data: decode
typed-value groups until `EndObject`. -/
def decode_extra_contents : Nat → List Event → SOT →
    Except UErr (List UTypedGroup × List Event × SOT)
  | 0, _, _ => .error .fuel
  | fuel + 1, evs, table =>
    match evs with
    | [] => .error .stopIteration
    | e :: evs' =>
      if e = .endObject then .ok ([], evs', table)
      else do
        let (g, evs'', table) ← decode_typed_values fuel (some e) evs' table
        let (gs, evs3, table) ← decode_extra_contents fuel evs'' table
        .ok (g :: gs, evs3, table)

/-- `Unarchiver.decode_typed_values(_lookahead=...)`. -/
def decode_typed_values : Nat → Option Event → List Event → SOT →
    Except UErr (UTypedGroup × List Event × SOT)
  | 0, _, _, _ => .error .fuel
  | fuel + 1, lookahead, evs, table =>
    let begin? : Except UErr (Event × List Event) :=
      match lookahead with
      | some e => .ok (e, evs)
      | none =>
        match evs with
        | [] => .error .stopIteration
        | e :: evs => .ok (e, evs)
    match begin? with
    | .error e => .error e
    | .ok (b, evs) =>
      match b with
      | .beginTypedValues encs => do
        let (vals, evs, table) ← decode_group_values fuel encs evs table
        match evs with
        | [] => .error .stopIteration
        | e :: evs =>
          if e = .endTypedValues then .ok (.mk encs vals, evs, table)
          else .error .valueError
      | _ => .error .valueError  -- "Expected BeginTypedValues"

/-- Decode one value per type encoding, in order (the value loop shared by
`decode_typed_values` and the struct branch). -/
def decode_group_values : Nat → List (List Nat) → List Event → SOT →
    Except UErr (List UValue × List Event × SOT)
  | 0, _, _, _ => .error .fuel
  | _ + 1, [], evs, table => .ok ([], evs, table)
  | fuel + 1, enc :: encs, evs, table => do
    let (v, evs, table) ← decode_any_untyped_value fuel enc evs table
    let (vs, evs, table) ← decode_group_values fuel encs evs table
    .ok (v :: vs, evs, table)

/-- The element loop of the array branch (`range(first.length)` decodes of
the expected element encoding). -/
def decode_array_elems : Nat → Nat → List Nat → List Event → SOT →
    Except UErr (List UValue × List Event × SOT)
  | 0, _, _, _, _ => .error .fuel
  | _ + 1, 0, _, evs, table => .ok ([], evs, table)
  | fuel + 1, n + 1, enc, evs, table => do
    let (v, evs, table) ← decode_any_untyped_value fuel enc evs table
    let (vs, evs, table) ← decode_array_elems fuel n enc evs table
    .ok (v :: vs, evs, table)

/-- `Unarchiver.decode_values_of_types(*type_encodings)` for byte-string
expected encodings (the form the modelled catalog classes use; expected
encodings given as Python classes only occur in catalog classes outside this
model's subset). -/
def decode_values_of_types : Nat → List (List Nat) → List Event → SOT →
    Except UErr (List UValue × List Event × SOT)
  | 0, _, _, _ => .error .fuel
  | fuel + 1, type_encodings, evs, table =>
    if type_encodings = [] then .error .typeError  -- "Expected at least one type encoding"
    else do
      let (g, evs, table) ← decode_typed_values fuel none evs table
      match g with
      | .mk encs vals =>
        if all_encodings_match_expected encs type_encodings then .ok (vals, evs, table)
        else .error .valueError

/-- `Unarchiver.decode_value_of_type(type_encoding)`. -/
def decode_value_of_type : Nat → List Nat → List Event → SOT →
    Except UErr (UValue × List Event × SOT)
  | 0, _, _, _ => .error .fuel
  | fuel + 1, type_encoding, evs, table => do
    let (vals, evs, table) ← decode_values_of_types fuel [type_encoding] evs table
    match vals with
    | [v] => .ok (v, evs, table)
    | _ => .error .valueError  -- `(value,) = ...` unpacking failure

/-- `init_from_unarchiver` as generated by
`KnownArchivedObject.__init_subclass__`, together with each modelled class's
own `_init_from_unarchiver_` (from `typedstream/types/foundation.py`):
check the archived superclass chain against the Python base classes, run the
superclass initializers first, then the class's own contribution.  Returns
the initialized instance. -/
def init_from_unarchiver : Nat → PyClass → ClassDesc → List Event → SOT →
    Except UErr (KnownObj × List Event × SOT)
  | 0, _, _, _, _ => .error .fuel
  | fuel + 1, pc, archived_class, evs, table =>
    match pc with
    | .NSObject =>
      -- root archived class: must have no superclass in the typedstream
      if (ClassDesc.superclass archived_class).isSome then .error .valueError
      -- NSObject._init_from_unarchiver_: version must be 0, no fields
      else if ClassDesc.version archived_class ≠ 0 then .error .valueError
      else .ok (.NSObject, evs, table)
    | .NSString =>
      (match ClassDesc.superclass archived_class with
      | none => .error .valueError  -- should have superclass NSObject
      | some sup =>
        if ClassDesc.name sup ≠ bytesOfString "NSObject" then .error .valueError
        else do
          let (_, evs, table) ← init_from_unarchiver fuel .NSObject sup evs table
          -- NSString._init_from_unarchiver_: version 1, one b"+" value, UTF-8
          if ClassDesc.version archived_class ≠ 1 then .error .valueError
          else do
            let (v, evs, table) ← decode_value_of_type fuel [43] evs table
            match v with
            | .bytesValue data =>
              match utf8_decode data with
              | some cps => .ok (.NSString (some cps), evs, table)
              | none => .error .unicodeError
            | _ => .error .attributeError)  -- `.decode` on a non-bytes value
    | .NSMutableString =>
      (match ClassDesc.superclass archived_class with
      | none => .error .valueError
      | some sup =>
        if ClassDesc.name sup ≠ bytesOfString "NSString" then .error .valueError
        else do
          let (k, evs, table) ← init_from_unarchiver fuel .NSString sup evs table
          -- NSMutableString._init_from_unarchiver_: version 1, no own fields
          if ClassDesc.version archived_class ≠ 1 then .error .valueError
          else
            match k with
            | .NSString v => .ok (.NSMutableString v, evs, table)
            | _ => .error .typeError)  -- unreachable

end

/-- `Unarchiver.decode_all()`. -/
def decode_all : Nat → List Event → SOT →
    Except UErr (List UTypedGroup × List Event × SOT)
  | 0, _, _ => .error .fuel
  | fuel + 1, evs, table =>
    match evs with
    | [] => .ok ([], [], table)
    | e :: evs' => do
      let (g, evs'', table') ← decode_typed_values fuel (some e) evs' table
      let (gs, evs3, table'') ← decode_all fuel evs'' table'
      .ok (g :: gs, evs3, table'')

/-- The shape check of `decode_single_root` on the groups `decode_all`
produced: exactly one group, which must be a `TypedValue` (i.e. built from a
single type encoding). -/
def single_root_from_groups (groups : List UTypedGroup) : Except UErr UValue :=
  match groups with
  | [] => .error .valueError  -- "Archive contains no values"
  | _ :: _ :: _ => .error .valueError  -- more than one root value
  | [.mk encs vals] =>
    if encs.length = 1 then
      match vals.head? with
      | some v => .ok v
      | none => .error .indexError  -- `values[0]` on an empty list
    else .error .valueError  -- root value is a group of several values

/-- `Unarchiver.decode_single_root()`. -/
def decode_single_root (fuel : Nat) (evs : List Event) (table : SOT) : Except UErr UValue := do
  let (groups, _, _) ← decode_all fuel evs table
  single_root_from_groups groups

/-- Errors of the whole pipeline. -/
inductive UnarchiveError where
  | readError (e : ReadError)
  | decodeError (e : UErr)
deriving DecidableEq, Repr

/-- `unarchive_from_data(data)`: run a reader over the data and decode its
single root value.  (`decode_single_root` drains the reader completely, so
materializing the whole event sequence first yields the same successful
results as Python's lazy pipeline.) -/
def unarchive_from_data (fuel : Nat) (data : List Nat) : Except UnarchiveError UValue :=
  match typedstream_events fuel data with
  | .error e => .error (.readError e)
  | .ok (evs, _, _) =>
    match decode_single_root fuel evs [] with
    | .error e => .error (.decodeError e)
    | .ok v => .ok v

/-- `STRING_TEST_DATA` from `tests/test_typedstream.py`. -/
def STRING_TEST_DATA : List Nat :=
  [4, 11] ++ bytesOfString "streamtyped" ++ [129, 232, 3, 132, 1] ++ bytesOfString "@" ++
  [132, 132, 132, 8] ++ bytesOfString "NSString" ++ [1, 132, 132, 8] ++ bytesOfString "NSObject" ++
  [0, 133, 132, 1] ++ bytesOfString "+" ++ [12] ++ bytesOfString "string value" ++ [134]

/-- The byte stream (after the header) ends cleanly at a typed-value group
boundary: it is tiled by finitely many successfully read typed-value groups,
after which no bytes remain where the next group's first head byte would be
read. -/
inductive CleanEnd (order : ByteOrder) : List Nat → SST → Prop where
  | nil (table : SST) : CleanEnd order [] table
  | step {l : List Nat} {table : SST} (fuel : Nat) (evs : List Event) (rest : List Nat)
      (table' : SST) :
      _read_typed_values fuel order none true l table = .ok (evs, rest, table') →
      CleanEnd order rest table' → CleanEnd order l table

/-- Fuel coherence: if the run at the smaller fuel did not exhaust its fuel,
the run at the larger fuel returns the identical result. -/
def FuelCoh {α : Type} (x y : Except ReadError α) : Prop :=
  x ≠ .error .fuel → y = x

/-- The reader events that make the unarchiver create a shared-object-table
slot, and the kind of slot each creates: a literal C string, a literally
stored class of a superclass chain, or the start of a literal object. -/
def slot_event_kind : Event → Option RefKind
  | .cString _ => some .C_STRING
  | .singleClass _ _ => some .CLASS
  | .beginObject => some .OBJECT
  | _ => none

/-- The decoded value is an archived object (a known instance or a generic
object), as opposed to the `None` placeholder or any non-object value. -/
def IsObjectValue : UValue → Prop
  | .knownObject _ => True
  | .genericObject _ _ _ => True
  | _ => False

/-- `SlotTrace consumed newEntries` relates a consumed segment of the event
stream to the entries the unarchiver appended to the shared-object table
while consuming it: slots are created exactly by the slot-creating events, in
consumption order — a literal C string event contributes its bytes as a
`C_STRING` slot, each literally stored class contributes a `CLASS` slot whose
name and version are the event's (child before superclass, the chain's
terminating nil or reference contributing nothing), and each literal object
start contributes an `OBJECT` slot that in the final table holds a
constructed object (never the placeholder). -/
inductive SlotTrace : List Event → List (RefKind × UValue) → Prop where
  | nil : SlotTrace [] []
  | cstr (c : List Nat) {evs : List Event} {slots : List (RefKind × UValue)} :
      SlotTrace evs slots →
      SlotTrace (.cString c :: evs) ((.C_STRING, .bytesValue c) :: slots)
  | cls (name : List Nat) (version : Int) (cd : ClassDesc) {evs : List Event}
      {slots : List (RefKind × UValue)} :
      ClassDesc.name cd = name → ClassDesc.version cd = version →
      SlotTrace evs slots →
      SlotTrace (.singleClass name version :: evs) ((.CLASS, .clazz cd) :: slots)
  | obj (v : UValue) {evs : List Event} {slots : List (RefKind × UValue)} :
      IsObjectValue v → SlotTrace evs slots →
      SlotTrace (.beginObject :: evs) ((.OBJECT, v) :: slots)
  | skip (e : Event) {evs : List Event} {slots : List (RefKind × UValue)} :
      slot_event_kind e = none → SlotTrace evs slots →
      SlotTrace (e :: evs) slots

/-- One unarchiver step consumed a prefix of the event stream and extended
the shared-object table by entries related to that prefix by `SlotTrace`
(the part of the table that existed before is untouched). -/
def TraceOut (evs : List Event) (table : SOT) (evs' : List Event) (table' : SOT) : Prop :=
  ∃ consumed newEntries,
    evs = consumed ++ evs' ∧ table' = table ++ newEntries ∧ SlotTrace consumed newEntries

/-- The name and version carried by a literal-class event. -/
def class_event_info : Event → Option (List Nat × Int)
  | .singleClass n v => some (n, v)
  | _ => none

/-- The contents carried by a literal C string event. -/
def cstring_event_info : Event → Option (List Nat)
  | .cString c => some c
  | _ => none

/-- The values of the table entries of one kind, in table order. -/
def slots_of_kind (k : RefKind) (slots : List (RefKind × UValue)) : List UValue :=
  slots.filterMap (fun s => if s.1 = k then some s.2 else none)

/-! ## A generative grammar of well-formed type encodings (for the
`encoding_matches_expected` tolerance claim)

`encoding_matches_expected` is stated over raw byte strings; to quantify over
"an expected struct encoding and an actual one differing only in struct
names", we give the obvious grammar of single type encodings — one-byte
primitives, `[N T]` arrays, `{Name=F...}` / `{F...}` structs — a renderer
into bytes, and the tolerance relation between two encodings.  These
definitions follow the spec's description of the encoding grammar; the
matcher itself (`matchesF` above) is translated from the source. -/

/-- Decimal digit bytes of `n`, most significant first (`b"%d" % n`). -/
def natDigitsF : Nat → Nat → List Nat
  | 0, _ => []
  | fuel + 1, n => if n < 10 then [48 + n] else natDigitsF fuel (n / 10) ++ [48 + n % 10]

def natDigits (n : Nat) : List Nat := natDigitsF (n + 1) n

/-- A byte that may appear as a struct name character: no brackets, braces,
parentheses and no `=`. -/
def plainByte (b : Nat) : Bool :=
  !(b == 40 || b == 41 || b == 91 || b == 93 || b == 123 || b == 125 || b == 61)

/-- A byte that may stand alone as a primitive type encoding: a plain byte
that is not a decimal digit (digits would be absorbed by an enclosing
array's length field). -/
def primByte (b : Nat) : Bool := plainByte b && !(48 ≤ b && b ≤ 57)

/-- A byte the `_end_of_encoding` scanner treats as ordinary (neither an
opening nor a closing bracket). -/
def scanOrdinary (b : Nat) : Bool :=
  !(b == 40 || b == 41 || b == 91 || b == 93 || b == 123 || b == 125)

/-- `true` iff no `=` occurs before the first `{` (used for the name search
of `parse_struct_encoding` on anonymous structs). -/
def noEqBeforeBrace : List Nat → Bool
  | [] => true
  | c :: rest => if c = 123 then true else if c = 61 then false else noEqBeforeBrace rest

mutual
/-- Single type encodings: one-byte primitives, `[N T]` arrays and
`{Name=F1F2...}` / `{F1F2...}` structs. -/
inductive Enc where
  | prim (b : Nat)
  | arr (n : Nat) (elem : Enc)
  | strukt (name : Option (List Nat)) (fields : EncList)

inductive EncList where
  | nil
  | cons (head : Enc) (tail : EncList)
end

mutual
/-- Well-formedness: primitive bytes are plain non-digits, struct names are
made of plain bytes. -/
def EncWF : Enc → Bool
  | .prim b => primByte b
  | .arr _ e => EncWF e
  | .strukt name fields =>
    (match name with
      | none => true
      | some nm => nm.all plainByte) && EncListWF fields

def EncListWF : EncList → Bool
  | .nil => true
  | .cons f fs => EncWF f && EncListWF fs
end

mutual
/-- Render an encoding to its byte string. -/
def render : Enc → List Nat
  | .prim b => [b]
  | .arr n e => 91 :: (natDigits n ++ (render e ++ [93]))
  | .strukt none fields => 123 :: (renderList fields ++ [125])
  | .strukt (some nm) fields => 123 :: (nm ++ 61 :: (renderList fields ++ [125]))

def renderList : EncList → List Nat
  | .nil => []
  | .cons f fs => render f ++ renderList fs
end

/-- The rendered field encodings of a struct, as a list. -/
def encRList : EncList → List (List Nat)
  | .nil => []
  | .cons f fs => render f :: encRList fs

mutual
/-- The recursion depth `matchesF` needs on an encoding. -/
def encSize : Enc → Nat
  | .prim _ => 1
  | .arr _ e => 1 + encSize e
  | .strukt _ fields => 1 + encSizeList fields

def encSizeList : EncList → Nat
  | .nil => 0
  | .cons f fs => 1 + max (encSize f) (encSizeList fs)
end

mutual
/-- `Tol actual expected`: the two encodings are equal except that, at any
nesting depth, a struct's actual name may instead be `?` or be omitted
entirely (the anonymous `{...}` form).  Array lengths and all primitive
bytes must agree exactly. -/
inductive Tol : Enc → Enc → Prop where
  | prim (b : Nat) : Tol (.prim b) (.prim b)
  | arr (n : Nat) {a e : Enc} : Tol a e → Tol (.arr n a) (.arr n e)
  | strukt {an en : Option (List Nat)} {fsa fse : EncList} :
      (an = none ∨ an = some [63] ∨ an = en) → TolList fsa fse →
      Tol (.strukt an fsa) (.strukt en fse)

inductive TolList : EncList → EncList → Prop where
  | nil : TolList .nil .nil
  | cons {a e : Enc} {as' es : EncList} :
      Tol a e → TolList as' es → TolList (.cons a as') (.cons e es)
end

/-! ## Theorems -/

@[simp] theorem except_ok_bind {ε α β : Type} (a : α) (f : α → Except ε β) :
    (Except.ok a >>= f) = f a := rfl

@[simp] theorem except_error_bind {ε α β : Type} (e : ε) (f : α → Except ε β) :
    ((Except.error e : Except ε α) >>= f) = Except.error e := rfl

@[simp] theorem except_pure_eq {ε α : Type} (a : α) :
    (pure a : Except ε α) = Except.ok a := rfl

/-- `int.from_bytes` of a single byte with `signed=True` is the signed 8-bit
reinterpretation, in either byte order. -/
theorem intFromBytes_single_signed (order : ByteOrder) (b : Nat) :
    intFromBytes order true [b] = toSigned8 b := by
  have hb : b % 256 < 256 := Nat.mod_lt _ (by norm_num)
  cases order <;>
    simp only [intFromBytes, bytesToNat, toSigned8, List.foldr, List.foldl,
      List.length_cons, List.length_nil, pow_one, Nat.zero_mul, Nat.zero_add,
      Nat.mul_zero, zero_add, true_and] <;>
    split <;> split <;> push_cast <;> omega

/-- C1: on the literal test bytes (header version 4, little endian, system
1000; one `@`-typed group holding a literal NSString v1 extending NSObject v0
whose contribution is one `+`-encoded unshared byte string),
`unarchive_from_data` returns an NSString instance whose `value` is the UTF-8
decoding `"string value"`. -/
theorem unarchive_from_data_minimal_nsstring :
    unarchive_from_data 100 STRING_TEST_DATA =
      .ok (.knownObject (.NSString (some (bytesOfString "string value")))) := by
  rfl

/-- C3: resolving an `ObjectReference` whose index designates an existing
slot of the shared-object table raises a `ValueError` (and returns no value)
when the slot's kind differs from the reference's declared kind, and returns
the slot's stored value when the kinds agree. -/
theorem lookup_reference_kind_soundness (table : SOT) (kind k : RefKind)
    (number : Int) (v : UValue) (h : pyGet table number = some (k, v)) :
    (kind ≠ k → _lookup_reference table kind number = .error .valueError) ∧
    (kind = k → _lookup_reference table kind number = .ok v) := by
  constructor <;> intro h' <;> simp [_lookup_reference, h, h']

theorem lookup_reference_kind_soundness_witness :
    _lookup_reference [(RefKind.CLASS, .nil)] RefKind.OBJECT 0 = .error .valueError ∧
    _lookup_reference [(RefKind.CLASS, .nil)] RefKind.CLASS 0 = .ok .nil :=
  ⟨(lookup_reference_kind_soundness [(RefKind.CLASS, .nil)] RefKind.OBJECT RefKind.CLASS 0
      .nil rfl).1 (by decide),
   (lookup_reference_kind_soundness [(RefKind.CLASS, .nil)] RefKind.CLASS RefKind.CLASS 0
      .nil rfl).2 rfl⟩

/-- C5: when `decode_all` yields exactly one group built from exactly one
type encoding (and hence holding exactly one value), `decode_single_root`
returns that inner value; for every other shape of the decoded contents
(no groups, several groups, or one group with a number of encodings other
than one) it raises a `ValueError`. -/
theorem decode_single_root_shapes (fuel : Nat) (evs : List Event) (table : SOT)
    (groups : List UTypedGroup) (rest : List Event) (table' : SOT)
    (hall : decode_all fuel evs table = .ok (groups, rest, table')) :
    (∀ e v, groups = [.mk [e] [v]] → decode_single_root fuel evs table = .ok v) ∧
    (groups = [] → decode_single_root fuel evs table = .error .valueError) ∧
    (2 ≤ groups.length → decode_single_root fuel evs table = .error .valueError) ∧
    (∀ encs vals, groups = [.mk encs vals] → encs.length ≠ 1 →
      decode_single_root fuel evs table = .error .valueError) := by
  refine ⟨?_, ?_, ?_, ?_⟩
  · rintro e v rfl
    simp [decode_single_root, hall, single_root_from_groups]
  · rintro rfl
    simp [decode_single_root, hall, single_root_from_groups]
  · intro hlen
    match groups with
    | g1 :: g2 :: gs => simp [decode_single_root, hall, single_root_from_groups]
  · rintro encs vals rfl hne
    simp [decode_single_root, hall, single_root_from_groups, hne]

theorem decode_single_root_shapes_witness :
    decode_single_root 10 [.beginTypedValues [[105]], .intValue 7, .endTypedValues] [] =
      .ok (.intValue 7) ∧
    decode_single_root 10 [] [] = .error .valueError :=
  ⟨(decode_single_root_shapes 10 [.beginTypedValues [[105]], .intValue 7, .endTypedValues]
      [] [.mk [[105]] [.intValue 7]] [] [] rfl).1 [105] (.intValue 7) rfl,
   (decode_single_root_shapes 10 [] [] [] [] [] rfl).2.1 rfl⟩

/-- C7: for an integer read with head byte `h`: outside the tag range the
value is `h` itself (signed) or `h & 0xff` (unsigned) with no further bytes
consumed; `INTEGER_2` consumes the next two and `INTEGER_4` the next four
bytes, decoded in the stream's byte order with the requested signedness; any
other head in the tag range (including the floating-point tag) raises
`InvalidTypedStreamError`. -/
theorem read_integer_head_dispatch (order : ByteOrder) (signed : Bool) (h : Int)
    (l : List Nat) :
    ((h < _FIRST_TAG ∨ _LAST_TAG < h) →
      _read_integer order (some h) signed l =
        .ok (if signed then h else h.emod 256, l)) ∧
    (h = _TAG_INTEGER_2 →
      _read_integer order (some h) signed l =
        if 2 ≤ l.length then .ok (intFromBytes order signed (l.take 2), l.drop 2)
        else .error .invalid) ∧
    (h = _TAG_INTEGER_4 →
      _read_integer order (some h) signed l =
        if 4 ≤ l.length then .ok (intFromBytes order signed (l.take 4), l.drop 4)
        else .error .invalid) ∧
    (_FIRST_TAG ≤ h → h ≤ _LAST_TAG → h ≠ _TAG_INTEGER_2 → h ≠ _TAG_INTEGER_4 →
      _read_integer order (some h) signed l = .error .invalid) := by
  refine ⟨?_, ?_, ?_, ?_⟩
  · intro hout
    cases signed <;>
      simp [_read_integer, _read_head_byte, hout]
  · rintro rfl
    by_cases hl : 2 ≤ l.length <;>
      norm_num [_read_integer, _read_head_byte, _read_exact, _FIRST_TAG, _LAST_TAG,
        _TAG_INTEGER_2, _TAG_INTEGER_4, hl]
  · rintro rfl
    by_cases hl : 4 ≤ l.length <;>
      norm_num [_read_integer, _read_head_byte, _read_exact, _FIRST_TAG, _LAST_TAG,
        _TAG_INTEGER_2, _TAG_INTEGER_4, hl]
  · intro h1 h2 h3 h4
    have hno : ¬ (h < _FIRST_TAG ∨ _LAST_TAG < h) := by
      simp only [_FIRST_TAG, _LAST_TAG] at h1 h2 ⊢
      omega
    simp [_read_integer, _read_head_byte, hno, h3, h4]

theorem read_integer_head_dispatch_witness :
    _read_integer .little (some 5) true [9] = .ok (5, [9]) ∧
    _read_integer .little (some (-3)) false [9] = .ok (253, [9]) ∧
    _read_integer .little (some _TAG_INTEGER_2) true [144, 255] = .ok (-112, []) ∧
    _read_integer .big (some _TAG_INTEGER_4) false [0, 0, 1, 2] = .ok (258, []) ∧
    _read_integer .little (some _TAG_FLOATING_POINT) true [1, 2, 3, 4] = .error .invalid := by
  refine ⟨?_, ?_, ?_, ?_, ?_⟩
  · exact (read_integer_head_dispatch .little true 5 [9]).1 (by decide)
  · have := (read_integer_head_dispatch .little false (-3) [9]).1 (by decide)
    simpa using this
  · have := (read_integer_head_dispatch .little true _TAG_INTEGER_2 [144, 255]).2.1 rfl
    simpa using this
  · have := (read_integer_head_dispatch .big false _TAG_INTEGER_4 [0, 0, 1, 2]).2.2.1 rfl
    simpa using this
  · exact (read_integer_head_dispatch .little true _TAG_FLOATING_POINT [1, 2, 3, 4]).2.2.2
      (by decide) (by decide) (by decide) (by decide)

/-- C8: a `B`-encoded value consumes exactly one byte, yielding `False`/`True`
for byte values 0/1 and raising `InvalidTypedStreamError` for every other
byte; a `c`-encoded value accepts any byte verbatim as a signed 8-bit
integer; and a literal C string whose shared-string content contains a zero
byte raises `InvalidTypedStreamError`. -/
theorem read_value_bool_char_cstring (order : ByteOrder) :
    (∀ fuel b (l : List Nat) (table : SST),
      _read_value_with_encoding (fuel + 1) order [66] none (b :: l) table =
        if b % 256 = 0 then .ok ([.boolValue false], l, table)
        else if b % 256 = 1 then .ok ([.boolValue true], l, table)
        else .error .invalid) ∧
    (∀ fuel b (l : List Nat) (table : SST),
      _read_value_with_encoding (fuel + 1) order [99] none (b :: l) table =
        .ok ([.intValue (toSigned8 b)], l, table)) ∧
    (∀ (l : List Nat) (table : SST) (s : List Nat) (rest : List Nat) (table' : SST),
      _read_shared_string order none l table = .ok (some s, rest, table') →
      0 ∈ s →
      _read_c_string order (some _TAG_NEW) l table = .error .invalid) := by
  refine ⟨?_, ?_, ?_⟩
  · intro fuel b l table
    by_cases h0 : b % 256 = 0
    · simp [_read_value_with_encoding, _read_exact, h0]
    · by_cases h1 : b % 256 = 1 <;>
        simp [_read_value_with_encoding, _read_exact, h0, h1]
  · intro fuel b l table
    simp [_read_value_with_encoding, _read_exact, intFromBytes_single_signed]
  · intro l table s rest table' hshared hzero
    simp [_read_c_string, _read_head_byte, _TAG_NEW, _TAG_NIL, hshared, hzero]

theorem read_value_bool_char_cstring_witness :
    _read_value_with_encoding 1 .little [66] none [0, 7] [] = .ok ([.boolValue false], [7], []) ∧
    _read_value_with_encoding 1 .little [66] none [1] [] = .ok ([.boolValue true], [], []) ∧
    _read_value_with_encoding 1 .little [66] none [2] [] = .error .invalid ∧
    _read_value_with_encoding 1 .little [99] none [200] [] = .ok ([.intValue (-56)], [], []) ∧
    _read_c_string .little (some _TAG_NEW) [132, 3, 97, 0, 98] [] = .error .invalid := by
  refine ⟨?_, ?_, ?_, ?_, ?_⟩
  · have := (read_value_bool_char_cstring .little).1 0 0 [7] []
    simpa using this
  · have := (read_value_bool_char_cstring .little).1 0 1 [] []
    simpa using this
  · have := (read_value_bool_char_cstring .little).1 0 2 [] []
    simpa using this
  · have := (read_value_bool_char_cstring .little).2.1 0 200 [] []
    simpa [toSigned8] using this
  · exact (read_value_bool_char_cstring .little).2.2 [132, 3, 97, 0, 98] [] [97, 0, 98] []
      [[97, 0, 98]] rfl (by decide)

/-- C9: shared-string reference numbers are not range-checked: a reference
decoding to an index at or past the table length fails with the generic
`IndexError` (not `InvalidTypedStreamError`), and a negative decoded index of
magnitude at most the table length (an on-wire reference number below -110,
reachable through the two-byte integer form) silently returns the entry
counted from the end of the shared-string table. -/
theorem read_shared_string_reference_unchecked (order : ByteOrder) (h : Int)
    (l rest : List Nat) (table : SST) (rn : Int)
    (hnil : h ≠ _TAG_NIL) (hnew : h ≠ _TAG_NEW)
    (hint : _read_integer order (some h) true l = .ok (rn, rest)) :
    ((table.length : Int) ≤ _decode_reference_number rn →
      _read_shared_string order (some h) l table = .error .indexError ∧
        ReadError.indexError ≠ ReadError.invalid) ∧
    (_decode_reference_number rn < 0 →
      0 ≤ _decode_reference_number rn + table.length →
      _read_shared_string order (some h) l table =
        .ok (some (table.getD (_decode_reference_number rn + table.length).toNat []),
          rest, table)) := by
  constructor
  · intro hover
    have hget : pyGet table (_decode_reference_number rn) = none := by
      have h0 : (0 : Int) ≤ _decode_reference_number rn := le_trans (by positivity) hover
      simp only [pyGet, if_pos h0]
      rw [List.get?_eq_none]
      omega
    refine ⟨?_, by decide⟩
    simp [_read_shared_string, _read_head_byte, hnil, hnew, hint, hget]
  · intro hneg hmag
    have hlt : ((_decode_reference_number rn + table.length).toNat) < table.length := by
      omega
    have hget : pyGet table (_decode_reference_number rn) =
        some (table.getD (_decode_reference_number rn + table.length).toNat []) := by
      simp only [pyGet, if_neg (by omega : ¬ (0 : Int) ≤ _decode_reference_number rn),
        if_pos hmag]
      rw [List.getD_eq_getElem?_getD, List.get?_eq_getElem?,
        List.getElem?_eq_getElem hlt]
      rfl
    simp [_read_shared_string, _read_head_byte, hnil, hnew, hint, hget]

theorem read_shared_string_reference_unchecked_witness :
    _read_shared_string .little (some (-110)) [] [] = .error .indexError ∧
    _read_shared_string .little (some _TAG_INTEGER_2) [144, 255] [[97], [98]] =
      .ok (some [97], [], [[97], [98]]) := by
  constructor
  · exact ((read_shared_string_reference_unchecked .little (-110) [] [] [] (-110)
      (by decide) (by decide) (by rfl)).1 (by decide)).1
  · have := (read_shared_string_reference_unchecked .little _TAG_INTEGER_2 [144, 255] []
      [[97], [98]] (-112) (by decide) (by decide) (by rfl)).2 (by decide) (by decide)
    simpa using this

/-- `end_loop` always consumes at least one byte and at most the whole
suffix. -/
theorem end_loop_bounds :
    ∀ (l : List Nat) (depth e : Nat), end_loop l depth = some e →
      1 ≤ e ∧ e ≤ l.length := by
  intro l
  induction l with
  | nil => intro depth e h; simp [end_loop] at h
  | cons c rest ih =>
    intro depth e h
    simp only [end_loop] at h
    by_cases hop : c = 40 ∨ c = 91 ∨ c = 123
    · rw [if_pos hop] at h
      cases hrec : end_loop rest (depth + 1) with
      | none => rw [hrec] at h; simp at h
      | some e' =>
        rw [hrec] at h
        simp only [Option.map_some', Option.some.injEq] at h
        have := ih (depth + 1) e' hrec
        simp only [List.length_cons]
        omega
    · rw [if_neg hop] at h
      by_cases hd : 0 < depth
      · rw [if_pos hd] at h
        by_cases hz : (if c = 41 ∨ c = 93 ∨ c = 125 then depth - 1 else depth) = 0
        · rw [if_pos hz, Option.some.injEq] at h
          simp only [List.length_cons]
          omega
        · rw [if_neg hz] at h
          cases hrec : end_loop rest (if c = 41 ∨ c = 93 ∨ c = 125 then depth - 1 else depth) with
          | none => rw [hrec] at h; simp at h
          | some e' =>
            rw [hrec] at h
            simp only [Option.map_some', Option.some.injEq] at h
            have := ih _ e' hrec
            simp only [List.length_cons]
            omega
      · rw [if_neg hd, Option.some.injEq] at h
        simp only [List.length_cons]
        omega

/-- The loop of `split_encodings` tiles its input exactly: the pieces
concatenate back to the input and each piece is non-empty. -/
theorem split_loop_exact_cover :
    ∀ (fuel : Nat) (l : List Nat) (parts : List (List Nat)),
      split_loop fuel l = some parts →
      join_encodings parts = l ∧ ∀ p ∈ parts, p ≠ [] := by
  intro fuel
  induction fuel with
  | zero =>
    intro l parts h
    match l with
    | [] =>
      simp only [split_loop, Option.some.injEq] at h
      subst h
      simp [join_encodings]
    | _ :: _ => simp [split_loop] at h
  | succ n ih =>
    intro l parts h
    match l with
    | [] =>
      simp only [split_loop, Option.some.injEq] at h
      subst h
      simp [join_encodings]
    | c :: l' =>
      simp only [split_loop, Option.bind_eq_bind, Option.bind_eq_some, Option.pure_def,
        Option.some.injEq] at h
      obtain ⟨e, he, parts', hparts', rfl⟩ := h
      obtain ⟨he1, he2⟩ := end_loop_bounds (c :: l') 0 e he
      obtain ⟨hjoin, hne⟩ := ih _ _ hparts'
      constructor
      · simp only [join_encodings, List.foldr] at hjoin ⊢
        rw [hjoin]
        exact List.take_append_drop e (c :: l')
      · intro p hp
        simp only [List.mem_cons] at hp
        rcases hp with rfl | hp
        · intro hemp
          have : (List.take e (c :: l')).length = 0 := by rw [hemp]; rfl
          rw [List.length_take] at this
          simp only [List.length_cons] at this
          omega
        · exact hne p hp

/-- C10: whenever `split_encodings` runs to completion on a byte string, the
produced single-type encodings concatenate (`join_encodings`) back to the
input exactly, and every produced encoding is non-empty. -/
theorem split_encodings_exact_cover (s : List Nat) (parts : List (List Nat))
    (h : split_encodings s = some parts) :
    join_encodings parts = s ∧ ∀ p ∈ parts, p ≠ [] :=
  split_loop_exact_cover s.length s parts h

/-! ### C6 machinery: the internal `EOFError` signal -/

theorem noEof_bind {α β : Type} {x : Except ReadError α} {f : α → Except ReadError β}
    (hx : x ≠ .error .eof) (hf : ∀ a, f a ≠ .error .eof) :
    (x >>= f) ≠ .error .eof := by
  cases x with
  | error e => simpa using hx
  | ok a => simpa using hf a

theorem noEof_ite {c : Prop} [inst : Decidable c] {α : Type} {a b : Except ReadError α}
    (ha : a ≠ .error .eof) (hb : b ≠ .error .eof) : (if c then a else b) ≠ .error .eof := by
  split <;> assumption

theorem read_exact_no_eof (n : Nat) (l : List Nat) : _read_exact n l ≠ .error .eof := by
  simp only [_read_exact]
  split <;> simp

theorem read_head_byte_no_eof (head : Option Int) (l : List Nat) :
    _read_head_byte head l ≠ .error .eof := by
  cases head with
  | some h => simp [_read_head_byte]
  | none =>
    simp only [_read_head_byte]
    exact noEof_bind (read_exact_no_eof _ _) (fun a => by simp)

theorem read_integer_no_eof (order : ByteOrder) (head : Option Int) (signed : Bool)
    (l : List Nat) : _read_integer order head signed l ≠ .error .eof := by
  simp only [_read_integer]
  refine noEof_bind (read_head_byte_no_eof _ _) ?_
  rintro ⟨h, l1⟩
  dsimp only
  split_ifs <;>
    first
      | exact noEof_bind (read_exact_no_eof _ _) (fun a => by simp)
      | simp

theorem read_float_no_eof (order : ByteOrder) (head : Option Int) (l : List Nat) :
    _read_float order head l ≠ .error .eof := by
  simp only [_read_float]
  refine noEof_bind (read_head_byte_no_eof _ _) ?_
  rintro ⟨h, l1⟩
  dsimp only
  split_ifs <;>
    first
      | exact noEof_bind (read_exact_no_eof _ _) (fun a => by simp)
      | exact noEof_bind (read_integer_no_eof _ _ _ _) (fun a => by simp)

theorem read_double_no_eof (order : ByteOrder) (head : Option Int) (l : List Nat) :
    _read_double order head l ≠ .error .eof := by
  simp only [_read_double]
  refine noEof_bind (read_head_byte_no_eof _ _) ?_
  rintro ⟨h, l1⟩
  dsimp only
  split_ifs <;>
    first
      | exact noEof_bind (read_exact_no_eof _ _) (fun a => by simp)
      | exact noEof_bind (read_integer_no_eof _ _ _ _) (fun a => by simp)

theorem read_unshared_string_no_eof (order : ByteOrder) (head : Option Int)
    (l : List Nat) : _read_unshared_string order head l ≠ .error .eof := by
  simp only [_read_unshared_string]
  refine noEof_bind (read_head_byte_no_eof _ _) ?_
  rintro ⟨h, l1⟩
  dsimp only
  split_ifs
  · simp
  · refine noEof_bind (read_integer_no_eof _ _ _ _) ?_
    rintro ⟨len, l2⟩
    exact noEof_bind (read_exact_no_eof _ _) (fun a => by simp)

theorem read_shared_string_no_eof (order : ByteOrder) (head : Option Int)
    (l : List Nat) (table : SST) :
    _read_shared_string order head l table ≠ .error .eof := by
  simp only [_read_shared_string]
  refine noEof_bind (read_head_byte_no_eof _ _) ?_
  rintro ⟨h, l1⟩
  dsimp only
  split_ifs
  · simp
  · refine noEof_bind (read_unshared_string_no_eof _ _ _) ?_
    rintro ⟨s?, l2⟩
    cases s? <;> simp
  · refine noEof_bind (read_integer_no_eof _ _ _ _) ?_
    rintro ⟨rn, l2⟩
    dsimp only
    split <;> simp

theorem read_object_reference_no_eof (order : ByteOrder) (kind : RefKind)
    (head : Option Int) (l : List Nat) :
    _read_object_reference order kind head l ≠ .error .eof := by
  simp only [_read_object_reference]
  refine noEof_bind (read_integer_no_eof _ _ _ _) ?_
  rintro ⟨rn, l1⟩
  simp

theorem read_c_string_no_eof (order : ByteOrder) (head : Option Int) (l : List Nat)
    (table : SST) : _read_c_string order head l table ≠ .error .eof := by
  simp only [_read_c_string]
  refine noEof_bind (read_head_byte_no_eof _ _) ?_
  rintro ⟨h, l1⟩
  dsimp only
  split_ifs
  · simp
  · refine noEof_bind (read_shared_string_no_eof _ _ _ _) ?_
    rintro ⟨s?, l2, t2⟩
    cases s? with
    | none => simp
    | some s =>
      dsimp only
      split_ifs <;> simp
  · refine noEof_bind (read_object_reference_no_eof _ _ _ _) ?_
    rintro ⟨ev, l2⟩
    simp

set_option maxHeartbeats 2000000 in
/-- The internal `EOFError` arises only in `_read_typed_values`, only when
its `end_of_stream_ok` parameter is set, and only if reading the very first
head byte of the group fails; every other reader function never produces
it. -/
theorem reader_no_eof : ∀ fuel : Nat,
    (∀ order head l table, _read_class fuel order head l table ≠ .error .eof) ∧
    (∀ order head l table, _read_object fuel order head l table ≠ .error .eof) ∧
    (∀ order l table, _read_object_body fuel order l table ≠ .error .eof) ∧
    (∀ order enc head l table,
      _read_value_with_encoding fuel order enc head l table ≠ .error .eof) ∧
    (∀ order k enc l table, _read_array_elems fuel order k enc l table ≠ .error .eof) ∧
    (∀ order encs l table, _read_struct_fields fuel order encs l table ≠ .error .eof) ∧
    (∀ order head eofOk l table,
      _read_typed_values fuel order head eofOk l table = .error .eof →
        eofOk = true ∧ _read_head_byte head l = .error .invalid) ∧
    (∀ order encs l table, _read_group_values fuel order encs l table ≠ .error .eof) := by
  intro fuel
  induction fuel with
  | zero =>
    refine ⟨?_, ?_, ?_, ?_, ?_, ?_, ?_, ?_⟩
    · intro order head l table; simp [_read_class]
    · intro order head l table; simp [_read_object]
    · intro order l table; simp [_read_object_body]
    · intro order enc head l table; simp [_read_value_with_encoding]
    · intro order k enc l table; simp [_read_array_elems]
    · intro order encs l table; simp [_read_struct_fields]
    · intro order head eofOk l table h; simp [_read_typed_values] at h
    · intro order encs l table; simp [_read_group_values]
  | succ n ih =>
    obtain ⟨ihc, iho, ihb, ihv, iha, ihs, iht, ihg⟩ := ih
    have ihtv : ∀ order head l table,
        _read_typed_values n order head false l table ≠ .error .eof := by
      intro order head l table hEq
      exact absurd (iht order head false l table hEq).1 (by simp)
    refine ⟨?_, ?_, ?_, ?_, ?_, ?_, ?_, ?_⟩
    · -- _read_class
      intro order head l table
      simp only [_read_class]
      refine noEof_bind (read_head_byte_no_eof _ _) ?_
      rintro ⟨h, l1⟩
      dsimp only
      split_ifs
      · refine noEof_bind (read_shared_string_no_eof _ _ _ _) ?_
        rintro ⟨name?, l2, t2⟩
        cases name? with
        | none => simp
        | some name =>
          refine noEof_bind (read_integer_no_eof _ _ _ _) ?_
          rintro ⟨ver, l3⟩
          refine noEof_bind (ihc _ _ _ _) ?_
          rintro ⟨evs, l4, t4⟩
          simp
      · simp
      · refine noEof_bind (read_object_reference_no_eof _ _ _ _) ?_
        rintro ⟨ev, l2⟩
        simp
    · -- _read_object
      intro order head l table
      simp only [_read_object]
      refine noEof_bind (read_head_byte_no_eof _ _) ?_
      rintro ⟨h, l1⟩
      dsimp only
      split_ifs
      · simp
      · refine noEof_bind (ihc _ _ _ _) ?_
        rintro ⟨cevs, l2, t2⟩
        refine noEof_bind (ihb _ _ _) ?_
        rintro ⟨bevs, l3, t3⟩
        simp
      · refine noEof_bind (read_object_reference_no_eof _ _ _ _) ?_
        rintro ⟨ev, l2⟩
        simp
    · -- _read_object_body
      intro order l table
      simp only [_read_object_body]
      refine noEof_bind (read_head_byte_no_eof _ _) ?_
      rintro ⟨h, l1⟩
      dsimp only
      split_ifs
      · simp
      · refine noEof_bind (ihtv _ _ _ _) ?_
        rintro ⟨evs, l2, t2⟩
        refine noEof_bind (ihb _ _ _) ?_
        rintro ⟨evs2, l3, t3⟩
        simp
    · -- _read_value_with_encoding
      intro order enc head l table
      simp only [_read_value_with_encoding]
      repeat' apply noEof_ite
      · refine noEof_bind (read_exact_no_eof _ _) ?_
        rintro ⟨bs, l1⟩
        dsimp only
        split_ifs <;> simp
      · exact noEof_bind (read_exact_no_eof _ _) (fun a => by simp)
      · exact noEof_bind (read_exact_no_eof _ _) (fun a => by simp)
      · exact noEof_bind (read_integer_no_eof _ _ _ _) (fun a => by simp)
      · exact noEof_bind (read_integer_no_eof _ _ _ _) (fun a => by simp)
      · exact noEof_bind (read_float_no_eof _ _ _) (fun a => by simp)
      · exact noEof_bind (read_double_no_eof _ _ _) (fun a => by simp)
      · exact noEof_bind (read_c_string_no_eof _ _ _ _) (fun a => by simp)
      · exact noEof_bind (read_shared_string_no_eof _ _ _ _) (fun a => by simp)
      · exact noEof_bind (read_shared_string_no_eof _ _ _ _) (fun a => by simp)
      · refine noEof_bind (read_unshared_string_no_eof _ _ _) ?_
        rintro ⟨s?, l1⟩
        cases s? <;> simp
      · exact ihc _ _ _ _
      · exact iho _ _ _ _
      · simp
      · cases hp : parse_array_encoding enc with
        | none => simp
        | some p =>
          obtain ⟨len, elem⟩ := p
          dsimp only
          split_ifs
          · exact noEof_bind (read_exact_no_eof _ _) (fun a => by simp)
          · refine noEof_bind (iha _ _ _ _ _) ?_
            rintro ⟨evs, l1, t1⟩
            simp
      · cases hp : parse_struct_encoding enc with
        | none => simp
        | some p =>
          obtain ⟨name, fields⟩ := p
          dsimp only
          refine noEof_bind (ihs _ _ _ _) ?_
          rintro ⟨evs, l1, t1⟩
          simp
      · simp
    · -- _read_array_elems
      intro order k enc l table
      match k with
      | 0 => simp [_read_array_elems]
      | k + 1 =>
        simp only [_read_array_elems]
        refine noEof_bind (ihv _ _ _ _ _) ?_
        rintro ⟨evs, l1, t1⟩
        refine noEof_bind (iha _ _ _ _ _) ?_
        rintro ⟨evs2, l2, t2⟩
        simp
    · -- _read_struct_fields
      intro order encs l table
      match encs with
      | [] => simp [_read_struct_fields]
      | enc :: encs =>
        simp only [_read_struct_fields]
        refine noEof_bind (ihv _ _ _ _ _) ?_
        rintro ⟨evs, l1, t1⟩
        refine noEof_bind (ihs _ _ _ _) ?_
        rintro ⟨evs2, l2, t2⟩
        simp
    · -- _read_typed_values
      intro order head eofOk l table hEq
      simp only [_read_typed_values] at hEq
      revert hEq
      cases hh : _read_head_byte head l with
      | error e =>
        dsimp only
        split_ifs with hc
        · intro _
          exact ⟨hc.1, by simp [hh, hc.2]⟩
        · intro hEq
          have he : e = .eof := by simpa using hEq
          subst he
          exact absurd hh (read_head_byte_no_eof head l)
      | ok p =>
        obtain ⟨h, l1⟩ := p
        dsimp only
        intro hEq
        refine absurd hEq ?_
        refine noEof_bind (read_shared_string_no_eof _ _ _ _) ?_
        rintro ⟨enc?, l2, t2⟩
        cases enc? with
        | none => simp
        | some enc =>
          dsimp only
          split_ifs
          · simp
          · cases hs : split_encodings enc with
            | none => simp
            | some type_encodings =>
              refine noEof_bind (ihg _ _ _ _) ?_
              rintro ⟨evs, l3, t3⟩
              simp
    · -- _read_group_values
      intro order encs l table
      match encs with
      | [] => simp [_read_group_values]
      | enc :: encs =>
        simp only [_read_group_values]
        refine noEof_bind (ihv _ _ _ _ _) ?_
        rintro ⟨evs, l1, t1⟩
        refine noEof_bind (ihg _ _ _ _) ?_
        rintro ⟨evs2, l2, t2⟩
        simp

theorem fuelCoh_self {α : Type} (x : Except ReadError α) : FuelCoh x x := fun _ => rfl

theorem fuelCoh_fuelErr {α : Type} (y : Except ReadError α) :
    FuelCoh (.error .fuel) y := fun h => absurd rfl h

theorem fuelCoh_bind {α β : Type} {x y : Except ReadError α}
    {f g : α → Except ReadError β} (hx : FuelCoh x y)
    (hfg : ∀ a, FuelCoh (f a) (g a)) : FuelCoh (x >>= f) (y >>= g) := by
  intro hne
  cases x with
  | error e =>
    have he : e ≠ ReadError.fuel := fun hc => hne (by subst hc; rfl)
    have hy := hx (fun hc => he (Except.error.inj hc))
    rw [hy]
    rfl
  | ok a =>
    have hy := hx (by simp)
    rw [hy]
    exact hfg a hne

theorem fuelCoh_ite {c : Prop} [inst : Decidable c] {α : Type}
    {a b a' b' : Except ReadError α} (ha : FuelCoh a a') (hb : FuelCoh b b') :
    FuelCoh (if c then a else b) (if c then a' else b') := by
  split <;> assumption

set_option maxHeartbeats 2000000 in
/-- Fuel coherence of the reader: a run that did not exhaust its fuel returns
the same result at every larger fuel (so results of terminating runs are
fuel-independent, as in Python where the recursion is unbounded). -/
theorem reader_fuel_coh : ∀ (n m : Nat), n ≤ m →
    (∀ order head l table,
      FuelCoh (_read_class n order head l table) (_read_class m order head l table)) ∧
    (∀ order head l table,
      FuelCoh (_read_object n order head l table) (_read_object m order head l table)) ∧
    (∀ order l table,
      FuelCoh (_read_object_body n order l table) (_read_object_body m order l table)) ∧
    (∀ order enc head l table,
      FuelCoh (_read_value_with_encoding n order enc head l table)
        (_read_value_with_encoding m order enc head l table)) ∧
    (∀ order k enc l table,
      FuelCoh (_read_array_elems n order k enc l table)
        (_read_array_elems m order k enc l table)) ∧
    (∀ order encs l table,
      FuelCoh (_read_struct_fields n order encs l table)
        (_read_struct_fields m order encs l table)) ∧
    (∀ order head eofOk l table,
      FuelCoh (_read_typed_values n order head eofOk l table)
        (_read_typed_values m order head eofOk l table)) ∧
    (∀ order encs l table,
      FuelCoh (_read_group_values n order encs l table)
        (_read_group_values m order encs l table)) := by
  intro n
  induction n with
  | zero =>
    intro m hm
    refine ⟨?_, ?_, ?_, ?_, ?_, ?_, ?_, ?_⟩
    · intro order head l table; simp only [_read_class]; exact fuelCoh_fuelErr _
    · intro order head l table; simp only [_read_object]; exact fuelCoh_fuelErr _
    · intro order l table; simp only [_read_object_body]; exact fuelCoh_fuelErr _
    · intro order enc head l table
      simp only [_read_value_with_encoding]; exact fuelCoh_fuelErr _
    · intro order k enc l table; simp only [_read_array_elems]; exact fuelCoh_fuelErr _
    · intro order encs l table; simp only [_read_struct_fields]; exact fuelCoh_fuelErr _
    · intro order head eofOk l table; simp only [_read_typed_values]; exact fuelCoh_fuelErr _
    · intro order encs l table; simp only [_read_group_values]; exact fuelCoh_fuelErr _
  | succ k ih =>
    intro m hm
    obtain ⟨m', rfl⟩ : ∃ m', m = m' + 1 := ⟨m - 1, by omega⟩
    have hk : k ≤ m' := by omega
    obtain ⟨ihc, iho, ihb, ihv, iha, ihs, iht, ihg⟩ := ih m' hk
    refine ⟨?_, ?_, ?_, ?_, ?_, ?_, ?_, ?_⟩
    · -- _read_class
      intro order head l table
      simp only [_read_class]
      refine fuelCoh_bind (fuelCoh_self _) ?_
      rintro ⟨h, l1⟩
      dsimp only
      refine fuelCoh_ite ?_ (fuelCoh_ite ?_ ?_)
      · refine fuelCoh_bind (fuelCoh_self _) ?_
        rintro ⟨name?, l2, t2⟩
        cases name? with
        | none => exact fuelCoh_self _
        | some name =>
          dsimp only
          refine fuelCoh_bind (fuelCoh_self _) ?_
          rintro ⟨ver, l3⟩
          refine fuelCoh_bind (ihc _ _ _ _) ?_
          rintro ⟨evs, l4, t4⟩
          exact fuelCoh_self _
      · exact fuelCoh_self _
      · exact fuelCoh_self _
    · -- _read_object
      intro order head l table
      simp only [_read_object]
      refine fuelCoh_bind (fuelCoh_self _) ?_
      rintro ⟨h, l1⟩
      dsimp only
      refine fuelCoh_ite ?_ (fuelCoh_ite ?_ ?_)
      · exact fuelCoh_self _
      · refine fuelCoh_bind (ihc _ _ _ _) ?_
        rintro ⟨cevs, l2, t2⟩
        refine fuelCoh_bind (ihb _ _ _) ?_
        rintro ⟨bevs, l3, t3⟩
        exact fuelCoh_self _
      · exact fuelCoh_self _
    · -- _read_object_body
      intro order l table
      simp only [_read_object_body]
      refine fuelCoh_bind (fuelCoh_self _) ?_
      rintro ⟨h, l1⟩
      dsimp only
      refine fuelCoh_ite ?_ ?_
      · exact fuelCoh_self _
      · refine fuelCoh_bind (iht _ _ _ _ _) ?_
        rintro ⟨evs, l2, t2⟩
        refine fuelCoh_bind (ihb _ _ _) ?_
        rintro ⟨evs2, l3, t3⟩
        exact fuelCoh_self _
    · -- _read_value_with_encoding
      intro order enc head l table
      simp only [_read_value_with_encoding]
      repeat' apply fuelCoh_ite
      · exact fuelCoh_self _
      · exact fuelCoh_self _
      · exact fuelCoh_self _
      · exact fuelCoh_self _
      · exact fuelCoh_self _
      · exact fuelCoh_self _
      · exact fuelCoh_self _
      · exact fuelCoh_self _
      · exact fuelCoh_self _
      · exact fuelCoh_self _
      · exact fuelCoh_self _
      · exact ihc _ _ _ _
      · exact iho _ _ _ _
      · exact fuelCoh_self _
      · cases hp : parse_array_encoding enc with
        | none => exact fuelCoh_self _
        | some p =>
          obtain ⟨len, elem⟩ := p
          dsimp only
          refine fuelCoh_ite ?_ ?_
          · exact fuelCoh_self _
          · refine fuelCoh_bind (iha _ _ _ _ _) ?_
            rintro ⟨evs, l1, t1⟩
            exact fuelCoh_self _
      · cases hp : parse_struct_encoding enc with
        | none => exact fuelCoh_self _
        | some p =>
          obtain ⟨name, fields⟩ := p
          dsimp only
          refine fuelCoh_bind (ihs _ _ _ _) ?_
          rintro ⟨evs, l1, t1⟩
          exact fuelCoh_self _
      · exact fuelCoh_self _
    · -- _read_array_elems
      intro order kk enc l table
      match kk with
      | 0 => simp only [_read_array_elems]; exact fuelCoh_self _
      | kk + 1 =>
        simp only [_read_array_elems]
        refine fuelCoh_bind (ihv _ _ _ _ _) ?_
        rintro ⟨evs, l1, t1⟩
        refine fuelCoh_bind (iha _ _ _ _ _) ?_
        rintro ⟨evs2, l2, t2⟩
        exact fuelCoh_self _
    · -- _read_struct_fields
      intro order encs l table
      match encs with
      | [] => simp only [_read_struct_fields]; exact fuelCoh_self _
      | enc :: encs =>
        simp only [_read_struct_fields]
        refine fuelCoh_bind (ihv _ _ _ _ _) ?_
        rintro ⟨evs, l1, t1⟩
        refine fuelCoh_bind (ihs _ _ _ _) ?_
        rintro ⟨evs2, l2, t2⟩
        exact fuelCoh_self _
    · -- _read_typed_values
      intro order head eofOk l table
      simp only [_read_typed_values]
      cases hh : _read_head_byte head l with
      | error e => exact fuelCoh_self _
      | ok p =>
        obtain ⟨h, l1⟩ := p
        dsimp only
        refine fuelCoh_bind (fuelCoh_self _) ?_
        rintro ⟨enc?, l2, t2⟩
        cases enc? with
        | none => exact fuelCoh_self _
        | some enc =>
          dsimp only
          refine fuelCoh_ite ?_ ?_
          · exact fuelCoh_self _
          · cases hs : split_encodings enc with
            | none => exact fuelCoh_self _
            | some type_encodings =>
              dsimp only
              refine fuelCoh_bind (ihg _ _ _ _) ?_
              rintro ⟨evs, l3, t3⟩
              exact fuelCoh_self _
    · -- _read_group_values
      intro order encs l table
      match encs with
      | [] => simp only [_read_group_values]; exact fuelCoh_self _
      | enc :: encs =>
        simp only [_read_group_values]
        refine fuelCoh_bind (ihv _ _ _ _ _) ?_
        rintro ⟨evs, l1, t1⟩
        refine fuelCoh_bind (ihg _ _ _ _) ?_
        rintro ⟨evs2, l2, t2⟩
        exact fuelCoh_self _

/-- Fuel coherence of `_read_all_values`. -/
theorem read_all_values_fuel_coh : ∀ (n m : Nat), n ≤ m → ∀ order l table,
    FuelCoh (_read_all_values n order l table) (_read_all_values m order l table) := by
  intro n
  induction n with
  | zero =>
    intro m hm order l table
    simp only [_read_all_values]
    exact fuelCoh_fuelErr _
  | succ k ih =>
    intro m hm order l table
    obtain ⟨m', rfl⟩ : ∃ m', m = m' + 1 := ⟨m - 1, by omega⟩
    have hk : k ≤ m' := by omega
    have htv := (reader_fuel_coh k m' hk).2.2.2.2.2.2.1 order none true l table
    simp only [_read_all_values]
    intro hne
    cases h0 : _read_typed_values k order none true l table with
    | error e =>
      rw [h0] at hne
      cases e with
      | fuel => exact absurd rfl hne
      | eof =>
        rw [htv (h0 ▸ (by simp)), h0]
      | invalid => rw [htv (h0 ▸ (by simp)), h0]
      | indexError => rw [htv (h0 ▸ (by simp)), h0]
      | valueError => rw [htv (h0 ▸ (by simp)), h0]
    | ok p =>
      obtain ⟨evs1, l1, t1⟩ := p
      rw [h0] at hne
      rw [htv (h0 ▸ (by simp)), h0]
      dsimp only at hne ⊢
      have hrec := ih m' hk order l1 t1
      cases h1 : _read_all_values k order l1 t1 with
      | error e =>
        rw [h1] at hne
        have he : e ≠ ReadError.fuel := fun hc => hne (by subst hc; rfl)
        rw [hrec (fun hc => he (Except.error.inj (h1 ▸ hc))), h1]
      | ok q =>
        rw [hrec (by rw [h1]; simp), h1]

/-- `_read_head_byte` with no lookahead fails only on an empty stream. -/
theorem read_head_byte_err_nil (l : List Nat) (e : ReadError)
    (h : _read_head_byte none l = .error e) : l = [] := by
  cases l with
  | nil => rfl
  | cons b rest => simp [_read_head_byte, _read_exact] at h

/-- A successful `_read_all_values` run leaves no unconsumed bytes and
witnesses a clean group-boundary decomposition of its input. -/
theorem read_all_values_ok_clean : ∀ (fuel : Nat) (order : ByteOrder) (l : List Nat)
    (table : SST) (evs : List Event) (rest : List Nat) (table' : SST),
    _read_all_values fuel order l table = .ok (evs, rest, table') →
    rest = [] ∧ CleanEnd order l table := by
  intro fuel
  induction fuel with
  | zero =>
    intro order l table evs rest table' h
    simp [_read_all_values] at h
  | succ k ih =>
    intro order l table evs rest table' h
    simp only [_read_all_values] at h
    cases h0 : _read_typed_values k order none true l table with
    | error e =>
      rw [h0] at h
      cases e with
      | eof =>
        obtain ⟨-, hhb⟩ := (reader_no_eof k).2.2.2.2.2.2.1 order none true l table h0
        have hl : l = [] := read_head_byte_err_nil l .invalid hhb
        subst hl
        simp only [Except.ok.injEq, Prod.mk.injEq] at h
        exact ⟨h.2.1.symm, CleanEnd.nil table⟩
      | fuel => simp at h
      | invalid => simp at h
      | indexError => simp at h
      | valueError => simp at h
    | ok p =>
      obtain ⟨evs1, l1, t1⟩ := p
      rw [h0] at h
      dsimp only at h
      cases h1 : _read_all_values k order l1 t1 with
      | error e => rw [h1] at h; simp at h
      | ok q =>
        obtain ⟨evs2, l2, t2⟩ := q
        rw [h1] at h
        simp only [except_ok_bind, Except.ok.injEq, Prod.mk.injEq] at h
        obtain ⟨-, hrest, -⟩ := h
        obtain ⟨hnil, hclean⟩ := ih order l1 t1 evs2 l2 t2 h1
        exact ⟨hrest ▸ hnil, CleanEnd.step k evs1 l1 t1 h0 hclean⟩

/-- `_read_all_values` never fails with the clean-end signal: any error it
reports (a premature end of stream included) is a real error, not normal
termination. -/
theorem read_all_values_err_not_eof : ∀ (fuel : Nat) (order : ByteOrder) (l : List Nat)
    (table : SST) (e : ReadError),
    _read_all_values fuel order l table = .error e → e ≠ .eof := by
  intro fuel
  induction fuel with
  | zero =>
    intro order l table e h
    simp only [_read_all_values, Except.error.injEq] at h
    subst h
    simp
  | succ k ih =>
    intro order l table e h
    simp only [_read_all_values] at h
    cases h0 : _read_typed_values k order none true l table with
    | error e0 =>
      rw [h0] at h
      cases e0 with
      | eof => simp at h
      | fuel => simp only [Except.error.injEq] at h; subst h; simp
      | invalid => simp only [Except.error.injEq] at h; subst h; simp
      | indexError => simp only [Except.error.injEq] at h; subst h; simp
      | valueError => simp only [Except.error.injEq] at h; subst h; simp
    | ok p =>
      obtain ⟨evs1, l1, t1⟩ := p
      rw [h0] at h
      dsimp only at h
      cases h1 : _read_all_values k order l1 t1 with
      | error e1 =>
        rw [h1] at h
        simp only [except_error_bind, Except.error.injEq] at h
        subst h
        exact ih order l1 t1 _ h1
      | ok q => rw [h1] at h; simp at h

/-- A clean group-boundary decomposition can be replayed by a single
`_read_all_values` run with enough fuel. -/
theorem clean_end_read_all_values (order : ByteOrder) :
    ∀ (l : List Nat) (table : SST), CleanEnd order l table →
    ∃ (fuel : Nat) (evs : List Event) (table' : SST),
      _read_all_values fuel order l table = .ok (evs, [], table') := by
  intro l table h
  induction h with
  | nil t => exact ⟨2, [], t, rfl⟩
  | step f0 evs rest t' h0 hclean ihstep =>
    obtain ⟨F, evs', t'', hF⟩ := ihstep
    rename_i l0 tab0
    refine ⟨max f0 F + 1, evs ++ evs', t'', ?_⟩
    have htv := (reader_fuel_coh f0 (max f0 F) (le_max_left _ _)).2.2.2.2.2.2.1
      order none true l0 tab0 (by rw [h0]; simp)
    have hall := read_all_values_fuel_coh F (max f0 F) (le_max_right _ _) order rest t'
      (by rw [hF]; simp)
    simp only [_read_all_values]
    rw [htv, h0]
    dsimp only
    rw [hall, hF]
    rfl

/-- `_read_typed_values` raises the clean-end signal exactly on an empty
remainder: at a group boundary with bytes left the signal cannot fire (a
later end of stream surfaces as an `InvalidTypedStreamError` from
`_read_exact` instead). -/
theorem typed_values_eof_iff_empty (order : ByteOrder) (fuel : Nat) (table : SST) :
    (_read_typed_values (fuel + 1) order none true [] table = .error .eof) ∧
    (∀ l : List Nat, l ≠ [] →
      _read_typed_values (fuel + 1) order none true l table ≠ .error .eof) := by
  constructor
  · rfl
  · intro l hl hEq
    obtain ⟨-, hhb⟩ := (reader_no_eof (fuel + 1)).2.2.2.2.2.2.1 order none true l table hEq
    exact hl (read_head_byte_err_nil l .invalid hhb)

/-- C6: iterating the reader's event sequence terminates normally exactly
when the byte stream ends at the point where the first head byte of a new
typed-value group would be read: a successful `_read_all_values` run consumes
every byte and decomposes the stream into cleanly read groups ending on an
empty remainder (`CleanEnd`), and conversely every such decomposition yields
a successful run; the clean-end `EOFError` signal fires exactly on an empty
remainder at a group boundary; reaching the end of the stream at any other
point is a short `_read_exact` read, which raises
`InvalidTypedStreamError` — never the clean-end signal. -/
theorem read_all_values_clean_end (order : ByteOrder) :
    (∀ fuel l table evs rest table',
      _read_all_values fuel order l table = .ok (evs, rest, table') →
        rest = [] ∧ CleanEnd order l table) ∧
    (∀ l table, CleanEnd order l table →
      ∃ fuel evs table', _read_all_values fuel order l table = .ok (evs, [], table')) ∧
    (∀ fuel l table e, _read_all_values fuel order l table = .error e → e ≠ .eof) ∧
    (∀ fuel table, _read_typed_values (fuel + 1) order none true [] table = .error .eof) ∧
    (∀ fuel table (l : List Nat), l ≠ [] →
      _read_typed_values (fuel + 1) order none true l table ≠ .error .eof) ∧
    (∀ (n : Nat) (l : List Nat), l.length < n → _read_exact n l = .error .invalid) := by
  refine ⟨?_, ?_, ?_, ?_, ?_, ?_⟩
  · intro fuel l table evs rest table' h
    exact read_all_values_ok_clean fuel order l table evs rest table' h
  · intro l table h
    exact clean_end_read_all_values order l table h
  · intro fuel l table e h
    exact read_all_values_err_not_eof fuel order l table e h
  · intro fuel table
    exact (typed_values_eof_iff_empty order fuel table).1
  · intro fuel table l hl
    exact (typed_values_eof_iff_empty order fuel table).2 l hl
  · intro n l hlen
    simp [_read_exact]
    omega

theorem read_all_values_clean_end_witness :
    CleanEnd .little (STRING_TEST_DATA.drop 16) [] ∧
    _read_typed_values 1 .little none true [] [] = .error .eof ∧
    _read_typed_values 1 .little none true [132] [] ≠ .error .eof ∧
    _read_exact 1 [] = .error .invalid := by
  refine ⟨?_, ?_, ?_, ?_⟩
  · exact ((read_all_values_clean_end .little).1 60 (STRING_TEST_DATA.drop 16) []
      [.beginTypedValues [[64]], .beginObject,
       .singleClass (bytesOfString "NSString") 1,
       .singleClass (bytesOfString "NSObject") 0, .nil,
       .beginTypedValues [[43]], .bytesValue (bytesOfString "string value"),
       .endTypedValues, .endObject, .endTypedValues]
      [] [[64], bytesOfString "NSString", bytesOfString "NSObject", [43]]
      (by rfl)).2
  · exact (read_all_values_clean_end .little).2.2.2.1 0 []
  · exact (read_all_values_clean_end .little).2.2.2.2.1 0 [] [132] (by simp)
  · exact (read_all_values_clean_end .little).2.2.2.2.2 1 [] (by simp)

theorem split_encodings_exact_cover_witness :
    join_encodings [[105], [91, 52, 99, 93], [123, 102, 111, 111, 61, 105, 105, 125], [64]] =
        bytesOfString "i[4c]{foo=ii}@" ∧
      ∀ p ∈ [[105], [91, 52, 99, 93], [123, 102, 111, 111, 61, 105, 105, 125], [64]],
        p ≠ ([] : List Nat) :=
  split_encodings_exact_cover (bytesOfString "i[4c]{foo=ii}@")
    [[105], [91, 52, 99, 93], [123, 102, 111, 111, 61, 105, 105, 125], [64]] (by rfl)

/-! ### C2 machinery: the shared-object-table slot discipline -/

theorem slotTrace_append {c1 c2 : List Event} {s1 s2 : List (RefKind × UValue)}
    (h1 : SlotTrace c1 s1) (h2 : SlotTrace c2 s2) :
    SlotTrace (c1 ++ c2) (s1 ++ s2) := by
  induction h1 with
  | nil => simp only [List.nil_append]; exact h2
  | cstr c h ih => exact .cstr c ih
  | cls n v cd hn hv h ih => exact .cls n v cd hn hv ih
  | obj v hv h ih => exact .obj v hv ih
  | skip e he h ih => exact .skip e he ih

theorem traceOut_refl (evs : List Event) (table : SOT) : TraceOut evs table evs table :=
  ⟨[], [], rfl, by simp, .nil⟩

theorem traceOut_trans {evs : List Event} {t : SOT} {evs' : List Event} {t' : SOT}
    {evs'' : List Event} {t'' : SOT} (h1 : TraceOut evs t evs' t')
    (h2 : TraceOut evs' t' evs'' t'') : TraceOut evs t evs'' t'' := by
  obtain ⟨c1, e1, hc1, he1, hs1⟩ := h1
  obtain ⟨c2, e2, hc2, he2, hs2⟩ := h2
  exact ⟨c1 ++ c2, e1 ++ e2, by rw [hc1, hc2, List.append_assoc],
    by rw [he2, he1, List.append_assoc], slotTrace_append hs1 hs2⟩

theorem traceOut_skip_head (e : Event) {evs : List Event} {t : SOT}
    {evs' : List Event} {t' : SOT} (he : slot_event_kind e = none)
    (h : TraceOut evs t evs' t') : TraceOut (e :: evs) t evs' t' := by
  obtain ⟨c, n, hc, hn, hs⟩ := h
  exact ⟨e :: c, n, by rw [hc]; rfl, hn, .skip e he hs⟩

/-- Setting the element just past a prefix. -/
theorem set_append_len {α : Type} (l1 : List α) (x y : α) (l2 : List α) :
    (l1 ++ x :: l2).set l1.length y = l1 ++ y :: l2 := by
  induction l1 with
  | nil => rfl
  | cons a l ih => simp [List.set, ih]

/-- `build_chain` preserves each class's name and version positionally. -/
theorem build_chain_spec (singles : List (List Nat × Int)) (term : Option ClassDesc) :
    List.Forall₂ (fun (s : List Nat × Int) (c : ClassDesc) =>
      ClassDesc.name c = s.1 ∧ ClassDesc.version c = s.2) singles (build_chain singles term) := by
  induction singles with
  | nil => exact .nil
  | cons s rest ih =>
    obtain ⟨n, v⟩ := s
    exact .cons ⟨rfl, rfl⟩ ih

/-- The class chain's consumed events trace exactly to its `CLASS` slots. -/
theorem slotTrace_of_chain (singles : List (List Nat × Int)) (term : Option ClassDesc)
    (tev : Event) (hte : slot_event_kind tev = none) :
    SlotTrace (singles.map (fun s => Event.singleClass s.1 s.2) ++ [tev])
      ((build_chain singles term).map (fun c => (RefKind.CLASS, UValue.clazz c))) := by
  induction singles with
  | nil => exact .skip tev hte .nil
  | cons s rest ih =>
    obtain ⟨n, v⟩ := s
    exact .cls n v _ rfl rfl ih

theorem traceOut_single_skip (e : Event) (he : slot_event_kind e = none)
    (evs1 : List Event) (table : SOT) : TraceOut (e :: evs1) table evs1 table :=
  ⟨[e], [], rfl, by simp, .skip e he .nil⟩

set_option maxHeartbeats 4000000 in
/-- The master slot-discipline invariant of the unarchiver: every successful
decoding step consumes a prefix of the event stream and extends the
shared-object table by entries matching that prefix (`SlotTrace`); a
`decode_any_untyped_value` step that starts at a literal object additionally
leaves the constructed object in the slot reserved at the step's start. -/
theorem unarchiver_trace : ∀ fuel : Nat,
    (∀ enc evs table v evs' table',
      decode_any_untyped_value fuel enc evs table = .ok (v, evs', table') →
        TraceOut evs table evs' table' ∧
        (∀ tail, evs = .beginObject :: tail →
          ∃ rest, table' = table ++ (RefKind.OBJECT, v) :: rest ∧ IsObjectValue v)) ∧
    (∀ acc evs table res evs' table',
      decode_class_chain fuel acc evs table = .ok (res, evs', table') →
        table' = table ∧
        ∃ newS tev, res.1 = acc ++ newS ∧
          evs = (newS.map (fun s => Event.singleClass s.1 s.2) ++ [tev]) ++ evs' ∧
          slot_event_kind tev = none) ∧
    (∀ evs table gs evs' table',
      decode_extra_contents fuel evs table = .ok (gs, evs', table') →
        TraceOut evs table evs' table') ∧
    (∀ look evs table g evs' table',
      decode_typed_values fuel look evs table = .ok (g, evs', table') →
        TraceOut evs table evs' table' ∧
        (∀ e, look = some e → ∃ encs, e = Event.beginTypedValues encs)) ∧
    (∀ encs evs table vs evs' table',
      decode_group_values fuel encs evs table = .ok (vs, evs', table') →
        TraceOut evs table evs' table') ∧
    (∀ n enc evs table vs evs' table',
      decode_array_elems fuel n enc evs table = .ok (vs, evs', table') →
        TraceOut evs table evs' table') ∧
    (∀ tes evs table vs evs' table',
      decode_values_of_types fuel tes evs table = .ok (vs, evs', table') →
        TraceOut evs table evs' table') ∧
    (∀ te evs table v evs' table',
      decode_value_of_type fuel te evs table = .ok (v, evs', table') →
        TraceOut evs table evs' table') ∧
    (∀ pc cd evs table k evs' table',
      init_from_unarchiver fuel pc cd evs table = .ok (k, evs', table') →
        TraceOut evs table evs' table') := by
  intro fuel
  induction fuel with
  | zero =>
    refine ⟨?_, ?_, ?_, ?_, ?_, ?_, ?_, ?_, ?_⟩ <;> intros <;>
      simp_all [decode_any_untyped_value, decode_class_chain, decode_extra_contents,
        decode_typed_values, decode_group_values, decode_array_elems,
        decode_values_of_types, decode_value_of_type, init_from_unarchiver]
  | succ n ih =>
    obtain ⟨ihany, ihchain, ihextra, ihtv, ihgv, ihae, ihvot, ihvt, ihinit⟩ := ih
    refine ⟨?_, ?_, ?_, ?_, ?_, ?_, ?_, ?_, ?_⟩
    · -- decode_any_untyped_value
      intro enc evs table v evs' table' h
      cases evs with
      | nil => simp [decode_any_untyped_value] at h
      | cons first evs1 =>
        simp only [decode_any_untyped_value] at h
        cases first with
        | nil =>
          simp only [Except.ok.injEq, Prod.mk.injEq] at h
          obtain ⟨rfl, rfl, rfl⟩ := h
          exact ⟨traceOut_single_skip _ (by rfl) _ _, by intro tail ht; simp at ht⟩
        | intValue i =>
          simp only [Except.ok.injEq, Prod.mk.injEq] at h
          obtain ⟨rfl, rfl, rfl⟩ := h
          exact ⟨traceOut_single_skip _ (by rfl) _ _, by intro tail ht; simp at ht⟩
        | boolValue b =>
          simp only [Except.ok.injEq, Prod.mk.injEq] at h
          obtain ⟨rfl, rfl, rfl⟩ := h
          exact ⟨traceOut_single_skip _ (by rfl) _ _, by intro tail ht; simp at ht⟩
        | floatValue f =>
          simp only [Except.ok.injEq, Prod.mk.injEq] at h
          obtain ⟨rfl, rfl, rfl⟩ := h
          exact ⟨traceOut_single_skip _ (by rfl) _ _, by intro tail ht; simp at ht⟩
        | bytesValue d =>
          simp only [Except.ok.injEq, Prod.mk.injEq] at h
          obtain ⟨rfl, rfl, rfl⟩ := h
          exact ⟨traceOut_single_skip _ (by rfl) _ _, by intro tail ht; simp at ht⟩
        | reference kind number =>
          dsimp only at h
          cases hl : _lookup_reference table kind number with
          | error e => rw [hl] at h; simp at h
          | ok obj =>
            rw [hl] at h
            simp only [except_ok_bind, Except.ok.injEq, Prod.mk.injEq] at h
            obtain ⟨rfl, rfl, rfl⟩ := h
            exact ⟨traceOut_single_skip _ (by rfl) _ _, by intro tail ht; simp at ht⟩
        | cString c =>
          simp only [Except.ok.injEq, Prod.mk.injEq] at h
          obtain ⟨rfl, rfl, rfl⟩ := h
          exact ⟨⟨[.cString c], [(.C_STRING, .bytesValue c)], rfl, rfl, .cstr c .nil⟩,
            by intro tail ht; simp at ht⟩
        | atom s? =>
          cases s? with
          | none =>
            simp only [Except.ok.injEq, Prod.mk.injEq] at h
            obtain ⟨rfl, rfl, rfl⟩ := h
            exact ⟨traceOut_single_skip _ (by rfl) _ _, by intro tail ht; simp at ht⟩
          | some sv =>
            simp only [Except.ok.injEq, Prod.mk.injEq] at h
            obtain ⟨rfl, rfl, rfl⟩ := h
            exact ⟨traceOut_single_skip _ (by rfl) _ _, by intro tail ht; simp at ht⟩
        | selector s? =>
          cases s? with
          | none =>
            simp only [Except.ok.injEq, Prod.mk.injEq] at h
            obtain ⟨rfl, rfl, rfl⟩ := h
            exact ⟨traceOut_single_skip _ (by rfl) _ _, by intro tail ht; simp at ht⟩
          | some sv =>
            simp only [Except.ok.injEq, Prod.mk.injEq] at h
            obtain ⟨rfl, rfl, rfl⟩ := h
            exact ⟨traceOut_single_skip _ (by rfl) _ _, by intro tail ht; simp at ht⟩
        | singleClass name version =>
          dsimp only at h
          cases hcc : decode_class_chain n [(name, version)] evs1 table with
          | error e => rw [hcc] at h; simp at h
          | ok p =>
            obtain ⟨⟨singles, term⟩, evs2, t2⟩ := p
            rw [hcc] at h
            obtain ⟨rfl, newS, tev, hsingles, hevs1, htev⟩ :=
              ihchain [(name, version)] evs1 table (singles, term) evs2 t2 hcc
            have hsingles2 : singles = (name, version) :: newS := by simpa using hsingles
            subst hsingles2
            simp only [except_ok_bind] at h
            dsimp only [build_chain] at h
            simp only [List.head?_cons, Except.ok.injEq, Prod.mk.injEq] at h
            obtain ⟨rfl, rfl, rfl⟩ := h
            constructor
            · refine ⟨Event.singleClass name version ::
                (newS.map (fun s => Event.singleClass s.1 s.2) ++ [tev]),
                (build_chain ((name, version) :: newS) term).map
                  (fun c => (RefKind.CLASS, UValue.clazz c)), ?_, ?_, ?_⟩
              · rw [hevs1]; simp
              · simp [build_chain]
              · exact slotTrace_of_chain ((name, version) :: newS) term tev htev
            · intro tail ht; simp at ht
        | beginObject =>
          dsimp only at h
          cases hc : decode_any_untyped_value n [35] evs1 (table ++ [(RefKind.OBJECT, UValue.nil)]) with
          | error e => rw [hc] at h; simp at h
          | ok p =>
            obtain ⟨cls_v, evs2, t2⟩ := p
            rw [hc] at h
            dsimp only at h
            cases cls_v with
            | clazz archived_class =>
              dsimp only at h
              obtain ⟨⟨c1, E1, hcc1, hE1, hs1⟩, -⟩ :=
                ihany [35] evs1 (table ++ [(RefKind.OBJECT, UValue.nil)]) (.clazz archived_class) evs2 t2 hc
              have ht2 : t2 = table ++ (RefKind.OBJECT, UValue.nil) :: E1 := by
                rw [hE1]; simp
              cases hinst : instantiate_archived_class archived_class with
              | mk inst sup? =>
                rw [hinst] at h
                cases inst with
                | known pc =>
                  dsimp only at h
                  cases sup? with
                  | none => simp at h
                  | some sup =>
                    dsimp only at h
                    cases hinit : init_from_unarchiver n pc sup evs2
                        (t2.set table.length (RefKind.OBJECT, .knownObject (uninitialized_instance pc))) with
                    | error e => rw [hinit] at h; simp at h
                    | ok q =>
                      obtain ⟨k', evs3, t4⟩ := q
                      rw [hinit] at h
                      simp only [except_ok_bind] at h
                      obtain ⟨c2, E2, hcc2, hE2, hs2⟩ :=
                        ihinit pc sup evs2 _ k' evs3 t4 hinit
                      have ht4 : t4 = table ++
                          (RefKind.OBJECT, UValue.knownObject (uninitialized_instance pc)) ::
                            (E1 ++ E2) := by
                        rw [hE2, ht2, set_append_len]
                        simp
                      cases evs3 with
                      | nil => simp at h
                      | cons e3 evs4 =>
                        dsimp only at h
                        rw [ht4] at h
                        by_cases he3 : e3 = Event.endObject
                        · rw [if_pos he3] at h
                          subst he3
                          rw [set_append_len] at h
                          simp only [Except.ok.injEq, Prod.mk.injEq] at h
                          obtain ⟨rfl, rfl, rfl⟩ := h
                          constructor
                          · refine ⟨Event.beginObject :: (c1 ++ (c2 ++ [Event.endObject])),
                              (RefKind.OBJECT, UValue.knownObject k') :: (E1 ++ E2), ?_, rfl, ?_⟩
                            · rw [hcc1, hcc2]; simp
                            · refine .obj _ trivial ?_
                              have h2 := slotTrace_append hs1
                                (slotTrace_append hs2 (.skip Event.endObject rfl .nil))
                              simpa using h2
                          · intro tail ht
                            exact ⟨E1 ++ E2, rfl, trivial⟩
                        · rw [if_neg he3] at h
                          simp at h
                | genericKnown clazz pc =>
                  dsimp only at h
                  cases sup? with
                  | none => simp at h
                  | some sup =>
                    dsimp only at h
                    cases hinit : init_from_unarchiver n pc sup evs2
                        (t2.set table.length (RefKind.OBJECT,
                          .genericObject clazz (some (uninitialized_instance pc)) [])) with
                    | error e => rw [hinit] at h; simp at h
                    | ok q =>
                      obtain ⟨k', evs3, t4⟩ := q
                      rw [hinit] at h
                      simp only [except_ok_bind] at h
                      obtain ⟨c2, E2, hcc2, hE2, hs2⟩ :=
                        ihinit pc sup evs2 _ k' evs3 t4 hinit
                      have ht4 : t4 = table ++
                          (RefKind.OBJECT, UValue.genericObject clazz
                            (some (uninitialized_instance pc)) []) :: (E1 ++ E2) := by
                        rw [hE2, ht2, set_append_len]
                        simp
                      cases hex : decode_extra_contents n evs3 t4 with
                      | error e => rw [hex] at h; simp at h
                      | ok r =>
                        obtain ⟨contents, evs4, t5⟩ := r
                        rw [hex] at h
                        simp only [except_ok_bind] at h
                        obtain ⟨c3, E3, hcc3, hE3, hs3⟩ := ihextra evs3 t4 contents evs4 t5 hex
                        have ht5 : t5 = table ++
                            (RefKind.OBJECT, UValue.genericObject clazz
                              (some (uninitialized_instance pc)) []) :: (E1 ++ E2 ++ E3) := by
                          rw [hE3, ht4]
                          simp
                        rw [ht5, set_append_len] at h
                        simp only [Except.ok.injEq, Prod.mk.injEq] at h
                        obtain ⟨rfl, rfl, rfl⟩ := h
                        constructor
                        · refine ⟨Event.beginObject :: (c1 ++ (c2 ++ c3)),
                            (RefKind.OBJECT, UValue.genericObject clazz (some k') contents) ::
                              (E1 ++ E2 ++ E3), ?_, rfl, ?_⟩
                          · rw [hcc1, hcc2, hcc3]; simp
                          · refine .obj _ trivial ?_
                            have h2 := slotTrace_append hs1 (slotTrace_append hs2 hs3)
                            simpa using h2
                        · intro tail ht
                          exact ⟨E1 ++ E2 ++ E3, rfl, trivial⟩
                | genericUnknown clazz =>
                  dsimp only at h
                  cases hex : decode_extra_contents n evs2
                      (t2.set table.length (RefKind.OBJECT, .genericObject clazz none [])) with
                  | error e => rw [hex] at h; simp at h
                  | ok r =>
                    obtain ⟨contents, evs4, t5⟩ := r
                    rw [hex] at h
                    simp only [except_ok_bind] at h
                    obtain ⟨c3, E3, hcc3, hE3, hs3⟩ := ihextra evs2 _ contents evs4 t5 hex
                    have ht5 : t5 = table ++
                        (RefKind.OBJECT, UValue.genericObject clazz none []) :: (E1 ++ E3) := by
                      rw [hE3, ht2, set_append_len]
                      simp
                    rw [ht5, set_append_len] at h
                    simp only [Except.ok.injEq, Prod.mk.injEq] at h
                    obtain ⟨rfl, rfl, rfl⟩ := h
                    constructor
                    · refine ⟨Event.beginObject :: (c1 ++ c3),
                        (RefKind.OBJECT, UValue.genericObject clazz none contents) ::
                          (E1 ++ E3), ?_, rfl, ?_⟩
                      · rw [hcc1, hcc3]; simp
                      · refine .obj _ trivial ?_
                        exact slotTrace_append hs1 hs3
                    · intro tail ht
                      exact ⟨E1 ++ E3, rfl, trivial⟩
            | nil => simp at h
            | boolValue b => simp at h
            | intValue i => simp at h
            | floatValue f => simp at h
            | bytesValue d => simp at h
            | knownObject k => simp at h
            | genericObject a b c => simp at h
            | array els => simp at h
            | byteArrayValue d => simp at h
            | genericStruct a b => simp at h
            | nsPoint a b => simp at h
            | nsSize a b => simp at h
            | nsRect a b => simp at h
        | byteArray ee d =>
          simp only [Except.ok.injEq, Prod.mk.injEq] at h
          obtain ⟨rfl, rfl, rfl⟩ := h
          exact ⟨traceOut_single_skip _ (by rfl) _ _, by intro tail ht; simp at ht⟩
        | beginArray ee length =>
          dsimp only at h
          cases hp : parse_array_encoding enc with
          | none => rw [hp] at h; simp at h
          | some p =>
            obtain ⟨plen, pelem⟩ := p
            rw [hp] at h
            dsimp only at h
            cases hae : decode_array_elems n length pelem evs1 table with
            | error e => rw [hae] at h; simp at h
            | ok q =>
              obtain ⟨elems, evs2, t2⟩ := q
              rw [hae] at h
              simp only [except_ok_bind] at h
              cases evs2 with
              | nil => simp at h
              | cons e2 evs3 =>
                dsimp only at h
                by_cases he2 : e2 = Event.endArray
                · rw [if_pos he2] at h
                  subst he2
                  simp only [Except.ok.injEq, Prod.mk.injEq] at h
                  obtain ⟨rfl, rfl, rfl⟩ := h
                  have htr := ihae length pelem evs1 table elems _ t2 hae
                  refine ⟨traceOut_skip_head _ (by rfl)
                    (traceOut_trans htr (traceOut_single_skip _ (by rfl) _ _)), ?_⟩
                  intro tail ht; simp at ht
                · rw [if_neg he2] at h
                  simp at h
        | beginStruct sname fencs =>
          dsimp only at h
          cases hsc : struct_classes_by_encoding enc with
          | some sc =>
            rw [hsc] at h
            dsimp only at h
            cases hgv : decode_group_values n (struct_field_encodings sc) evs1 table with
            | error e => rw [hgv] at h; simp at h
            | ok q =>
              obtain ⟨fields, evs2, t2⟩ := q
              rw [hgv] at h
              simp only [except_ok_bind] at h
              cases evs2 with
              | nil => simp at h
              | cons e2 evs3 =>
                dsimp only at h
                by_cases he2 : e2 = Event.endStruct
                · rw [if_pos he2] at h
                  subst he2
                  cases hms : mk_known_struct sc fields with
                  | error e => rw [hms] at h; simp at h
                  | ok sv =>
                    rw [hms] at h
                    simp only [except_ok_bind, Except.ok.injEq, Prod.mk.injEq] at h
                    obtain ⟨rfl, rfl, rfl⟩ := h
                    have htr := ihgv (struct_field_encodings sc) evs1 table fields _ t2 hgv
                    refine ⟨traceOut_skip_head _ (by rfl)
                      (traceOut_trans htr (traceOut_single_skip _ (by rfl) _ _)), ?_⟩
                    intro tail ht; simp at ht
                · rw [if_neg he2] at h
                  simp at h
          | none =>
            rw [hsc] at h
            dsimp only at h
            cases hps : parse_struct_encoding enc with
            | none => rw [hps] at h; simp at h
            | some p =>
              obtain ⟨pname, pfields⟩ := p
              rw [hps] at h
              dsimp only at h
              cases hgv : decode_group_values n pfields evs1 table with
              | error e => rw [hgv] at h; simp at h
              | ok q =>
                obtain ⟨fields, evs2, t2⟩ := q
                rw [hgv] at h
                simp only [except_ok_bind] at h
                cases evs2 with
                | nil => simp at h
                | cons e2 evs3 =>
                  dsimp only at h
                  by_cases he2 : e2 = Event.endStruct
                  · rw [if_pos he2] at h
                    subst he2
                    simp only [Except.ok.injEq, Prod.mk.injEq] at h
                    obtain ⟨rfl, rfl, rfl⟩ := h
                    have htr := ihgv pfields evs1 table fields _ t2 hgv
                    refine ⟨traceOut_skip_head _ (by rfl)
                      (traceOut_trans htr (traceOut_single_skip _ (by rfl) _ _)), ?_⟩
                    intro tail ht; simp at ht
                  · rw [if_neg he2] at h
                    simp at h
        | beginTypedValues encs => simp at h
        | endTypedValues => simp at h
        | endObject => simp at h
        | endArray => simp at h
        | endStruct => simp at h
    · -- decode_class_chain
      intro acc evs table res evs' table' h
      cases evs with
      | nil => simp [decode_class_chain] at h
      | cons e evs1 =>
        simp only [decode_class_chain] at h
        cases e with
        | nil =>
          simp only [Except.ok.injEq, Prod.mk.injEq] at h
          obtain ⟨rfl, rfl, rfl⟩ := h
          exact ⟨rfl, [], .nil, by simp, by simp, rfl⟩
        | reference kind number =>
          dsimp only at h
          cases hl : _lookup_reference table kind number with
          | error e => rw [hl] at h; simp at h
          | ok obj =>
            rw [hl] at h
            simp only [except_ok_bind] at h
            cases obj with
            | clazz c =>
              simp only [Except.ok.injEq, Prod.mk.injEq] at h
              obtain ⟨rfl, rfl, rfl⟩ := h
              exact ⟨rfl, [], .reference kind number, by simp, by simp, rfl⟩
            | nil => simp at h
            | boolValue b => simp at h
            | intValue i => simp at h
            | floatValue f => simp at h
            | bytesValue d => simp at h
            | knownObject k => simp at h
            | genericObject a b c => simp at h
            | array els => simp at h
            | byteArrayValue d => simp at h
            | genericStruct a b => simp at h
            | nsPoint a b => simp at h
            | nsSize a b => simp at h
            | nsRect a b => simp at h
        | singleClass nm ver =>
          obtain ⟨htab, newS, tev, hres, hevs, htev⟩ :=
            ihchain (acc ++ [(nm, ver)]) evs1 table res evs' table' h
          refine ⟨htab, (nm, ver) :: newS, tev, ?_, ?_, htev⟩
          · rw [hres]; simp
          · rw [hevs]; simp
        | beginTypedValues a => simp at h
        | endTypedValues => simp at h
        | intValue i => simp at h
        | boolValue b => simp at h
        | floatValue f => simp at h
        | bytesValue d => simp at h
        | atom a => simp at h
        | selector a => simp at h
        | cString c => simp at h
        | beginObject => simp at h
        | endObject => simp at h
        | byteArray a b => simp at h
        | beginArray a b => simp at h
        | endArray => simp at h
        | beginStruct a b => simp at h
        | endStruct => simp at h
    · -- decode_extra_contents
      intro evs table gs evs' table' h
      cases evs with
      | nil => simp [decode_extra_contents] at h
      | cons e evs1 =>
        simp only [decode_extra_contents] at h
        by_cases he : e = Event.endObject
        · rw [if_pos he] at h
          subst he
          simp only [Except.ok.injEq, Prod.mk.injEq] at h
          obtain ⟨rfl, rfl, rfl⟩ := h
          exact traceOut_single_skip _ (by rfl) _ _
        · rw [if_neg he] at h
          cases htv0 : decode_typed_values n (some e) evs1 table with
          | error e2 => rw [htv0] at h; simp at h
          | ok q =>
            obtain ⟨g, evs2, t2⟩ := q
            rw [htv0] at h
            simp only [except_ok_bind] at h
            cases hex : decode_extra_contents n evs2 t2 with
            | error e2 => rw [hex] at h; simp at h
            | ok r =>
              obtain ⟨gs2, evs3, t3⟩ := r
              rw [hex] at h
              simp only [except_ok_bind, Except.ok.injEq, Prod.mk.injEq] at h
              obtain ⟨rfl, rfl, rfl⟩ := h
              obtain ⟨htr1, hlook⟩ := ihtv (some e) evs1 table g evs2 t2 htv0
              obtain ⟨encs, rfl⟩ := hlook e rfl
              exact traceOut_skip_head _ (by rfl)
                (traceOut_trans htr1 (ihextra evs2 t2 gs2 _ t3 hex))
    · -- decode_typed_values
      intro look evs table g evs' table' h
      simp only [decode_typed_values] at h
      cases look with
      | some e =>
        dsimp only at h
        cases e with
        | beginTypedValues encs =>
          dsimp only at h
          cases hgv : decode_group_values n encs evs table with
          | error e2 => rw [hgv] at h; simp at h
          | ok q =>
            obtain ⟨vals, evs2, t2⟩ := q
            rw [hgv] at h
            simp only [except_ok_bind] at h
            cases evs2 with
            | nil => simp at h
            | cons e2 evs3 =>
              dsimp only at h
              by_cases he2 : e2 = Event.endTypedValues
              · rw [if_pos he2] at h
                subst he2
                simp only [Except.ok.injEq, Prod.mk.injEq] at h
                obtain ⟨rfl, rfl, rfl⟩ := h
                refine ⟨traceOut_trans (ihgv encs evs table vals _ t2 hgv)
                  (traceOut_single_skip _ (by rfl) _ _), ?_⟩
                intro e he
                exact ⟨encs, by simpa using he.symm⟩
              · rw [if_neg he2] at h
                simp at h
        | endTypedValues => simp at h
        | nil => simp at h
        | intValue i => simp at h
        | boolValue b => simp at h
        | floatValue f => simp at h
        | reference a b => simp at h
        | atom a => simp at h
        | selector a => simp at h
        | cString c => simp at h
        | bytesValue d => simp at h
        | singleClass a b => simp at h
        | beginObject => simp at h
        | endObject => simp at h
        | byteArray a b => simp at h
        | beginArray a b => simp at h
        | endArray => simp at h
        | beginStruct a b => simp at h
        | endStruct => simp at h
      | none =>
        cases evs with
        | nil => simp at h
        | cons e evs1 =>
          dsimp only at h
          cases e with
          | beginTypedValues encs =>
            dsimp only at h
            cases hgv : decode_group_values n encs evs1 table with
            | error e2 => rw [hgv] at h; simp at h
            | ok q =>
              obtain ⟨vals, evs2, t2⟩ := q
              rw [hgv] at h
              simp only [except_ok_bind] at h
              cases evs2 with
              | nil => simp at h
              | cons e2 evs3 =>
                dsimp only at h
                by_cases he2 : e2 = Event.endTypedValues
                · rw [if_pos he2] at h
                  subst he2
                  simp only [Except.ok.injEq, Prod.mk.injEq] at h
                  obtain ⟨rfl, rfl, rfl⟩ := h
                  refine ⟨traceOut_skip_head _ (by rfl)
                    (traceOut_trans (ihgv encs evs1 table vals _ t2 hgv)
                      (traceOut_single_skip _ (by rfl) _ _)), ?_⟩
                  intro e he
                  simp at he
                · rw [if_neg he2] at h
                  simp at h
          | endTypedValues => simp at h
          | nil => simp at h
          | intValue i => simp at h
          | boolValue b => simp at h
          | floatValue f => simp at h
          | reference a b => simp at h
          | atom a => simp at h
          | selector a => simp at h
          | cString c => simp at h
          | bytesValue d => simp at h
          | singleClass a b => simp at h
          | beginObject => simp at h
          | endObject => simp at h
          | byteArray a b => simp at h
          | beginArray a b => simp at h
          | endArray => simp at h
          | beginStruct a b => simp at h
          | endStruct => simp at h
    · -- decode_group_values
      intro encs evs table vs evs' table' h
      cases encs with
      | nil =>
        simp only [decode_group_values, Except.ok.injEq, Prod.mk.injEq] at h
        obtain ⟨rfl, rfl, rfl⟩ := h
        exact traceOut_refl _ _
      | cons enc encs =>
        simp only [decode_group_values] at h
        cases hv : decode_any_untyped_value n enc evs table with
        | error e => rw [hv] at h; simp at h
        | ok q =>
          obtain ⟨v1, evs2, t2⟩ := q
          rw [hv] at h
          simp only [except_ok_bind] at h
          cases hrest : decode_group_values n encs evs2 t2 with
          | error e => rw [hrest] at h; simp at h
          | ok r =>
            obtain ⟨vs2, evs3, t3⟩ := r
            rw [hrest] at h
            simp only [except_ok_bind, Except.ok.injEq, Prod.mk.injEq] at h
            obtain ⟨rfl, rfl, rfl⟩ := h
            exact traceOut_trans (ihany enc evs table v1 evs2 t2 hv).1
              (ihgv encs evs2 t2 vs2 _ t3 hrest)
    · -- decode_array_elems
      intro k enc evs table vs evs' table' h
      cases k with
      | zero =>
        simp only [decode_array_elems, Except.ok.injEq, Prod.mk.injEq] at h
        obtain ⟨rfl, rfl, rfl⟩ := h
        exact traceOut_refl _ _
      | succ k =>
        simp only [decode_array_elems] at h
        cases hv : decode_any_untyped_value n enc evs table with
        | error e => rw [hv] at h; simp at h
        | ok q =>
          obtain ⟨v1, evs2, t2⟩ := q
          rw [hv] at h
          simp only [except_ok_bind] at h
          cases hrest : decode_array_elems n k enc evs2 t2 with
          | error e => rw [hrest] at h; simp at h
          | ok r =>
            obtain ⟨vs2, evs3, t3⟩ := r
            rw [hrest] at h
            simp only [except_ok_bind, Except.ok.injEq, Prod.mk.injEq] at h
            obtain ⟨rfl, rfl, rfl⟩ := h
            exact traceOut_trans (ihany enc evs table v1 evs2 t2 hv).1
              (ihae k enc evs2 t2 vs2 _ t3 hrest)
    · -- decode_values_of_types
      intro tes evs table vs evs' table' h
      simp only [decode_values_of_types] at h
      by_cases hne : tes = []
      · rw [if_pos hne] at h; simp at h
      · rw [if_neg hne] at h
        cases htv0 : decode_typed_values n none evs table with
        | error e => rw [htv0] at h; simp at h
        | ok q =>
          obtain ⟨⟨encs, vals⟩, evs2, t2⟩ := q
          rw [htv0] at h
          simp only [except_ok_bind] at h
          by_cases hm : all_encodings_match_expected encs tes = true
          · rw [if_pos hm] at h
            simp only [Except.ok.injEq, Prod.mk.injEq] at h
            obtain ⟨rfl, rfl, rfl⟩ := h
            exact (ihtv none evs table (.mk encs vals) _ t2 htv0).1
          · rw [if_neg hm] at h
            simp at h
    · -- decode_value_of_type
      intro te evs table v evs' table' h
      simp only [decode_value_of_type] at h
      cases hv : decode_values_of_types n [te] evs table with
      | error e => rw [hv] at h; simp at h
      | ok q =>
        obtain ⟨vals, evs2, t2⟩ := q
        rw [hv] at h
        simp only [except_ok_bind] at h
        cases vals with
        | nil => simp at h
        | cons v1 rest =>
          cases rest with
          | nil =>
            simp only [Except.ok.injEq, Prod.mk.injEq] at h
            obtain ⟨rfl, rfl, rfl⟩ := h
            exact ihvot [te] evs table _ _ t2 hv
          | cons v2 rest2 => simp at h
    · -- init_from_unarchiver
      intro pc cd evs table k evs' table' h
      cases pc with
      | NSObject =>
        simp only [init_from_unarchiver] at h
        by_cases hs : (ClassDesc.superclass cd).isSome = true
        · rw [if_pos hs] at h; simp at h
        · rw [if_neg hs] at h
          by_cases hv : ClassDesc.version cd ≠ 0
          · rw [if_pos hv] at h; simp at h
          · rw [if_neg hv] at h
            simp only [Except.ok.injEq, Prod.mk.injEq] at h
            obtain ⟨rfl, rfl, rfl⟩ := h
            exact traceOut_refl _ _
      | NSString =>
        simp only [init_from_unarchiver] at h
        cases hsup : ClassDesc.superclass cd with
        | none => rw [hsup] at h; simp at h
        | some sup =>
          rw [hsup] at h
          dsimp only at h
          by_cases hn : ClassDesc.name sup ≠ bytesOfString "NSObject"
          · rw [if_pos hn] at h; simp at h
          · rw [if_neg hn] at h
            cases hinit : init_from_unarchiver n PyClass.NSObject sup evs table with
            | error e => rw [hinit] at h; simp at h
            | ok q =>
              obtain ⟨k0, evs2, t2⟩ := q
              rw [hinit] at h
              simp only [except_ok_bind] at h
              by_cases hver : ClassDesc.version cd ≠ 1
              · rw [if_pos hver] at h; simp at h
              · rw [if_neg hver] at h
                cases hvt : decode_value_of_type n [43] evs2 t2 with
                | error e => rw [hvt] at h; simp at h
                | ok r =>
                  obtain ⟨v1, evs3, t3⟩ := r
                  rw [hvt] at h
                  simp only [except_ok_bind] at h
                  cases v1 with
                  | bytesValue data =>
                    dsimp only at h
                    cases hdec : utf8_decode data with
                    | none => rw [hdec] at h; simp at h
                    | some cps =>
                      rw [hdec] at h
                      simp only [Except.ok.injEq, Prod.mk.injEq] at h
                      obtain ⟨rfl, rfl, rfl⟩ := h
                      exact traceOut_trans (ihinit PyClass.NSObject sup evs table k0 evs2 t2 hinit)
                        (ihvt [43] evs2 t2 (.bytesValue data) _ t3 hvt)
                  | nil => simp at h
                  | boolValue b => simp at h
                  | intValue i => simp at h
                  | floatValue f => simp at h
                  | clazz c => simp at h
                  | knownObject kk => simp at h
                  | genericObject a b c => simp at h
                  | array els => simp at h
                  | byteArrayValue d => simp at h
                  | genericStruct a b => simp at h
                  | nsPoint a b => simp at h
                  | nsSize a b => simp at h
                  | nsRect a b => simp at h
      | NSMutableString =>
        simp only [init_from_unarchiver] at h
        cases hsup : ClassDesc.superclass cd with
        | none => rw [hsup] at h; simp at h
        | some sup =>
          rw [hsup] at h
          dsimp only at h
          by_cases hn : ClassDesc.name sup ≠ bytesOfString "NSString"
          · rw [if_pos hn] at h; simp at h
          · rw [if_neg hn] at h
            cases hinit : init_from_unarchiver n PyClass.NSString sup evs table with
            | error e => rw [hinit] at h; simp at h
            | ok q =>
              obtain ⟨k0, evs2, t2⟩ := q
              rw [hinit] at h
              simp only [except_ok_bind] at h
              by_cases hver : ClassDesc.version cd ≠ 1
              · rw [if_pos hver] at h; simp at h
              · rw [if_neg hver] at h
                cases k0 with
                | NSString v0 =>
                  simp only [Except.ok.injEq, Prod.mk.injEq] at h
                  obtain ⟨rfl, rfl, rfl⟩ := h
                  exact ihinit PyClass.NSString sup evs table _ _ t2 hinit
                | NSObject => simp at h
                | NSMutableString v0 => simp at h

/-- The slot entries a `SlotTrace` creates, read off per kind: class slots
correspond positionally to the literal-class events, C-string slots are the
literal C string contents in order, and object slots hold constructed
objects, one per literal object start. -/
theorem slotTrace_kinds {c : List Event} {s : List (RefKind × UValue)} (h : SlotTrace c s) :
    List.Forall₂ (fun (nv : List Nat × Int) (w : UValue) =>
        ∃ cd, w = UValue.clazz cd ∧ ClassDesc.name cd = nv.1 ∧ ClassDesc.version cd = nv.2)
      (c.filterMap class_event_info) (slots_of_kind RefKind.CLASS s) ∧
    slots_of_kind RefKind.C_STRING s =
      (c.filterMap cstring_event_info).map UValue.bytesValue ∧
    List.Forall₂ (fun (_ : Event) (w : UValue) => IsObjectValue w)
      (c.filter (fun e => slot_event_kind e == some RefKind.OBJECT))
      (slots_of_kind RefKind.OBJECT s) := by
  induction h with
  | nil => simp [slots_of_kind]
  | cstr cs h ih =>
    obtain ⟨ih1, ih2, ih3⟩ := ih
    refine ⟨?_, ?_, ?_⟩
    · simpa [slots_of_kind, class_event_info] using ih1
    · simpa [slots_of_kind, cstring_event_info] using ih2
    · simpa [slots_of_kind, slot_event_kind] using ih3
  | cls name version cd hn hv h ih =>
    obtain ⟨ih1, ih2, ih3⟩ := ih
    refine ⟨?_, ?_, ?_⟩
    · simp only [List.filterMap_cons, class_event_info, slots_of_kind, List.filterMap_cons]
      exact List.Forall₂.cons ⟨cd, rfl, hn, hv⟩ ih1
    · simpa [slots_of_kind, cstring_event_info] using ih2
    · simpa [slots_of_kind, slot_event_kind] using ih3
  | obj v hv h ih =>
    obtain ⟨ih1, ih2, ih3⟩ := ih
    refine ⟨?_, ?_, ?_⟩
    · simpa [slots_of_kind, class_event_info] using ih1
    · simpa [slots_of_kind, cstring_event_info] using ih2
    · simp only [List.filter_cons, slots_of_kind, List.filterMap_cons, slot_event_kind]
      exact List.Forall₂.cons hv ih3
  | skip e he h ih =>
    obtain ⟨ih1, ih2, ih3⟩ := ih
    have hcl : class_event_info e = none := by
      cases e <;> simp_all [slot_event_kind, class_event_info]
    have hcs : cstring_event_info e = none := by
      cases e <;> simp_all [slot_event_kind, cstring_event_info]
    refine ⟨?_, ?_, ?_⟩
    · simpa [List.filterMap_cons, hcl] using ih1
    · simpa [List.filterMap_cons, hcs] using ih2
    · simpa [List.filter_cons, he] using ih3

/-- **C2**: slots of the shared-object table are assigned in writer order.  A
successful `decode_any_untyped_value` call consumes an initial segment of the
event stream and appends to the shared-object table exactly the slots of that
segment's slot-creating events: the N-th literally stored class event yields
the N-th new `CLASS` slot (a class whose name and version are the event's;
chain terminators get no slot), each literal C string event appends its bytes
as a `C_STRING` slot, and each literally stored object contributes one
`OBJECT` slot holding a constructed object.  When the call itself starts at a
literal object, the object's slot is the first new entry — reserved before
any class-chain slot, hence with a smaller index — and finally holds the
decoded object itself. -/
theorem decode_any_untyped_value_slot_discipline
    (fuel : Nat) (enc : List Nat) (evs : List Event) (table : SOT)
    (v : UValue) (evs' : List Event) (table' : SOT)
    (h : decode_any_untyped_value fuel enc evs table = .ok (v, evs', table')) :
    ∃ consumed newEntries,
      evs = consumed ++ evs' ∧ table' = table ++ newEntries ∧
      List.Forall₂ (fun (nv : List Nat × Int) (w : UValue) =>
          ∃ cd, w = UValue.clazz cd ∧ ClassDesc.name cd = nv.1 ∧ ClassDesc.version cd = nv.2)
        (consumed.filterMap class_event_info) (slots_of_kind RefKind.CLASS newEntries) ∧
      slots_of_kind RefKind.C_STRING newEntries =
        (consumed.filterMap cstring_event_info).map UValue.bytesValue ∧
      List.Forall₂ (fun (_ : Event) (w : UValue) => IsObjectValue w)
        (consumed.filter (fun e => slot_event_kind e == some RefKind.OBJECT))
        (slots_of_kind RefKind.OBJECT newEntries) ∧
      (∀ tail, evs = Event.beginObject :: tail →
        ∃ rest, newEntries = (RefKind.OBJECT, v) :: rest ∧ IsObjectValue v) := by
  obtain ⟨⟨consumed, newE, hc, ht, hs⟩, hobj⟩ :=
    ((unarchiver_trace fuel).1 enc evs table v evs' table' h)
  obtain ⟨h1, h2, h3⟩ := slotTrace_kinds hs
  refine ⟨consumed, newE, hc, ht, h1, h2, h3, ?_⟩
  intro tail htail
  obtain ⟨rest, hr, hv⟩ := hobj tail htail
  refine ⟨rest, ?_, hv⟩
  have hcat : table ++ newE = table ++ (RefKind.OBJECT, v) :: rest := ht.symm.trans hr
  exact List.append_cancel_left hcat

set_option maxRecDepth 10000 in
theorem decode_any_untyped_value_slot_discipline_witness :
    ∃ consumed newEntries,
      ([Event.beginObject, Event.singleClass (bytesOfString "NSString") 1,
        Event.singleClass (bytesOfString "NSObject") 0, Event.nil,
        Event.beginTypedValues [[43]], Event.bytesValue (bytesOfString "string value"),
        Event.endTypedValues, Event.endObject] : List Event) = consumed ++ [] ∧
      ([(RefKind.OBJECT,
          UValue.knownObject (KnownObj.NSString (some (bytesOfString "string value")))),
        (RefKind.CLASS, UValue.clazz (ClassDesc.mk (bytesOfString "NSString") 1
          (some (ClassDesc.mk (bytesOfString "NSObject") 0 none)))),
        (RefKind.CLASS, UValue.clazz (ClassDesc.mk (bytesOfString "NSObject") 0 none))] : SOT) =
        [] ++ newEntries ∧
      List.Forall₂ (fun (nv : List Nat × Int) (w : UValue) =>
          ∃ cd, w = UValue.clazz cd ∧ ClassDesc.name cd = nv.1 ∧ ClassDesc.version cd = nv.2)
        (consumed.filterMap class_event_info) (slots_of_kind RefKind.CLASS newEntries) ∧
      slots_of_kind RefKind.C_STRING newEntries =
        (consumed.filterMap cstring_event_info).map UValue.bytesValue ∧
      List.Forall₂ (fun (_ : Event) (w : UValue) => IsObjectValue w)
        (consumed.filter (fun e => slot_event_kind e == some RefKind.OBJECT))
        (slots_of_kind RefKind.OBJECT newEntries) ∧
      (∀ tail,
        ([Event.beginObject, Event.singleClass (bytesOfString "NSString") 1,
          Event.singleClass (bytesOfString "NSObject") 0, Event.nil,
          Event.beginTypedValues [[43]], Event.bytesValue (bytesOfString "string value"),
          Event.endTypedValues, Event.endObject] : List Event) = Event.beginObject :: tail →
        ∃ rest, newEntries = (RefKind.OBJECT,
            UValue.knownObject (KnownObj.NSString (some (bytesOfString "string value")))) :: rest ∧
          IsObjectValue (UValue.knownObject (KnownObj.NSString
            (some (bytesOfString "string value"))))) :=
  decode_any_untyped_value_slot_discipline 50 [64]
    [Event.beginObject, Event.singleClass (bytesOfString "NSString") 1,
     Event.singleClass (bytesOfString "NSObject") 0, Event.nil,
     Event.beginTypedValues [[43]], Event.bytesValue (bytesOfString "string value"),
     Event.endTypedValues, Event.endObject] []
    (UValue.knownObject (KnownObj.NSString (some (bytesOfString "string value")))) []
    [(RefKind.OBJECT,
       UValue.knownObject (KnownObj.NSString (some (bytesOfString "string value")))),
     (RefKind.CLASS, UValue.clazz (ClassDesc.mk (bytesOfString "NSString") 1
       (some (ClassDesc.mk (bytesOfString "NSObject") 0 none)))),
     (RefKind.CLASS, UValue.clazz (ClassDesc.mk (bytesOfString "NSObject") 0 none))]
    (by rfl)

/-! ### C4 machinery: the encoding grammar, its renderer and the matcher -/


theorem natDigitsF_all_digits : ∀ fuel n, ∀ d ∈ natDigitsF fuel n, 48 ≤ d ∧ d ≤ 57 := by
  intro fuel
  induction fuel with
  | zero => intro n d hd; simp [natDigitsF] at hd
  | succ f ih =>
    intro n d hd
    simp only [natDigitsF] at hd
    by_cases h : n < 10
    · rw [if_pos h] at hd
      simp at hd
      omega
    · rw [if_neg h] at hd
      simp only [List.mem_append, List.mem_singleton] at hd
      rcases hd with hd | hd
      · exact ih _ _ hd
      · have := Nat.mod_lt n (show 0 < 10 by omega)
        omega

theorem natDigitsF_ne_nil : ∀ fuel n, n < fuel → natDigitsF fuel n ≠ [] := by
  intro fuel
  induction fuel with
  | zero => intro n h; omega
  | succ f ih =>
    intro n h
    simp only [natDigitsF]
    by_cases h10 : n < 10
    · rw [if_pos h10]; simp
    · rw [if_neg h10]; simp

theorem natDigitsF_foldl : ∀ fuel n, n < fuel →
    (natDigitsF fuel n).foldl (fun acc c => acc * 10 + (c - 48)) 0 = n := by
  intro fuel
  induction fuel with
  | zero => intro n h; omega
  | succ f ih =>
    intro n h
    simp only [natDigitsF]
    by_cases h10 : n < 10
    · rw [if_pos h10]
      simp [List.foldl]
    · rw [if_neg h10]
      rw [List.foldl_append]
      rw [ih (n / 10) (by omega)]
      simp only [List.foldl]
      omega

theorem natDigits_all_digits : ∀ n, ∀ d ∈ natDigits n, 48 ≤ d ∧ d ≤ 57 :=
  fun n => natDigitsF_all_digits (n + 1) n

theorem natDigits_ne_nil (n : Nat) : natDigits n ≠ [] :=
  natDigitsF_ne_nil (n + 1) n (by omega)

theorem natDigits_foldl (n : Nat) :
    (natDigits n).foldl (fun acc c => acc * 10 + (c - 48)) 0 = n :=
  natDigitsF_foldl (n + 1) n (by omega)

theorem scanOrdinary_char (c : Nat) (h : scanOrdinary c = true) :
    c ≠ 40 ∧ c ≠ 41 ∧ c ≠ 91 ∧ c ≠ 93 ∧ c ≠ 123 ∧ c ≠ 125 := by
  simp only [scanOrdinary, Bool.not_eq_true', Bool.or_eq_false_iff, beq_eq_false_iff_ne,
    ne_eq] at h
  tauto

theorem plainByte_scanOrdinary (c : Nat) (h : plainByte c = true) : scanOrdinary c = true := by
  simp only [plainByte, Bool.not_eq_true', Bool.or_eq_false_iff, beq_eq_false_iff_ne] at h
  simp only [scanOrdinary, Bool.not_eq_true', Bool.or_eq_false_iff, beq_eq_false_iff_ne]
  tauto

theorem digit_scanOrdinary (c : Nat) (h : 48 ≤ c ∧ c ≤ 57) : scanOrdinary c = true := by
  simp only [scanOrdinary, Bool.not_eq_true', Bool.or_eq_false_iff, beq_eq_false_iff_ne]
  omega

/-! Single-step characterizations of the `end_loop` scanner. -/

theorem end_loop_opener (c : Nat) (hc : c = 40 ∨ c = 91 ∨ c = 123) (l : List Nat) (d : Nat) :
    end_loop (c :: l) d = (end_loop l (d + 1)).map (· + 1) := by
  simp only [end_loop]
  rw [if_pos hc]

theorem end_loop_ord (c : Nat) (hc : scanOrdinary c = true) (l : List Nat) (d : Nat)
    (hd : 1 ≤ d) : end_loop (c :: l) d = (end_loop l d).map (· + 1) := by
  obtain ⟨h40, h41, h91, h93, h123, h125⟩ := scanOrdinary_char c hc
  simp only [end_loop]
  rw [if_neg (by omega)]
  rw [if_pos (by omega)]
  rw [if_neg (by omega : ¬(c = 41 ∨ c = 93 ∨ c = 125))]
  rw [if_neg (by omega : ¬ d = 0)]

theorem end_loop_ord_zero (c : Nat) (hno : ¬(c = 40 ∨ c = 91 ∨ c = 123)) (l : List Nat) :
    end_loop (c :: l) 0 = some 1 := by
  simp only [end_loop]
  rw [if_neg hno]
  rw [if_neg (by omega)]

theorem end_loop_closer_one (c : Nat) (hc : c = 41 ∨ c = 93 ∨ c = 125)
    (hno : ¬(c = 40 ∨ c = 91 ∨ c = 123)) (l : List Nat) :
    end_loop (c :: l) 1 = some 1 := by
  simp only [end_loop]
  rw [if_neg hno]
  rw [if_pos (by omega)]
  rw [if_pos hc]
  simp

theorem end_loop_closer_deep (c : Nat) (hc : c = 41 ∨ c = 93 ∨ c = 125)
    (hno : ¬(c = 40 ∨ c = 91 ∨ c = 123)) (l : List Nat) (d : Nat) (hd : 1 ≤ d) :
    end_loop (c :: l) (d + 1) = (end_loop l d).map (· + 1) := by
  simp only [end_loop]
  rw [if_neg hno]
  rw [if_pos (by omega)]
  rw [if_pos hc]
  simp only [Nat.add_sub_cancel]
  rw [if_neg (by omega : ¬ d = 0)]

/-- An ordinary (non-bracket) byte string passes through the `end_loop` scan
at positive depth. -/
theorem end_loop_plain : ∀ (l : List Nat), (∀ c ∈ l, scanOrdinary c = true) →
    ∀ d rest, 1 ≤ d →
      end_loop (l ++ rest) d = (end_loop rest d).map (· + l.length) := by
  intro l
  induction l with
  | nil =>
    intro _ d rest _
    cases h : end_loop rest d <;> simp [h]
  | cons c l ih =>
    intro hord d rest hd
    rw [List.cons_append]
    rw [end_loop_ord c (hord c (by simp)) (l ++ rest) d hd]
    rw [ih (fun x hx => hord x (by simp [hx])) d rest hd]
    cases h : end_loop rest d with
    | none => simp [h]
    | some a => simp [h]; omega

mutual
/-- A well-formed rendered encoding passes through the `end_loop` scan at
positive depth. -/
theorem end_loop_render : ∀ (e : Enc), EncWF e = true →
    ∀ d rest, 1 ≤ d →
      end_loop (render e ++ rest) d = (end_loop rest d).map (· + (render e).length)
  | .prim b, hwf, d, rest, hd => by
    have hb : plainByte b = true := by
      simp only [EncWF, primByte, Bool.and_eq_true] at hwf
      exact hwf.1
    have hord : scanOrdinary b = true := plainByte_scanOrdinary b hb
    show end_loop (b :: rest) d = (end_loop rest d).map (· + 1)
    exact end_loop_ord b hord rest d hd
  | .arr n e, hwf, d, rest, hd => by
    have hwe : EncWF e = true := hwf
    have hdig : ∀ c ∈ natDigits n, scanOrdinary c = true :=
      fun c hc => digit_scanOrdinary c (natDigits_all_digits n c hc)
    have hshape : render (.arr n e) ++ rest =
        91 :: (natDigits n ++ (render e ++ ([93] ++ rest))) := by
      simp [render]
    rw [hshape]
    rw [end_loop_opener 91 (by omega) _ d]
    rw [end_loop_plain (natDigits n) hdig (d + 1) _ (by omega)]
    rw [end_loop_render e hwe (d + 1) ([93] ++ rest) (by omega)]
    rw [show ([93] ++ rest : List Nat) = 93 :: rest from rfl]
    rw [end_loop_closer_deep 93 (by omega) (by omega) rest d hd]
    cases h : end_loop rest d with
    | none => simp [h]
    | some a => simp [h, render]; omega
  | .strukt none fs, hwf, d, rest, hd => by
    have hwfs : EncListWF fs = true := by
      simp only [EncWF, Bool.and_eq_true] at hwf
      exact hwf.2
    have hshape : render (.strukt none fs) ++ rest =
        123 :: (renderList fs ++ ([125] ++ rest)) := by
      simp [render]
    rw [hshape]
    rw [end_loop_opener 123 (by omega) _ d]
    rw [end_loop_renderList fs hwfs (d + 1) ([125] ++ rest) (by omega)]
    rw [show ([125] ++ rest : List Nat) = 125 :: rest from rfl]
    rw [end_loop_closer_deep 125 (by omega) (by omega) rest d hd]
    cases h : end_loop rest d with
    | none => simp [h]
    | some a => simp [h, render]; omega
  | .strukt (some nm) fs, hwf, d, rest, hd => by
    have hnm : ∀ c ∈ nm, plainByte c = true := by
      simp only [EncWF, Bool.and_eq_true, List.all_eq_true] at hwf
      exact hwf.1
    have hwfs : EncListWF fs = true := by
      simp only [EncWF, Bool.and_eq_true] at hwf
      exact hwf.2
    have hshape : render (.strukt (some nm) fs) ++ rest =
        123 :: ((nm ++ [61]) ++ (renderList fs ++ ([125] ++ rest))) := by
      simp [render]
    rw [hshape]
    rw [end_loop_opener 123 (by omega) _ d]
    rw [end_loop_plain (nm ++ [61]) (by
      intro c hc
      simp only [List.mem_append, List.mem_singleton] at hc
      rcases hc with hc | hc
      · exact plainByte_scanOrdinary c (hnm c hc)
      · rw [hc]
        decide) (d + 1) _ (by omega)]
    rw [end_loop_renderList fs hwfs (d + 1) ([125] ++ rest) (by omega)]
    rw [show ([125] ++ rest : List Nat) = 125 :: rest from rfl]
    rw [end_loop_closer_deep 125 (by omega) (by omega) rest d hd]
    cases h : end_loop rest d with
    | none => simp [h]
    | some a => simp [h, render]; omega

theorem end_loop_renderList : ∀ (fs : EncList), EncListWF fs = true →
    ∀ d rest, 1 ≤ d →
      end_loop (renderList fs ++ rest) d = (end_loop rest d).map (· + (renderList fs).length)
  | .nil, _, d, rest, _ => by
    cases h : end_loop rest d <;> simp [renderList, h]
  | .cons f fs, hwf, d, rest, hd => by
    have hw1 : EncWF f = true := by
      simp only [EncListWF, Bool.and_eq_true] at hwf
      exact hwf.1
    have hw2 : EncListWF fs = true := by
      simp only [EncListWF, Bool.and_eq_true] at hwf
      exact hwf.2
    have hshape : renderList (.cons f fs) ++ rest = render f ++ (renderList fs ++ rest) := by
      simp [renderList]
    rw [hshape]
    rw [end_loop_render f hw1 d _ hd]
    rw [end_loop_renderList fs hw2 d rest hd]
    cases h : end_loop rest d with
    | none => simp [h]
    | some a => simp [h, renderList]; omega
end

/-- A well-formed rendered encoding is exactly what `end_loop` at depth `0`
consumes. -/
theorem end_loop_render_zero (e : Enc) (hwf : EncWF e = true) (rest : List Nat) :
    end_loop (render e ++ rest) 0 = some (render e).length := by
  cases e with
  | prim b =>
    have hb : plainByte b = true := by
      simp only [EncWF, primByte, Bool.and_eq_true] at hwf
      exact hwf.1
    obtain ⟨h40, _, h91, _, h123, _⟩ := scanOrdinary_char b (plainByte_scanOrdinary b hb)
    show end_loop (b :: rest) 0 = some 1
    exact end_loop_ord_zero b (by omega) rest
  | arr n e =>
    have hwe : EncWF e = true := hwf
    have hdig : ∀ c ∈ natDigits n, scanOrdinary c = true :=
      fun c hc => digit_scanOrdinary c (natDigits_all_digits n c hc)
    have hshape : render (.arr n e) ++ rest =
        91 :: (natDigits n ++ (render e ++ ([93] ++ rest))) := by
      simp [render]
    rw [hshape]
    rw [end_loop_opener 91 (by omega) _ 0]
    rw [end_loop_plain (natDigits n) hdig 1 _ (by omega)]
    rw [end_loop_render e hwe 1 ([93] ++ rest) (by omega)]
    rw [show ([93] ++ rest : List Nat) = 93 :: rest from rfl]
    rw [end_loop_closer_one 93 (by omega) (by omega) rest]
    simp [render]
    omega
  | strukt name fs =>
    cases name with
    | none =>
      have hwfs : EncListWF fs = true := by
        simp only [EncWF, Bool.and_eq_true] at hwf
        exact hwf.2
      have hshape : render (.strukt none fs) ++ rest =
          123 :: (renderList fs ++ ([125] ++ rest)) := by
        simp [render]
      rw [hshape]
      rw [end_loop_opener 123 (by omega) _ 0]
      rw [end_loop_renderList fs hwfs 1 ([125] ++ rest) (by omega)]
      rw [show ([125] ++ rest : List Nat) = 125 :: rest from rfl]
      rw [end_loop_closer_one 125 (by omega) (by omega) rest]
      simp [render]
      omega
    | some nm =>
      have hnm : ∀ c ∈ nm, plainByte c = true := by
        simp only [EncWF, Bool.and_eq_true, List.all_eq_true] at hwf
        exact hwf.1
      have hwfs : EncListWF fs = true := by
        simp only [EncWF, Bool.and_eq_true] at hwf
        exact hwf.2
      have hshape : render (.strukt (some nm) fs) ++ rest =
          123 :: ((nm ++ [61]) ++ (renderList fs ++ ([125] ++ rest))) := by
        simp [render]
      rw [hshape]
      rw [end_loop_opener 123 (by omega) _ 0]
      rw [end_loop_plain (nm ++ [61]) (by
        intro c hc
        simp only [List.mem_append, List.mem_singleton] at hc
        rcases hc with hc | hc
        · exact plainByte_scanOrdinary c (hnm c hc)
        · rw [hc]
          decide) 1 _ (by omega)]
      rw [end_loop_renderList fs hwfs 1 ([125] ++ rest) (by omega)]
      rw [show ([125] ++ rest : List Nat) = 125 :: rest from rfl]
      rw [end_loop_closer_one 125 (by omega) (by omega) rest]
      simp [render]
      omega


theorem render_ne_nil (e : Enc) : render e ≠ [] := by
  cases e with
  | prim b => simp [render]
  | arr n el => simp [render]
  | strukt name fs => cases name <;> simp [render]

theorem render_length_pos (e : Enc) : 1 ≤ (render e).length := by
  have := render_ne_nil e
  cases h : render e with
  | nil => exact absurd h this
  | cons a l => simp [h]

/-- `split_loop` maps a concatenation of well-formed rendered encodings back
to the list of renders. -/
theorem split_loop_renderList : ∀ (fs : EncList), EncListWF fs = true →
    ∀ fuel, (renderList fs).length ≤ fuel →
      split_loop fuel (renderList fs) = some (encRList fs)
  | .nil, _, fuel, _ => by
    cases fuel <;> simp [renderList, split_loop, encRList]
  | .cons f fs, hwf, fuel, hfuel => by
    have hw1 : EncWF f = true := by
      simp only [EncListWF, Bool.and_eq_true] at hwf
      exact hwf.1
    have hw2 : EncListWF fs = true := by
      simp only [EncListWF, Bool.and_eq_true] at hwf
      exact hwf.2
    have hlen : (renderList (.cons f fs)).length =
        (render f).length + (renderList fs).length := by
      simp [renderList]
    obtain ⟨hc, ht, hre⟩ : ∃ hc ht, render f = hc :: ht := by
      cases h : render f with
      | nil => exact absurd h (render_ne_nil f)
      | cons a l => exact ⟨a, l, rfl⟩
    have hfpos := render_length_pos f
    cases fuel with
    | zero => omega
    | succ k =>
      have hshape : renderList (.cons f fs) = hc :: (ht ++ renderList fs) := by
        simp [renderList, hre]
      rw [hshape]
      simp only [split_loop]
      rw [← List.cons_append, ← hre]
      rw [end_loop_render_zero f hw1 (renderList fs)]
      simp only [Option.bind_eq_bind, Option.some_bind]
      rw [List.drop_left, List.take_left]
      rw [split_loop_renderList fs hw2 k (by omega)]
      simp [encRList]

theorem split_encodings_renderList (fs : EncList) (hwf : EncListWF fs = true) :
    split_encodings (renderList fs) = some (encRList fs) :=
  split_loop_renderList fs hwf (renderList fs).length (by omega)


theorem findIdx?_append_false (l1 l2 : List Nat) (p : Nat → Bool)
    (h : ∀ c ∈ l1, p c = false) :
    ∀ i, List.findIdx? p (l1 ++ l2) i = List.findIdx? p l2 (i + l1.length) := by
  induction l1 with
  | nil => intro i; simp
  | cons c l1 ih =>
    intro i
    rw [List.cons_append, List.findIdx?_cons]
    rw [if_neg (by simp [h c (by simp)])]
    rw [ih (fun x hx => h x (by simp [hx])) (i + 1)]
    have harith : i + 1 + l1.length = i + (c :: l1).length := by simp; omega
    rw [harith]

theorem findIdx?_append_false0 (l1 l2 : List Nat) (p : Nat → Bool)
    (h : ∀ c ∈ l1, p c = false) :
    List.findIdx? p (l1 ++ l2) = (List.findIdx? p l2).map (· + l1.length) := by
  induction l1 with
  | nil =>
    cases hfi : List.findIdx? p l2 <;> simp [hfi]
  | cons c l1 ih =>
    rw [List.cons_append, List.findIdx?_cons]
    rw [if_neg (by simp [h c (by simp)])]
    rw [List.findIdx?_succ]
    rw [ih (fun x hx => h x (by simp [hx]))]
    cases hfi : List.findIdx? p l2 with
    | none => simp
    | some a => simp; omega

theorem findIdx?_name_eq (nm t : List Nat) (h : ∀ c ∈ nm, c ≠ 61) :
    List.findIdx? (fun c => c = 61) (nm ++ 61 :: t) 0 = some nm.length := by
  rw [findIdx?_append_false nm (61 :: t) _ (by
    intro c hc
    simp [h c hc]) 0]
  rw [List.findIdx?_cons]
  simp

theorem noEqBeforeBrace_plain : ∀ (l : List Nat), (∀ c ∈ l, c ≠ 123 ∧ c ≠ 61) →
    ∀ rest, noEqBeforeBrace (l ++ rest) = noEqBeforeBrace rest := by
  intro l
  induction l with
  | nil => intro _ rest; simp
  | cons c l ih =>
    intro h rest
    obtain ⟨h123, h61⟩ := h c (by simp)
    rw [List.cons_append]
    simp only [noEqBeforeBrace]
    rw [if_neg h123, if_neg h61]
    exact ih (fun x hx => h x (by simp [hx])) rest

mutual
theorem noEq_render : ∀ (e : Enc), EncWF e = true →
    ∀ rest, noEqBeforeBrace rest = true → noEqBeforeBrace (render e ++ rest) = true
  | .prim b, hwf, rest, hrest => by
    have hb : plainByte b = true := by
      simp only [EncWF, primByte, Bool.and_eq_true] at hwf
      exact hwf.1
    simp only [plainByte, Bool.not_eq_true', Bool.or_eq_false_iff, beq_eq_false_iff_ne] at hb
    show noEqBeforeBrace (b :: rest) = true
    simp only [noEqBeforeBrace]
    rw [if_neg (by tauto), if_neg (by tauto)]
    exact hrest
  | .arr n e, hwf, rest, hrest => by
    have hwe : EncWF e = true := hwf
    have hshape : render (.arr n e) ++ rest =
        91 :: (natDigits n ++ (render e ++ ([93] ++ rest))) := by
      simp [render]
    rw [hshape]
    simp only [noEqBeforeBrace]
    rw [if_neg (by omega), if_neg (by omega)]
    rw [noEqBeforeBrace_plain (natDigits n) (by
      intro c hc
      have := natDigits_all_digits n c hc
      omega) _]
    apply noEq_render e hwe
    show noEqBeforeBrace (93 :: rest) = true
    simp only [noEqBeforeBrace]
    rw [if_neg (by omega), if_neg (by omega)]
    exact hrest
  | .strukt name fs, hwf, rest, hrest => by
    have hshape : ∃ t, render (.strukt name fs) ++ rest = 123 :: t := by
      cases name with
      | none => exact ⟨renderList fs ++ (125 :: rest), by simp [render]⟩
      | some nm => exact ⟨nm ++ 61 :: (renderList fs ++ (125 :: rest)), by simp [render]⟩
    obtain ⟨t, ht⟩ := hshape
    rw [ht]
    simp [noEqBeforeBrace]

theorem noEq_renderList : ∀ (fs : EncList), EncListWF fs = true →
    ∀ rest, noEqBeforeBrace rest = true → noEqBeforeBrace (renderList fs ++ rest) = true
  | .nil, _, rest, hrest => by simpa [renderList] using hrest
  | .cons f fs, hwf, rest, hrest => by
    have hw1 : EncWF f = true := by
      simp only [EncListWF, Bool.and_eq_true] at hwf
      exact hwf.1
    have hw2 : EncListWF fs = true := by
      simp only [EncListWF, Bool.and_eq_true] at hwf
      exact hwf.2
    have hshape : renderList (.cons f fs) ++ rest = render f ++ (renderList fs ++ rest) := by
      simp [renderList]
    rw [hshape]
    exact noEq_render f hw1 _ (noEq_renderList fs hw2 rest hrest)
end

/-- In the region `parse_struct_encoding` searches for a name separator (the
part before the first `{`, bounded by the last index), no `=` occurs when no
`=` precedes the first `{`. -/
theorem take_region_no_eq : ∀ (l : List Nat), noEqBeforeBrace l = true →
    ∀ c ∈ l.take ((match List.findIdx? (fun c => c = 123) l 0 with
      | some k => k + 1
      | none => l.length) - 1), c ≠ 61 := by
  intro l
  induction l with
  | nil => intro _ c hc; simp at hc
  | cons a r ih =>
    intro hne c hc
    by_cases ha123 : a = 123
    · rw [List.findIdx?_cons, if_pos (by simp [ha123])] at hc
      simp at hc
    · simp only [noEqBeforeBrace] at hne
      rw [if_neg ha123] at hne
      by_cases ha61 : a = 61
      · rw [if_pos ha61] at hne
        exact absurd hne (by simp)
      · rw [if_neg ha61] at hne
        rw [List.findIdx?_cons, if_neg (by simp [ha123]), List.findIdx?_succ] at hc
        cases hk : List.findIdx? (fun c => c = 123) r 0 with
        | some k =>
          rw [hk] at hc
          simp only [Option.map_some'] at hc
          have : k + 1 + 1 - 1 = k + 1 := by omega
          rw [this, List.take_succ_cons] at hc
          simp only [List.mem_cons] at hc
          rcases hc with hc | hc
          · subst hc; exact ha61
          · have := ih hne c
            rw [hk] at this
            exact this (by simpa using hc)
        | none =>
          rw [hk] at hc
          simp only [Option.map_none'] at hc
          cases r with
          | nil => simp at hc
          | cons x t =>
            have hlen : (a :: x :: t).length - 1 = t.length + 1 := by simp
            rw [hlen, List.take_succ_cons] at hc
            simp only [List.mem_cons] at hc
            rcases hc with hc | hc
            · subst hc; exact ha61
            · have := ih hne c
              rw [hk] at this
              have hlen2 : (x :: t).length - 1 = t.length := by simp
              rw [hlen2] at this
              exact this (by simpa using hc)


theorem findIdx?_shift (p : Nat → Bool) (l : List Nat) :
    ∀ i, List.findIdx? p l i = (List.findIdx? p l 0).map (· + i) := by
  intro i
  induction i with
  | zero => cases h : List.findIdx? p l 0 <;> simp [h]
  | succ j ih =>
    rw [List.findIdx?_succ, ih]
    cases h : List.findIdx? p l 0 with
    | none => simp
    | some a => simp; omega

theorem take_region_no_eq_some (l : List Nat) (hne : noEqBeforeBrace l = true)
    (k : Nat) (hk : List.findIdx? (fun c => c = 123) l 0 = some k) :
    ∀ c ∈ l.take k, c ≠ 61 := by
  have h := take_region_no_eq l hne
  rw [hk] at h
  simpa using h

theorem take_region_no_eq_none (l : List Nat) (hne : noEqBeforeBrace l = true)
    (hk : List.findIdx? (fun c => c = 123) l 0 = none) :
    ∀ c ∈ l.take (l.length - 1), c ≠ 61 := by
  have h := take_region_no_eq l hne
  rw [hk] at h
  simpa using h

/-- `parse_struct_encoding` recovers name and fields from a rendered
well-formed struct encoding. -/
theorem parse_struct_render (nm? : Option (List Nat)) (fs : EncList)
    (hwf : EncWF (.strukt nm? fs) = true) :
    parse_struct_encoding (render (.strukt nm? fs)) = some (nm?, encRList fs) := by
  have hwfs : EncListWF fs = true := by
    simp only [EncWF, Bool.and_eq_true] at hwf
    exact hwf.2
  cases nm? with
  | none =>
    have hnoeq : noEqBeforeBrace (renderList fs ++ [125]) = true :=
      noEq_renderList fs hwfs [125] (by decide)
    show parse_struct_encoding (123 :: (renderList fs ++ [125])) = some (none, encRList fs)
    simp only [parse_struct_encoding]
    rw [if_pos (by
      constructor
      · simp
      · rw [show (123 :: (renderList fs ++ [125])) = (123 :: renderList fs) ++ [125] by simp]
        exact List.getLast?_concat _)]
    simp only [List.drop_succ_cons, List.drop_zero]
    have hlen1 : (123 :: (renderList fs ++ [125])).length - 1 = (renderList fs ++ [125]).length := by
      simp
    have hlen2 : (123 :: (renderList fs ++ [125])).length - 2 = (renderList fs).length := by
      simp
    rw [hlen1, hlen2]
    rw [List.take_left]
    cases hfi : List.findIdx? (fun c => c = 123) (renderList fs ++ [125]) 0 with
    | some k =>
      dsimp only
      have hreg : List.findIdx? (fun c => c = 61)
          ((renderList fs ++ [125]).take (k + 1 - 1)) 0 = none := by
        rw [List.findIdx?_eq_none_iff]
        intro x hx
        have := take_region_no_eq_some (renderList fs ++ [125]) hnoeq k hfi x
          (by simpa using hx)
        simp [this]
      rw [hreg]
      rw [split_encodings_renderList fs hwfs]
      simp
    | none =>
      dsimp only
      have hreg : List.findIdx? (fun c => c = 61)
          ((renderList fs ++ [125]).take ((renderList fs ++ [125]).length - 1)) 0 = none := by
        rw [List.findIdx?_eq_none_iff]
        intro x hx
        have := take_region_no_eq_none (renderList fs ++ [125]) hnoeq hfi x hx
        simp [this]
      rw [hreg]
      rw [split_encodings_renderList fs hwfs]
      simp
  | some nm =>
    have hnm : ∀ c ∈ nm, plainByte c = true := by
      simp only [EncWF, Bool.and_eq_true, List.all_eq_true] at hwf
      exact hwf.1
    have hnm61 : ∀ c ∈ nm, c ≠ 61 := by
      intro c hc
      have := hnm c hc
      simp only [plainByte, Bool.not_eq_true', Bool.or_eq_false_iff,
        beq_eq_false_iff_ne] at this
      tauto
    have hnm123 : ∀ c ∈ nm ++ [61], (fun c => decide (c = 123)) c = false := by
      intro c hc
      simp only [List.mem_append, List.mem_singleton] at hc
      rcases hc with hc | hc
      · have := hnm c hc
        simp only [plainByte, Bool.not_eq_true', Bool.or_eq_false_iff,
          beq_eq_false_iff_ne] at this
        simp
        tauto
      · subst hc; decide
    show parse_struct_encoding (123 :: (nm ++ 61 :: (renderList fs ++ [125]))) =
      some (some nm, encRList fs)
    simp only [parse_struct_encoding]
    rw [if_pos (by
      constructor
      · simp
      · rw [show (123 :: (nm ++ 61 :: (renderList fs ++ [125]))) =
            (123 :: (nm ++ 61 :: renderList fs)) ++ [125] by simp]
        exact List.getLast?_concat _)]
    simp only [List.drop_succ_cons, List.drop_zero]
    -- the name separator search finds the `=` at index `nm.length`
    have hsep : ∀ j, nm.length + 1 ≤ j →
        List.findIdx? (fun c => c = 61)
          ((nm ++ 61 :: (renderList fs ++ [125])).take j) 0 = some nm.length := by
      intro j hj
      rw [List.take_append_eq_append_take]
      rw [List.take_of_length_le (by omega)]
      obtain ⟨j', hj'⟩ : ∃ j', j - nm.length = j' + 1 := ⟨j - nm.length - 1, by omega⟩
      rw [hj', List.take_succ_cons]
      exact findIdx?_name_eq nm _ hnm61
    have hlen1 : (123 :: (nm ++ 61 :: (renderList fs ++ [125]))).length - 1 =
        (nm ++ 61 :: (renderList fs ++ [125])).length := by
      simp
    rw [hlen1]
    have hname : (nm ++ 61 :: (renderList fs ++ [125])).take nm.length = nm := by
      rw [List.take_append_eq_append_take]
      simp
    have hfields : (nm ++ 61 :: (renderList fs ++ [125])).drop (nm.length + 1) =
        renderList fs ++ [125] := by
      rw [show nm ++ 61 :: (renderList fs ++ [125]) =
        (nm ++ [61]) ++ (renderList fs ++ [125]) by simp]
      exact List.drop_left' (by simp)
    have hflen : (nm ++ 61 :: (renderList fs ++ [125])).length - (nm.length + 2) =
        (renderList fs).length := by
      simp
      omega
    cases hfi : List.findIdx? (fun c => c = 123) (nm ++ 61 :: (renderList fs ++ [125])) 0 with
    | some k =>
      have hk : nm.length + 1 ≤ k := by
        have h1 := findIdx?_append_false0 (nm ++ [61]) (renderList fs ++ [125])
          (fun c => c = 123) hnm123
        rw [show (nm ++ [61]) ++ (renderList fs ++ [125]) =
          nm ++ 61 :: (renderList fs ++ [125]) by simp] at h1
        rw [hfi] at h1
        cases hin : List.findIdx? (fun c => c = 123) (renderList fs ++ [125]) 0 with
        | none => rw [hin] at h1; simp at h1
        | some j =>
          rw [hin] at h1
          simp at h1
          omega
      dsimp only
      rw [hsep (k + 1 - 1) (by omega)]
      dsimp only
      rw [hname, hfields, hflen, List.take_left]
      rw [split_encodings_renderList fs hwfs]
      simp
    | none =>
      dsimp only
      have hj : nm.length + 1 ≤ (nm ++ 61 :: (renderList fs ++ [125])).length - 1 := by
        simp
      rw [hsep _ hj]
      dsimp only
      rw [hname, hfields, hflen, List.take_left]
      rw [split_encodings_renderList fs hwfs]
      simp


theorem takeWhile_digits (l1 : List Nat) (h1 : ∀ c ∈ l1, 48 ≤ c ∧ c ≤ 57)
    (hd : Nat) (tl : List Nat) (hhd : ¬(48 ≤ hd ∧ hd ≤ 57)) :
    (l1 ++ hd :: tl).takeWhile (fun c => 48 ≤ c && c ≤ 57) = l1 := by
  induction l1 with
  | nil =>
    rw [List.nil_append]
    rw [List.takeWhile_cons_of_neg (by simpa using hhd)]
  | cons c l ih =>
    rw [List.cons_append]
    rw [List.takeWhile_cons_of_pos (by simpa using h1 c (by simp))]
    rw [ih (fun x hx => h1 x (by simp [hx]))]

theorem render_head_not_digit (e : Enc) (hwf : EncWF e = true) :
    ∃ hd tl, render e = hd :: tl ∧ ¬(48 ≤ hd ∧ hd ≤ 57) := by
  cases e with
  | prim b =>
    refine ⟨b, [], rfl, ?_⟩
    simp only [EncWF, primByte, Bool.and_eq_true, Bool.not_eq_true',
      Bool.and_eq_false_iff, decide_eq_false_iff_not] at hwf
    rcases hwf.2 with h | h <;> omega
  | arr m el => exact ⟨91, natDigits m ++ (render el ++ [93]), by simp [render], by omega⟩
  | strukt nm fs =>
    cases nm with
    | none => exact ⟨123, renderList fs ++ [125], by simp [render], by omega⟩
    | some nm => exact ⟨123, nm ++ 61 :: (renderList fs ++ [125]), by simp [render], by omega⟩

/-- `parse_array_encoding` recovers length and element encoding from a
rendered well-formed array encoding. -/
theorem parse_array_render (n : Nat) (e : Enc) (hwf : EncWF e = true) :
    parse_array_encoding (render (.arr n e)) = some (n, render e) := by
  show parse_array_encoding (91 :: (natDigits n ++ (render e ++ [93]))) = some (n, render e)
  simp only [parse_array_encoding]
  rw [if_pos (by
    constructor
    · simp
    · rw [show 91 :: (natDigits n ++ (render e ++ [93])) =
        (91 :: (natDigits n ++ render e)) ++ [93] by simp]
      exact List.getLast?_concat _)]
  simp only [List.drop_succ_cons, List.drop_zero]
  have hlen2 : (91 :: (natDigits n ++ (render e ++ [93]))).length - 2 =
      (natDigits n ++ render e).length := by
    simp
  rw [hlen2]
  rw [show natDigits n ++ (render e ++ [93]) = (natDigits n ++ render e) ++ [93] by simp]
  rw [List.take_left]
  obtain ⟨hd, tl, hre, hhd⟩ := render_head_not_digit e hwf
  rw [show natDigits n ++ render e = natDigits n ++ hd :: tl by rw [hre]]
  rw [takeWhile_digits (natDigits n) (natDigits_all_digits n) hd tl hhd]
  rw [List.drop_left]
  rw [if_neg (by
    rintro (h | h)
    · exact natDigits_ne_nil n h
    · rw [← hre] at h
      exact render_ne_nil e h)]
  rw [natDigits_foldl n, ← hre]


theorem encSize_pos (e : Enc) : 1 ≤ encSize e := by
  cases e <;> simp [encSize]

mutual
theorem encSize_le : ∀ (e : Enc), encSize e ≤ (render e).length
  | .prim b => by simp [encSize, render]
  | .arr n e => by
    have := encSize_le e
    simp only [encSize, render, List.length_cons, List.length_append]
    omega
  | .strukt nm fs => by
    have := encSizeList_le fs
    cases nm <;> (simp only [encSize, render, List.length_cons, List.length_append]; omega)

theorem encSizeList_le : ∀ (fs : EncList), encSizeList fs ≤ (renderList fs).length + 1
  | .nil => by simp [encSizeList, renderList]
  | .cons f fs => by
    have h1 := encSize_le f
    have h2 := encSizeList_le fs
    have h3 := render_length_pos f
    simp only [encSizeList, renderList, List.length_append]
    omega
end

theorem primByte_facts (b : Nat) (h : primByte b = true) :
    b ≠ 91 ∧ b ≠ 123 ∧ ¬(48 ≤ b ∧ b ≤ 57) := by
  simp only [primByte, plainByte, Bool.and_eq_true, Bool.not_eq_true',
    Bool.or_eq_false_iff, beq_eq_false_iff_ne, Bool.and_eq_false_iff,
    decide_eq_false_iff_not] at h
  obtain ⟨⟨⟨⟨⟨⟨⟨_, _⟩, h91⟩, _⟩, h123⟩, _⟩, _⟩, hdig⟩ := h
  refine ⟨h91, h123, ?_⟩
  rcases hdig with h | h <;> omega

/-- Tolerant encodings match: the `matchesF` recursion returns `true` on the
renders of two encodings related by `Tol`, given enough fuel. -/
theorem matchesF_of_tol : ∀ fuel : Nat,
    (∀ a e, EncWF a = true → EncWF e = true → Tol a e → encSize a ≤ fuel →
      matchesF fuel (render a) (render e) = some true) ∧
    (∀ fsa fse, EncListWF fsa = true → EncListWF fse = true → TolList fsa fse →
      encSizeList fsa ≤ fuel →
      allMatchF fuel (encRList fsa) (encRList fse) = some true) := by
  intro fuel
  induction fuel with
  | zero =>
    constructor
    · intro a e _ _ _ hsize
      have := encSize_pos a
      omega
    · intro fsa fse _ _ htl hsize
      cases htl with
      | nil => simp [encRList, allMatchF]
      | cons h1 h2 =>
        simp only [encSizeList] at hsize
        omega
  | succ n ih =>
    obtain ⟨ih1, ih2⟩ := ih
    constructor
    · intro a e hwa hwe htol hsize
      cases htol with
      | prim b =>
        obtain ⟨h91, h123, _⟩ := primByte_facts b hwa
        show matchesF (n + 1) [b] [b] = some true
        simp only [matchesF]
        rw [if_neg (by simp; omega)]
        rw [if_neg (by simp; omega)]
        simp
      | @arr m a' e' hsub =>
        have hwa' : EncWF a' = true := hwa
        have hwe' : EncWF e' = true := hwe
        simp only [matchesF]
        rw [if_neg (by simp [render])]
        rw [if_pos ⟨by simp [render], by simp [render]⟩]
        rw [parse_array_render m a' hwa', parse_array_render m e' hwe']
        dsimp only
        rw [if_pos rfl]
        apply ih1 a' e' hwa' hwe' hsub
        simp only [encSize] at hsize
        omega
      | @strukt an en fsa fse hname htl =>
        have hwa' : EncListWF fsa = true := by
          simp only [EncWF, Bool.and_eq_true] at hwa
          exact hwa.2
        have hwe' : EncListWF fse = true := by
          simp only [EncWF, Bool.and_eq_true] at hwe
          exact hwe.2
        simp only [matchesF]
        rw [if_pos ⟨by cases an <;> simp [render], by cases en <;> simp [render]⟩]
        rw [parse_struct_render an fsa hwa, parse_struct_render en fse hwe]
        dsimp only
        rw [if_pos hname]
        apply ih2 fsa fse hwa' hwe' htl
        simp only [encSize] at hsize
        omega
    · intro fsa fse hwa hwe htl hsize
      cases htl with
      | nil => simp [encRList, allMatchF]
      | @cons a e as' es h1 h2 =>
        have hwa1 : EncWF a = true := by
          simp only [EncListWF, Bool.and_eq_true] at hwa
          exact hwa.1
        have hwa2 : EncListWF as' = true := by
          simp only [EncListWF, Bool.and_eq_true] at hwa
          exact hwa.2
        have hwe1 : EncWF e = true := by
          simp only [EncListWF, Bool.and_eq_true] at hwe
          exact hwe.1
        have hwe2 : EncListWF es = true := by
          simp only [EncListWF, Bool.and_eq_true] at hwe
          exact hwe.2
        have hsa : encSize a ≤ n ∧ encSizeList as' ≤ n := by
          simp only [encSizeList] at hsize
          constructor <;> omega
        simp only [encRList, allMatchF]
        rw [ih1 a e hwa1 hwe1 h1 hsa.1]
        simp only [Option.bind_eq_bind, Option.some_bind, if_pos]
        exact ih2 as' es hwa2 hwe2 h2 hsa.2


/-- Matching renders are tolerant: whenever `matchesF` returns `true` on the
renders of two well-formed encodings, they are related by `Tol` — in
particular arrays must agree on length and match elementwise, and
non-composite encodings must be equal. -/
theorem tol_of_matchesF : ∀ fuel : Nat,
    (∀ a e, EncWF a = true → EncWF e = true →
      matchesF fuel (render a) (render e) = some true → Tol a e) ∧
    (∀ fsa fse, EncListWF fsa = true → EncListWF fse = true →
      allMatchF fuel (encRList fsa) (encRList fse) = some true → TolList fsa fse) := by
  intro fuel
  induction fuel with
  | zero =>
    constructor
    · intro a e _ _ h
      simp [matchesF] at h
    · intro fsa fse _ _ h
      cases fsa with
      | nil =>
        cases fse with
        | nil => exact .nil
        | cons g gs => simp [encRList, allMatchF] at h
      | cons f fs' =>
        cases fse with
        | nil => simp [encRList, allMatchF] at h
        | cons g gs => simp [encRList, allMatchF] at h
  | succ n ih =>
    obtain ⟨ih1, ih2⟩ := ih
    constructor
    · intro a e hwa hwe h
      cases a with
      | prim b =>
        obtain ⟨h91, h123, _⟩ := primByte_facts b hwa
        cases e with
        | prim b' =>
          obtain ⟨h91', h123', _⟩ := primByte_facts b' hwe
          show Tol (.prim b) (.prim b')
          simp only [matchesF] at h
          rw [if_neg (by simp [render]; try omega)] at h
          rw [if_neg (by simp [render]; try omega)] at h
          simp only [render] at h
          simp at h
          subst h
          exact Tol.prim b
        | arr m el =>
          exfalso
          simp only [matchesF] at h
          rw [if_neg (by simp [render]; try omega)] at h
          rw [if_neg (by simp [render]; try omega)] at h
          simp [render] at h
        | strukt nm fs =>
          exfalso
          simp only [matchesF] at h
          rw [if_neg (by cases nm <;> (simp [render]; try omega))] at h
          rw [if_neg (by cases nm <;> (simp [render]; try omega))] at h
          cases nm <;> simp [render] at h
      | arr m el =>
        have hwa' : EncWF el = true := hwa
        cases e with
        | prim b' =>
          exfalso
          obtain ⟨h91', h123', _⟩ := primByte_facts b' hwe
          simp only [matchesF] at h
          rw [if_neg (by simp [render]; try omega)] at h
          rw [if_neg (by simp [render]; try omega)] at h
          simp [render] at h
          try omega
        | arr m' el' =>
          have hwe' : EncWF el' = true := hwe
          simp only [matchesF] at h
          rw [if_neg (by simp [render])] at h
          rw [if_pos ⟨by simp [render], by simp [render]⟩] at h
          rw [parse_array_render m el hwa', parse_array_render m' el' hwe'] at h
          dsimp only at h
          by_cases hm : m = m'
          · subst hm
            rw [if_pos rfl] at h
            exact Tol.arr m (ih1 el el' hwa' hwe' h)
          · rw [if_neg hm] at h
            simp at h
        | strukt nm fs =>
          exfalso
          simp only [matchesF] at h
          rw [if_neg (by simp [render])] at h
          rw [if_neg (by cases nm <;> simp [render])] at h
          cases nm <;> simp [render] at h
      | strukt nm fs =>
        have hwa' : EncListWF fs = true := by
          simp only [EncWF, Bool.and_eq_true] at hwa
          exact hwa.2
        cases e with
        | prim b' =>
          exfalso
          obtain ⟨h91', h123', _⟩ := primByte_facts b' hwe
          simp only [matchesF] at h
          rw [if_neg (by cases nm <;> (simp [render]; try omega))] at h
          rw [if_neg (by cases nm <;> simp [render])] at h
          cases nm <;> simp [render] at h
        | arr m' el' =>
          exfalso
          simp only [matchesF] at h
          rw [if_neg (by simp [render])] at h
          rw [if_neg (by cases nm <;> simp [render])] at h
          cases nm <;> simp [render] at h
        | strukt nm' fs' =>
          have hwe' : EncListWF fs' = true := by
            simp only [EncWF, Bool.and_eq_true] at hwe
            exact hwe.2
          simp only [matchesF] at h
          rw [if_pos ⟨by cases nm <;> simp [render], by cases nm' <;> simp [render]⟩] at h
          rw [parse_struct_render nm fs hwa, parse_struct_render nm' fs' hwe] at h
          dsimp only at h
          by_cases hname : nm = none ∨ nm = some [63] ∨ nm = nm'
          · rw [if_pos hname] at h
            exact Tol.strukt hname (ih2 fs fs' hwa' hwe' h)
          · rw [if_neg hname] at h
            simp at h
    · intro fsa fse hwa hwe h
      cases fsa with
      | nil =>
        cases fse with
        | nil => exact .nil
        | cons g gs => simp [encRList, allMatchF] at h
      | cons f fs' =>
        cases fse with
        | nil => simp [encRList, allMatchF] at h
        | cons g gs =>
          have hwa1 : EncWF f = true := by
            simp only [EncListWF, Bool.and_eq_true] at hwa
            exact hwa.1
          have hwa2 : EncListWF fs' = true := by
            simp only [EncListWF, Bool.and_eq_true] at hwa
            exact hwa.2
          have hwe1 : EncWF g = true := by
            simp only [EncListWF, Bool.and_eq_true] at hwe
            exact hwe.1
          have hwe2 : EncListWF gs = true := by
            simp only [EncListWF, Bool.and_eq_true] at hwe
            exact hwe.2
          simp only [encRList, allMatchF] at h
          cases hb : matchesF n (render f) (render g) with
          | none => rw [hb] at h; simp at h
          | some bv =>
            rw [hb] at h
            cases bv with
            | false => simp at h
            | true =>
              simp only [Option.bind_eq_bind, Option.some_bind, if_pos] at h
              exact TolList.cons (ih1 f g hwa1 hwe1 hb) (ih2 fs' gs hwa2 hwe2 h)


/-- **C4** (amended): tolerance of the matches predicate, over the grammar of
well-formed single type encodings.  `encoding_matches_expected` accepts an
actual encoding against an expected one exactly when the two agree up to
struct names, where at any nesting depth the actual struct name may be the
expected one, `?`, or omitted entirely (the anonymous `{...}` form); array
encodings must agree on the length and match elementwise, and all other
(non-composite) encodings match only when they are equal.  Replacing a
struct name by the *empty* name (`{=...}`), as the original claim stated, is
not tolerated (see the counterexample). -/
theorem encoding_matches_expected_tolerance (a e : Enc)
    (hwa : EncWF a = true) (hwe : EncWF e = true) :
    encoding_matches_expected (render a) (render e) = true ↔ Tol a e := by
  constructor
  · intro h
    unfold encoding_matches_expected at h
    cases hm : matchesF ((render a).length + 2 * (render e).length + 1)
        (render a) (render e) with
    | none => rw [hm] at h; simp at h
    | some b =>
      rw [hm] at h
      simp only [Option.getD_some] at h
      subst h
      exact (tol_of_matchesF _).1 a e hwa hwe hm
  · intro ht
    unfold encoding_matches_expected
    rw [(matchesF_of_tol ((render a).length + 2 * (render e).length + 1)).1 a e hwa hwe ht
      (by
        have h1 := encSize_le a
        omega)]
    simp

set_option maxRecDepth 4000 in
theorem encoding_matches_expected_tolerance_witness :
    EncWF (Enc.strukt (some [63]) (EncList.cons (Enc.prim 99) EncList.nil)) = true ∧
    EncWF (Enc.strukt (some (bytesOfString "foo")) (EncList.cons (Enc.prim 99) EncList.nil)) = true ∧
    render (Enc.strukt (some [63]) (EncList.cons (Enc.prim 99) EncList.nil)) =
      bytesOfString "{?=c}" ∧
    render (Enc.strukt (some (bytesOfString "foo")) (EncList.cons (Enc.prim 99) EncList.nil)) =
      bytesOfString "{foo=c}" ∧
    encoding_matches_expected
      (render (Enc.strukt (some [63]) (EncList.cons (Enc.prim 99) EncList.nil)))
      (render (Enc.strukt (some (bytesOfString "foo")) (EncList.cons (Enc.prim 99) EncList.nil))) =
      true :=
  ⟨by decide, by decide, by decide, by decide,
    (encoding_matches_expected_tolerance
      (Enc.strukt (some [63]) (EncList.cons (Enc.prim 99) EncList.nil))
      (Enc.strukt (some (bytesOfString "foo")) (EncList.cons (Enc.prim 99) EncList.nil))
      (by decide) (by decide)).mpr
      (Tol.strukt (Or.inr (Or.inl rfl)) (TolList.cons (Tol.prim 99) TolList.nil))⟩

set_option maxRecDepth 4000 in
/-- The original claim's tolerance for the *empty* struct name fails on the
code: `{=c}` — the struct encoding `{foo=c}` with its name replaced by the
empty name — is parsed as a struct named by the empty byte string, which is
neither `None` nor `?` nor equal to `foo`, so the matcher rejects it. -/
theorem encoding_matches_expected_empty_name_counterexample :
    parse_struct_encoding (bytesOfString "{=c}") = some (some [], [[99]]) ∧
    parse_struct_encoding (bytesOfString "{foo=c}") =
      some (some (bytesOfString "foo"), [[99]]) ∧
    encoding_matches_expected (bytesOfString "{=c}") (bytesOfString "{foo=c}") = false :=
  ⟨by decide, by decide, by decide⟩

end TypedStream
